import Mathlib

/-!
# Min-conflicts repair and the n-queens board

A shallow embedding of `minconflicts/mc.go`, of the board, its lines and its
attack, collinear and angle constraints in `minconflicts/nqueens/nqueens.go`, and
of the slopes of `minconflicts/nqueens/slope.go`.

Modelling conventions.

* Go's `int`, `Var` and `Val` are `Int`, and `int` is taken at 64 bits.  A
  constraint is any function to `int`, so a count can be as large as the largest
  `int`: the addition `conflicts[0]+1` of `Heuristic`, which then wraps, is
  `wrap64`.  Columns, rows and the counts of the attack, collinear and angle
  constraints are bounded by the board and are not wrapped; the sum of
  `conflicts` is taken in `Int`, which is Go's sum whenever the partial sums stay
  within 64 bits.
* A run that ends in a Go runtime panic is `Fault.panic`.
* The random source is the list of the raw outcomes of the successive
  `rand.Intn` calls; `rand.Intn n` returns the next outcome reduced modulo `n`,
  so every value of `[0, n)` is a possible result.  A run that asks for more
  outcomes than the list holds is `Fault.starved`: the list does not determine
  the run.
* The goroutines of `NQueens.Conflicts` append to the report under a mutex; the
  order in which they do so is a parameter `order`, a permutation of the
  columns.  The goroutines of `NQueens.Heuristic` write to distinct slots, so
  the slice they fill does not depend on the schedule.
-/

namespace minconflicts

/-- Go: `type Var int`.  The name is used in the signatures of the interface; the
records and the board below spell the type `Int`. -/
abbrev Var := Int

/-- Go: `type Val int`. -/
abbrev Val := Int

/-- Go: `type Conflict struct { Var Var; Conflicts int }`. -/
structure Conflict where
  Var : Int
  Conflicts : Int
deriving DecidableEq

/-- Ways in which a run fails to return: a runtime panic, or the supplied
random outcomes being used up. -/
inductive Fault where
  | panic
  | starved
deriving DecidableEq

/-- The outcomes of the successive `rand.Intn` calls still to come. -/
abbrev Rand := List Nat

/-- Go: `rand.Intn(n)`; panics when `n <= 0`, else returns a value of `[0, n)`. -/
def Intn (n : Int) (r : Rand) : Except Fault (Int × Rand) :=
  if n ≤ 0 then .error .panic
  else match r with
    | [] => .error .starved
    | d :: ds => .ok ((d : Int) % n, ds)

/-- Go: the slice read `s[i]`, which panics when `i` is out of range. -/
def index {α : Type} (s : List α) (i : Int) : Except Fault α :=
  if 0 ≤ i ∧ i < s.length then
    match s[i.toNat]? with
    | some a => .ok a
    | none => .error .panic
  else .error .panic

/-- Go: `type MinConflict interface`.  A method is a transformer of the
subject's state that may fault; `Heuristic` is the method through which the
repository's implementation draws from the random source, so the source is
threaded through it. -/
structure MinConflict (σ : Type) where
  Conflicts : σ → Except Fault (List Conflict × σ)
  Heuristic : Var → σ → Rand → Except Fault ((Val × Int) × σ × Rand)
  Assign : Var → Val → σ → Except Fault σ
  Unassign : Var → σ → Except Fault (Val × σ)
  Size : σ → Except Fault (Int × σ)

variable {σ : Type}

/-- The body of `for i := range cs` in `Step` (mc.go lines 41-53), run for the
indices `is` still to come.  The flag is `true` when the loop left through
`return false` at line 49 (a variable was improved). -/
def scanLoop (mc : MinConflict σ) (cs : List Conflict) (off : Int) :
    List Nat → σ → Rand → Except Fault (Bool × σ × Rand)
  | [], s, r => .ok (false, s, r)
  | i :: is, s, r =>
    match index cs (((i : Int) + off) % cs.length) with
    | .error e => .error e
    | .ok c =>
      match mc.Unassign c.Var s with
      | .error e => .error e
      | .ok (val, s1) =>
        match mc.Heuristic c.Var s1 r with
        | .error e => .error e
        | .ok ((minVal, minCost), s2, r2) =>
          if minCost < c.Conflicts then
            match mc.Assign c.Var minVal s2 with
            | .error e => .error e
            | .ok s3 => .ok (true, s3, r2)
          else
            match mc.Assign c.Var val s2 with
            | .error e => .error e
            | .ok s3 => scanLoop mc cs off is s3 r2

/-- Lines 55-58 of `Step`: the first variable of the swap. -/
def swapAnchor (mc : MinConflict σ) (cs : List Conflict) (off : Int) (s : σ) (r : Rand) :
    Except Fault (Var × σ × Rand) :=
  match index cs off with
  | .error e => .error e
  | .ok c =>
    match Intn 2 r with
    | .error e => .error e
    | .ok (coin, r1) =>
      if coin = 0 then
        match mc.Size s with
        | .error e => .error e
        | .ok (size, s1) =>
          match Intn size r1 with
          | .error e => .error e
          | .ok (v, r2) => .ok (v, s1, r2)
      else .ok (c.Var, s, r1)

/-- Lines 59-62 of `Step`: `for var2 == var1 { var2 = Var(rand.Intn(mc.Size())) }`.
Every iteration consumes one outcome, so the iteration bound `fuel` is taken one
above the number of outcomes left and is never the reason for stopping. -/
def pickVar2 (mc : MinConflict σ) (var1 : Var) : Nat → σ → Rand → Except Fault (Var × σ × Rand)
  | 0, _, _ => .error .starved
  | fuel + 1, s, r =>
    match mc.Size s with
    | .error e => .error e
    | .ok (size, s1) =>
      match Intn size r with
      | .error e => .error e
      | .ok (var2, r1) =>
        if var2 = var1 then pickVar2 mc var1 fuel s1 r1 else .ok (var2, s1, r1)

/-- Lines 63-66 of `Step`: exchange the values of `var1` and `var2`. -/
def swapVals (mc : MinConflict σ) (var1 var2 : Var) (s : σ) : Except Fault σ :=
  match mc.Unassign var1 s with
  | .error e => .error e
  | .ok (val1, s1) =>
    match mc.Unassign var2 s1 with
    | .error e => .error e
    | .ok (val2, s2) =>
      match mc.Assign var1 val2 s2 with
      | .error e => .error e
      | .ok s3 => mc.Assign var2 val1 s3

/-- Lines 54-66 of `Step`: the escape move. -/
def escape (mc : MinConflict σ) (cs : List Conflict) (off : Int) (s : σ) (r : Rand) :
    Except Fault (Bool × σ × Rand) :=
  match swapAnchor mc cs off s r with
  | .error e => .error e
  | .ok (var1, s1, r1) =>
    match pickVar2 mc var1 (r1.length + 1) s1 r1 with
    | .error e => .error e
    | .ok (var2, s2, r2) =>
      match swapVals mc var1 var2 s2 with
      | .error e => .error e
      | .ok s3 => .ok (false, s3, r2)

/-- Go: `func Step(mc MinConflict) bool`.  Returns the flag, the subject's state
after the step and the random outcomes not yet consumed. -/
def Step (mc : MinConflict σ) (s : σ) (r : Rand) : Except Fault (Bool × σ × Rand) :=
  match mc.Conflicts s with
  | .error e => .error e
  | .ok (cs, s0) =>
    if cs.length = 0 then .ok (true, s0, r)
    else
      match Intn cs.length r with
      | .error e => .error e
      | .ok (off, r1) =>
        match scanLoop mc cs off (List.range cs.length) s0 r1 with
        | .error e => .error e
        | .ok (true, s1, r2) => .ok (false, s1, r2)
        | .ok (false, s1, r2) => escape mc cs off s1 r2

end minconflicts

namespace nqueens

open minconflicts

/-- The fields of Go's `NQueens` that a constraint reads: `rows`, indexed by
column, and the board size `n`.  (`New` allocates `rows` with length `n`, and a
negative `n` makes `New` panic, so `n` is a natural number.) -/
structure Grid where
  rows : List Int
  n : Nat
deriving DecidableEq

/-- Go: `type Constraint func(nq *NQueens, x, y int) int`.  The constraints of
the repository read the board only through `rows`, `n`, `line` and `ray`. -/
abbrev Constraint := Grid → Int → Int → Int

/-- Go: `type NQueens struct { rows; n; constraints }`. -/
structure NQueens extends Grid where
  constraints : List Constraint

/-- Go: `nq.rows[i]`, for an index the source has checked to be in range. -/
def Grid.rowAt (g : Grid) (i : Int) : Int := g.rows.getD i.toNat 0

/-- The loop condition of `ray`: `i >= 0 && i < nq.n && j >= 0 && j < nq.n`. -/
def Grid.onBoard (g : Grid) (i j : Int) : Prop := 0 ≤ i ∧ i < g.n ∧ 0 ≤ j ∧ j < g.n

instance (g : Grid) (i j : Int) : Decidable (g.onBoard i j) := by
  unfold Grid.onBoard; infer_instance

/-- The loop of `ray` from position `(i, j)` with `ret` pieces counted so far.
`fuel` bounds the number of iterations; `none` means the loop has not left by
its condition within that many. -/
def Grid.rayLoop (g : Grid) (incx incy : Int) : Nat → Int → Int → Int → Option Int
  | fuel, i, j, ret =>
    if g.onBoard i j then
      match fuel with
      | 0 => none
      | fuel + 1 =>
        g.rayLoop incx incy fuel (i + incx) (j + incy) (if g.rowAt i = j then ret + 1 else ret)
    else some ret

/-- Go: `func (nq *NQueens) ray(x, y, incx, incy int) int`.  For a direction other
than `(0,0)` the loop leaves the board within `n` iterations (`rayLoop_isSome`);
for `(0,0)` from a cell of the board the source does not terminate, and no
caller in the repository passes that direction. -/
def Grid.ray (g : Grid) (x y incx incy : Int) : Int :=
  (g.rayLoop incx incy g.n (x + incx) (y + incy) 0).getD 0

/-- Go: `func (nq *NQueens) line(x, y, incx, incy int) int`. -/
def Grid.line (g : Grid) (x y incx incy : Int) : Int :=
  g.ray x y incx incy + g.ray x y (-incx) (-incy)

/-- Go: `func (nq *NQueens) conflicts(x, y int) int`.  The sum is taken in `Int`:
it is Go's `ret += ...` as long as the partial sums stay within 64 bits, as those
of the attack, collinear and angle counts do on a board that fits in memory. -/
def NQueens.conflicts (nq : NQueens) (x y : Int) : Int :=
  nq.constraints.foldl (fun ret constraint => ret + constraint nq.toGrid x y) 0

/-- Go: `func New(n int, cs ...Constraint) *NQueens`; all columns on row 0. -/
def New (n : Nat) (cs : List Constraint) : NQueens :=
  { rows := List.replicate n 0, n := n, constraints := cs }

/-- Go: `func (nq *NQueens) Constrain(cs ...Constraint)`. -/
def NQueens.Constrain (nq : NQueens) (cs : List Constraint) : NQueens :=
  { nq with constraints := cs }

/-- Go: `func (nq *NQueens) Conflicts() []mc.Conflict`.  `order` lists the columns
in the order in which their goroutines take the mutex. -/
def NQueens.Conflicts (order : List Nat) (nq : NQueens) : List Conflict :=
  order.filterMap fun (col : Nat) =>
    let c := nq.conflicts (col : Int) (nq.rowAt (col : Int))
    if c ≠ 0 then some { Var := col, Conflicts := c } else none

/-- Go's `int` on a 64-bit target: the value an integer result has after the
wrap-around of two's complement arithmetic. -/
def wrap64 (x : Int) : Int :=
  (x + 9223372036854775808) % 18446744073709551616 - 9223372036854775808

/-- The first loop of `Heuristic` (lines 69-78) over the slice `conflicts` from
index `row` on; the state is `(minVal, minConflicts, c)`. -/
def scanMin : List Int → Int → Int × Int × Int → Int × Int × Int
  | [], _, st => st
  | x :: xs, row, (minVal, minConflicts, c) =>
    if minConflicts ≥ x then
      if minConflicts = x then scanMin xs (row + 1) (minVal, minConflicts, c + 1)
      else scanMin xs (row + 1) (row, x, 1)
    else scanMin xs (row + 1) (minVal, minConflicts, c)

/-- The second loop of `Heuristic` (lines 85-93) over the slice `conflicts` from
index `row` on, with `idx` ties still to skip. -/
def tieBreak (minConflicts : Int) : List Int → Int → Int → Int → Int
  | [], _, _, minVal => minVal
  | x :: xs, row, idx, minVal =>
    if x = minConflicts then
      if idx = 0 then row else tieBreak minConflicts xs (row + 1) (idx - 1) minVal
    else tieBreak minConflicts xs (row + 1) idx minVal

/-- The slice `conflicts` that the goroutines of `Heuristic` fill (lines 57-66). -/
def NQueens.rowConflicts (nq : NQueens) (col : Int) : List Int :=
  (List.range nq.n).map fun (row : Nat) => nq.conflicts col (row : Int)

/-- Go: `func (nq *NQueens) Heuristic(col mc.Var) (mc.Val, int)`.  The initial
`minConflicts` is `conflicts[0]+1` in Go's `int`: with the largest `int` in
`conflicts[0]` it is the smallest one. -/
def NQueens.Heuristic (nq : NQueens) (col : Int) (r : Rand) :
    Except Fault ((Int × Int) × Rand) :=
  let conflicts := nq.rowConflicts col
  match index conflicts 0 with
  | .error e => .error e
  | .ok c0 =>
    match scanMin conflicts 0 (0, wrap64 (c0 + 1), 0) with
    | (minVal, minConflicts, c) =>
      if c = 1 then .ok ((minVal, minConflicts), r)
      else
        match Intn c r with
        | .error e => .error e
        | .ok (idx, r1) => .ok ((tieBreak minConflicts conflicts 0 idx minVal, minConflicts), r1)

/-- Go: `func (nq *NQueens) Assign(v mc.Var, vv mc.Val)`. -/
def NQueens.Assign (v : Int) (vv : Int) (nq : NQueens) : Except Fault NQueens :=
  if 0 ≤ v ∧ v < nq.rows.length then .ok { nq with rows := nq.rows.set v.toNat vv }
  else .error .panic

/-- Go: `func (nq *NQueens) Unassign(v mc.Var) mc.Val`. -/
def NQueens.Unassign (v : Int) (nq : NQueens) : Except Fault (Int × NQueens) :=
  if 0 ≤ v ∧ v < nq.rows.length then
    .ok (nq.rowAt v, { nq with rows := nq.rows.set v.toNat (-1) })
  else .error .panic

/-- Go: `func (nq *NQueens) Size() int`. -/
def NQueens.Size (nq : NQueens) : Int := nq.n

/-- The board as a `MinConflict` subject, for a run in which the goroutines of
`Conflicts` report in the order `order`. -/
def NQueens.subject (order : List Nat) : MinConflict NQueens where
  Conflicts := fun nq => .ok (nq.Conflicts order, nq)
  Heuristic := fun v nq r =>
    match nq.Heuristic v r with
    | .error e => .error e
    | .ok (p, r1) => .ok (p, nq, r1)
  Assign := fun v vv nq => NQueens.Assign v vv nq
  Unassign := fun v nq => NQueens.Unassign v nq
  Size := fun nq => .ok (nq.Size, nq)

/-- Go: the closure returned by `NewConstraintAttack`. -/
def attack : Constraint := fun g x y =>
  g.line x y 1 0 + g.line x y 0 1 + g.line x y 1 1 + g.line x y (-1) 1

/-- Go: `func NewConstraintAttack(n int) (Constraint, error)`; `none` is
`ErrNoSolution`. -/
def NewConstraintAttack (n : Int) : Option Constraint :=
  if n = 2 ∨ n = 3 then none else some attack

/-- Go: `type slope struct { x int; y int }`. -/
structure slope where
  x : Int
  y : Int
deriving DecidableEq

/-- The loop of `gcd`: `for b != 0 { a, b = b, a%b }`, where Go's `%` is the
remainder of the division that truncates toward zero.  `fuel` bounds the number
of iterations; `none` means the loop has not ended within that many. -/
def gcdLoop : Nat → Int → Int → Option Int
  | fuel, a, b =>
    if b ≠ 0 then
      match fuel with
      | 0 => none
      | fuel + 1 => gcdLoop fuel b (a.tmod b)
    else some a

/-- Go: `func gcd(a, b int) int`.  The absolute value of `b` falls in every
iteration, so the loop ends within `|b|` iterations (`gcdLoop_isSome`). -/
def gcd (a b : Int) : Int := (gcdLoop b.natAbs a b).getD 0

/-- Go: `func newSlopes(n int) (slopes []slope)`. -/
def newSlopes (n : Int) : List slope :=
  (List.range' 1 (n - 1).toNat).flatMap fun (i : Nat) =>
    (List.range' 1 (n - 1).toNat).filterMap fun (j : Nat) =>
      if gcd (i : Int) (j : Int) ≠ 1 then none else some { x := (i : Int), y := (j : Int) }

/-- Go: the integer division `a / b`, which truncates toward zero and panics when
`b` is zero. -/
def goDiv (a b : Int) : Except Fault Int :=
  if b = 0 then .error .panic else .ok (a.tdiv b)

/-- Go: the slice expression `s[1:]`, which panics when `s` is empty. -/
def dropFirst {α : Type} (s : List α) : Except Fault (List α) :=
  match s with
  | [] => .error .panic
  | _ :: rest => .ok rest

/-- Go: `if pts > maxPts { ret += pts - maxPts }`. -/
def addExcess (maxPts ret pts : Int) : Int :=
  if pts > maxPts then ret + (pts - maxPts) else ret

/-- Go: the closure returned by `NewConstraintColinear` (lines 178-189), over the
slopes and the decremented `maxPts` it captures. -/
def colinear (slopes : List slope) (maxPts : Int) : Constraint := fun g x y =>
  slopes.foldl (fun ret s =>
    addExcess maxPts (addExcess maxPts ret (g.line x y s.x s.y)) (g.line x y (-s.x) s.y)) 0

/-- Go: `func NewConstraintColinear(maxPts, n int) (Constraint, error)`; `.ok none`
is the return of `ErrNoSolution`. -/
def NewConstraintColinear (maxPts n : Int) : Except Fault (Option Constraint) :=
  if n = 1 then .ok (some fun _ _ _ => 0)
  else if (n = 2 ∨ n = 3 ∨ n = 5 ∨ n = 6 ∨ n = 7) ∧ maxPts ≤ 2 then .ok none
  else
    match goDiv n maxPts with
    | .error e => .error e
    | .ok q =>
      match dropFirst (newSlopes (1 + q)) with
      | .error e => .error e
      | .ok slopes => .ok (some (colinear slopes (maxPts - 1)))

/-- Go: the closure returned by `NewConstraintAngle` (lines 200-230), over the
slopes and the decremented `maxPts` it captures.  In the last case `x` and `y` are
not zero, so `gcd x y` is not zero and the divisions do not panic. -/
def angle (slopes : List slope) (maxPts : Int) : Constraint := fun g x y =>
  if x = 0 ∧ y = 0 then
    slopes.foldl (fun ret s => addExcess maxPts ret (g.line 0 0 s.x s.y)) 0
  else if x = 0 ∨ y = 0 then 0
  else
    let d := gcd x y
    let pts := g.line 0 0 (x.tdiv d) (y.tdiv d)
    let pts := if g.rowAt 0 = 0 then pts + 1 else pts
    let pts := if g.rowAt x = y then pts - 1 else pts
    if pts > maxPts then pts - maxPts else 0

/-- Go: `func NewConstraintAngle(maxPts, n int) (Constraint, error)`; it never
returns an error value. -/
def NewConstraintAngle (maxPts n : Int) : Except Fault (Option Constraint) :=
  if n = 1 then .ok (some fun _ _ _ => 0)
  else
    match goDiv n maxPts with
    | .error e => .error e
    | .ok q =>
      match dropFirst (newSlopes (1 + q)) with
      | .error e => .error e
      | .ok slopes => .ok (some (angle slopes (maxPts - 1)))

end nqueens

/-! ## Definitions used to state and prove the properties -/

namespace nqueens

open minconflicts

/-- The cell reached from `(x, y)` after `t` steps of `(dx, dy)` is on the board
and holds a piece. -/
def Grid.hit (g : Grid) (x y dx dy t : Int) : Prop :=
  g.onBoard (x + t * dx) (y + t * dy) ∧ g.rowAt (x + t * dx) = y + t * dy

instance (g : Grid) (x y dx dy t : Int) : Decidable (g.hit x y dx dy t) := by
  unfold Grid.hit; infer_instance

/-- The indices, counted from `row`, at which the slice holds the value `mn`, in
ascending order. -/
def indicesOf (mn : Int) : List Int → Int → List Int
  | [], _ => []
  | x :: xs, row => if x = mn then row :: indicesOf mn xs (row + 1) else indicesOf mn xs (row + 1)

/-- The rows of `[0, n)` at which column `col` has the fewest conflicts, in
ascending order. -/
def NQueens.minimizers (nq : NQueens) (col : Int) : List Int :=
  List.map (fun r : Nat => (r : Int))
    (List.filter (fun r : Nat => ∀ r' ∈ List.range nq.n, nq.conflicts col r ≤ nq.conflicts col r')
      (List.range nq.n))

/-- The fewest conflicts column `col` can have: the count at its first minimizing
row. -/
def NQueens.minCost (nq : NQueens) (col : Int) : Int :=
  nq.conflicts col ((nq.minimizers col).headD 0)

/-- The board with column `v` moved to row `vv`. -/
def NQueens.setRow (nq : NQueens) (v vv : Int) : NQueens :=
  { nq with rows := nq.rows.set v.toNat vv }

/-- The invariant `New` establishes: `rows` has one entry per column. -/
def NQueens.wf (nq : NQueens) : Prop := nq.rows.length = nq.n

instance (nq : NQueens) : Decidable nq.wf := by
  unfold NQueens.wf; infer_instance

/-- Every column holds a row of `[0, n)`: no column is at the sentinel `-1`. -/
def NQueens.total (nq : NQueens) : Prop :=
  ∀ v : Int, 0 ≤ v → v < nq.n → 0 ≤ nq.rowAt v ∧ nq.rowAt v < nq.n

/-- The entry of the report that `Step` examines in iteration `i` of its scan:
`cs[(i+off)%len(cs)]`. -/
def entry (cs : List Conflict) (off : Int) (i : Nat) : Conflict :=
  cs.getD (((i : Int) + off) % cs.length).toNat ⟨0, 0⟩

/-- The heuristic cost of the variable of `c`, computed with only that variable
unassigned, is strictly less than its reported conflict count. -/
def NQueens.improvable (nq : NQueens) (c : Conflict) : Prop :=
  (nq.setRow c.Var (-1)).minCost c.Var < c.Conflicts

instance (nq : NQueens) (c : Conflict) : Decidable (nq.improvable c) := by
  unfold NQueens.improvable; infer_instance

/-- The addition `conflicts[0]+1` of `Heuristic(col)` stays within Go's `int`. -/
def NQueens.fits (nq : NQueens) (col : Int) : Prop :=
  -9223372036854775808 ≤ nq.conflicts col 0 + 1 ∧ nq.conflicts col 0 + 1 ≤ 9223372036854775807

instance (nq : NQueens) (col : Int) : Decidable (nq.fits col) := by
  unfold NQueens.fits; infer_instance

/-- The heuristic calls of a scan stay within Go's `int`: for every column, the
addition `conflicts[0]+1` on the board with that column unassigned. -/
def NQueens.scanFits (nq : NQueens) : Prop :=
  ∀ v ∈ List.range nq.n, (nq.setRow (v : Int) (-1)).fits (v : Int)

instance (nq : NQueens) : Decidable nq.scanFits := by
  unfold NQueens.scanFits; infer_instance

/-- The board with the rows of columns `v1` and `v2` exchanged. -/
def NQueens.swapRows (nq : NQueens) (v1 v2 : Int) : NQueens :=
  (nq.setRow v1 (nq.rowAt v2)).setRow v2 (nq.rowAt v1)

/-- Outcomes that end in at least `t` zeros followed by a one. -/
def goodDraws (t : Nat) (r : Rand) : Prop :=
  ∃ (p : List Nat) (K : Nat), r = p ++ (List.replicate K 0 ++ [1]) ∧ t ≤ K

/-- A board of size 4 under the attack constraint on which columns 1 and 2
conflict and neither can be improved. -/
def plateauBoard : NQueens := { rows := [0, 2, 3, 1], n := 4, constraints := [attack] }

/-- The board `New` builds for size 10: every column on row 0. -/
def rowZeroBoard : NQueens := New 10 []

/-- The board of size 4 with every column on row 0, under the attack constraint. -/
def crowdedBoard : NQueens := { rows := [0, 0, 0, 0], n := 4, constraints := [attack] }

/-- The order in which the nested loops of `newSlopes` append: ascending in `x`,
and ascending in `y` among equal `x`. -/
def slope.before (s t : slope) : Prop := s.x < t.x ∨ (s.x = t.x ∧ s.y < t.y)

/-- The number of pieces on the line through the origin with direction
`(dx, dy)`, not counting the origin cell. -/
def Grid.originLinePieces (g : Grid) (dx dy : Int) : Nat :=
  ((Finset.Ico (0 : Int) g.n).filter (fun i =>
    i ≠ 0 ∧ (0 ≤ g.rowAt i ∧ g.rowAt i < g.n) ∧ i * dy = g.rowAt i * dx)).card

/-- The sum over every irreducible direction `(dx, dy)` with `1 <= dx, dy <= B`,
the diagonal `(1,1)` included, of the excess of the pieces on its line through
the origin over `maxPts - 1`. -/
def originExcessAll (maxPts : Int) (g : Grid) (B : Int) : Int :=
  ∑ d ∈ ((Finset.Icc (1 : Int) B) ×ˢ (Finset.Icc (1 : Int) B)).filter
      (fun d => Int.gcd d.1 d.2 = 1),
    max 0 ((g.originLinePieces d.1 d.2 : Int) - (maxPts - 1))

/-- The same sum without the diagonal `(1,1)`. -/
def originExcessOffDiagonal (maxPts : Int) (g : Grid) (B : Int) : Int :=
  ∑ d ∈ ((Finset.Icc (1 : Int) B) ×ˢ (Finset.Icc (1 : Int) B)).filter
      (fun d => Int.gcd d.1 d.2 = 1 ∧ ¬ (d.1 = 1 ∧ d.2 = 1)),
    max 0 ((g.originLinePieces d.1 d.2 : Int) - (maxPts - 1))

/-- The board of size 4 with every column on the main diagonal. -/
def diagonalGrid : Grid := { rows := [0, 1, 2, 3], n := 4 }

/-- The constraints the repository can build: the attack closure and whatever
the collinear and angle factories return. -/
def repoConstraint (c : Constraint) : Prop :=
  c = attack ∨ (∃ maxPts n : Int, NewConstraintColinear maxPts n = .ok (some c)) ∨
    (∃ maxPts n : Int, NewConstraintAngle maxPts n = .ok (some c))

/-- The board of the tests after their direct writes to `nq.rows`: one column per
entry of `rows`, under the constraints `cs`. -/
def boardOf (rows : List Int) (cs : List Constraint) : NQueens :=
  { rows := rows, n := rows.length, constraints := cs }

/-- The slopes the collinear and angle factories keep for `maxPts = 2` on `n = 10`:
`newSlopes(1 + 10/2)[1:]`. -/
def testSlopes : List slope := (newSlopes 6).drop 1

/-- Rows of `TestAngleConflicts`: `rows[i] = 2i` for `i < 5` on the board of size 10. -/
def doubledRows : List Int := [0, 2, 4, 6, 8, 0, 0, 0, 0, 0]

/-- Rows of `TestAngleConflicts`: `rows[2i] = i` for `i < 5` on the board of size 10. -/
def halvedRows : List Int := [0, 0, 1, 0, 2, 0, 3, 0, 4, 0]

/-- A board of size 4 under the attack constraint and the collinear and angle
constraints the factories build for `maxPts = 2`, `n = 4`. -/
def mixedBoard : NQueens :=
  boardOf [0, 0, 0, 0] [attack, colinear ((newSlopes 3).drop 1) 1, angle ((newSlopes 3).drop 1) 1]

/-- A constraint a caller can pass to `New`: every cell costs the largest `int`,
`math.MaxInt64`. -/
def maxCost : Constraint := fun _ _ _ => 9223372036854775807

/-- A constraint a caller can pass to `New`: a piece on row 0 costs the largest
`int`, a piece on any other row 5. -/
def steepCost : Constraint := fun _ _ y => if y = 0 then 9223372036854775807 else 5

/-- A constraint a caller can pass to `New`: a piece on row 0 costs the largest
`int`, a piece on row 1 nothing, a piece on any other row 1. -/
def gradedCost : Constraint := fun _ _ y =>
  if y = 0 then 9223372036854775807 else if y = 1 then 0 else 1

end nqueens

/-! ## Properties -/

namespace minconflicts

variable {σ : Type}

theorem escape_flag (mc : MinConflict σ) (cs : List Conflict) (off : Int) (s s' : σ) (r r' : Rand)
    (b : Bool) (h : escape mc cs off s r = .ok (b, s', r')) : b = false := by
  unfold escape at h
  split at h
  · simp at h
  · split at h
    · simp at h
    · split at h
      · simp at h
      · simp only [Except.ok.injEq, Prod.mk.injEq] at h
        exact h.1.symm

/-- C1. `Step` returns true, leaving the subject in state `s'` with the random
outcomes `r'` unread, exactly when the conflict report computed at its start is
empty, `s'` is the state in which that `Conflicts` call left the subject and no
outcome was consumed: no `Assign`, `Unassign` or other method ran after it. -/
theorem Step_true_iff (mc : MinConflict σ) (s s' : σ) (r r' : Rand) :
    Step mc s r = .ok (true, s', r') ↔ (mc.Conflicts s = .ok ([], s') ∧ r' = r) := by
  unfold Step
  constructor
  · intro h
    split at h
    · simp at h
    · rename_i cs s0 hc
      split at h
      · rename_i hlen
        simp only [Except.ok.injEq, Prod.mk.injEq, true_and] at h
        rw [hc, List.length_eq_zero.mp hlen, h.1, h.2]
        exact ⟨rfl, rfl⟩
      · split at h
        · simp at h
        · split at h
          · simp at h
          · simp at h
          · exact absurd (escape_flag _ _ _ _ _ _ _ _ h) (by simp)
  · rintro ⟨hc, rfl⟩
    rw [hc]
    simp

end minconflicts

namespace nqueens

open minconflicts

theorem onBoard_between (g : Grid) {x y dx dy s t : Int} (h0 : g.onBoard x y)
    (ht : g.onBoard (x + t * dx) (y + t * dy)) (hs : 0 ≤ s) (hst : s ≤ t) :
    g.onBoard (x + s * dx) (y + s * dy) := by
  unfold Grid.onBoard at *
  obtain ⟨a1, a2, a3, a4⟩ := h0
  obtain ⟨b1, b2, b3, b4⟩ := ht
  have hts : 0 ≤ t - s := by omega
  refine ⟨?_, ?_, ?_, ?_⟩
  · rcases le_or_lt 0 dx with hd | hd
    · nlinarith [mul_nonneg hs hd]
    · nlinarith [mul_nonneg hts (le_of_lt (neg_pos.mpr hd))]
  · rcases le_or_lt 0 dx with hd | hd
    · nlinarith [mul_nonneg hts hd]
    · nlinarith [mul_nonneg hs (le_of_lt (neg_pos.mpr hd))]
  · rcases le_or_lt 0 dy with hd | hd
    · nlinarith [mul_nonneg hs hd]
    · nlinarith [mul_nonneg hts (le_of_lt (neg_pos.mpr hd))]
  · rcases le_or_lt 0 dy with hd | hd
    · nlinarith [mul_nonneg hts hd]
    · nlinarith [mul_nonneg hs (le_of_lt (neg_pos.mpr hd))]

theorem steps_lt_of_onBoard (g : Grid) {x y dx dy t : Int} (h0 : g.onBoard x y)
    (ht : g.onBoard (x + t * dx) (y + t * dy)) (hd : dx ≠ 0 ∨ dy ≠ 0) (ht0 : 0 ≤ t) :
    t < g.n := by
  unfold Grid.onBoard at *
  obtain ⟨a1, a2, a3, a4⟩ := h0
  obtain ⟨b1, b2, b3, b4⟩ := ht
  by_contra hlt
  push_neg at hlt
  rcases hd with hd | hd
  · rcases lt_or_gt_of_ne hd with h | h
    · have : t * dx ≤ t * (-1) := mul_le_mul_of_nonneg_left (by omega) ht0
      omega
    · have : t * 1 ≤ t * dx := mul_le_mul_of_nonneg_left (by omega) ht0
      omega
  · rcases lt_or_gt_of_ne hd with h | h
    · have : t * dy ≤ t * (-1) := mul_le_mul_of_nonneg_left (by omega) ht0
      omega
    · have : t * 1 ≤ t * dy := mul_le_mul_of_nonneg_left (by omega) ht0
      omega

theorem rayLoop_eq (g : Grid) (x y dx dy : Int) (h0 : g.onBoard x y) (hd : dx ≠ 0 ∨ dy ≠ 0) :
    ∀ (fuel : Nat) (s ret : Int), 1 ≤ s → (g.n : Int) + 1 ≤ fuel + s →
      g.rayLoop dx dy fuel (x + s * dx) (y + s * dy) ret =
        some (ret + ((Finset.Icc s g.n).filter (fun t => g.hit x y dx dy t)).card) := by
  intro fuel
  induction fuel with
  | zero =>
    intro s ret hs hf
    unfold Grid.rayLoop
    have hnb : ¬ g.onBoard (x + s * dx) (y + s * dy) := fun hb => by
      have := steps_lt_of_onBoard g h0 hb hd (by omega)
      omega
    rw [if_neg hnb]
    have : Finset.Icc s (g.n : Int) = ∅ := Finset.Icc_eq_empty (by omega)
    simp [this]
  | succ fuel ih =>
    intro s ret hs hf
    unfold Grid.rayLoop
    by_cases hb : g.onBoard (x + s * dx) (y + s * dy)
    · rw [if_pos hb]
      have hsn : s < g.n := steps_lt_of_onBoard g h0 hb hd (by omega)
      have hstep := ih (s + 1) (if g.rowAt (x + s * dx) = y + s * dy then ret + 1 else ret)
        (by omega) (by push_cast at hf ⊢; omega)
      have e1 : x + s * dx + dx = x + (s + 1) * dx := by ring
      have e2 : y + s * dy + dy = y + (s + 1) * dy := by ring
      simp only [e1, e2]
      rw [hstep]
      have hsplit : Finset.Icc s (g.n : Int) = insert s (Finset.Icc (s + 1) (g.n : Int)) := by
        ext t
        simp only [Finset.mem_Icc, Finset.mem_insert]
        omega
      rw [hsplit, Finset.filter_insert]
      by_cases hr : g.rowAt (x + s * dx) = y + s * dy
      · have hh : g.hit x y dx dy s := ⟨hb, hr⟩
        rw [if_pos hr, if_pos hh, Finset.card_insert_of_not_mem (by simp)]
        push_cast
        congr 1
        ring
      · have hh : ¬ g.hit x y dx dy s := fun h => hr h.2
        rw [if_neg hr, if_neg hh]
    · rw [if_neg hb]
      have : (Finset.Icc s (g.n : Int)).filter (fun t => g.hit x y dx dy t) = ∅ := by
        apply Finset.filter_eq_empty_iff.mpr
        intro t ht hh
        rw [Finset.mem_Icc] at ht
        exact hb (onBoard_between g h0 hh.1 (by omega) ht.1)
      simp [this]

/-- For a direction other than `(0,0)` the loop of `ray` started next to a cell
of the board leaves by its condition within `n` iterations. -/
theorem rayLoop_isSome (g : Grid) (x y dx dy : Int) (h0 : g.onBoard x y) (hd : dx ≠ 0 ∨ dy ≠ 0) :
    (g.rayLoop dx dy g.n (x + dx) (y + dy) 0).isSome = true := by
  have := rayLoop_eq g x y dx dy h0 hd g.n 1 0 le_rfl (by omega)
  simp only [one_mul] at this
  rw [this]
  rfl

theorem ray_eq_card (g : Grid) (x y dx dy : Int) (h0 : g.onBoard x y) (hd : dx ≠ 0 ∨ dy ≠ 0) :
    g.ray x y dx dy = ((Finset.Icc 1 (g.n : Int)).filter (fun t => g.hit x y dx dy t)).card := by
  have := rayLoop_eq g x y dx dy h0 hd g.n 1 0 le_rfl (by omega)
  simp only [one_mul] at this
  unfold Grid.ray
  rw [this]
  simp

theorem hit_neg (g : Grid) (x y dx dy t : Int) :
    g.hit x y (-dx) (-dy) t ↔ g.hit x y dx dy (-t) := by
  unfold Grid.hit
  have e1 : x + t * -dx = x + -t * dx := by ring
  have e2 : y + t * -dy = y + -t * dy := by ring
  rw [e1, e2]

/-- The steps `t ≠ 0` at which the line through `(x, y)` meets a piece, as a
finite set: they all lie in `[-n, n]`. -/
theorem line_eq_card (g : Grid) (x y dx dy : Int) (h0 : g.onBoard x y) (hd : dx ≠ 0 ∨ dy ≠ 0) :
    g.line x y dx dy =
      ((Finset.Icc (-(g.n : Int)) g.n).filter (fun t => t ≠ 0 ∧ g.hit x y dx dy t)).card := by
  unfold Grid.line
  rw [ray_eq_card g x y dx dy h0 hd, ray_eq_card g x y (-dx) (-dy) h0 (by omega)]
  have hneg : ((Finset.Icc 1 (g.n : Int)).filter (fun t => g.hit x y (-dx) (-dy) t)).card =
      ((Finset.Icc (-(g.n : Int)) (-1)).filter (fun t => g.hit x y dx dy t)).card := by
    apply Finset.card_bij (fun t _ => -t)
    · intro t ht
      simp only [Finset.mem_filter, Finset.mem_Icc] at ht ⊢
      exact ⟨by omega, (hit_neg g x y dx dy t).mp ht.2⟩
    · intro a _ b _ h
      omega
    · intro t ht
      simp only [Finset.mem_filter, Finset.mem_Icc] at ht
      refine ⟨-t, ?_, by omega⟩
      simp only [Finset.mem_filter, Finset.mem_Icc]
      refine ⟨by omega, (hit_neg g x y dx dy (-t)).mpr ?_⟩
      simpa using ht.2
  rw [hneg]
  have hunion : (Finset.Icc (-(g.n : Int)) g.n).filter (fun t => t ≠ 0 ∧ g.hit x y dx dy t) =
      (Finset.Icc 1 (g.n : Int)).filter (fun t => g.hit x y dx dy t) ∪
        (Finset.Icc (-(g.n : Int)) (-1)).filter (fun t => g.hit x y dx dy t) := by
    ext t
    simp only [Finset.mem_filter, Finset.mem_Icc, Finset.mem_union]
    constructor
    · rintro ⟨h1, h2, h3⟩
      rcases lt_or_gt_of_ne h2 with h | h
      · right; exact ⟨by omega, h3⟩
      · left; exact ⟨by omega, h3⟩
    · rintro (⟨h1, h3⟩ | ⟨h1, h3⟩)
      · exact ⟨by omega, by omega, h3⟩
      · exact ⟨by omega, by omega, h3⟩
  rw [hunion, Finset.card_union_of_disjoint]
  · push_cast; rfl
  · rw [Finset.disjoint_left]
    intro t h1 h2
    simp only [Finset.mem_filter, Finset.mem_Icc] at h1 h2
    omega

theorem hitSet_eq (g : Grid) (x y dx dy : Int) (h0 : g.onBoard x y) (hd : dx ≠ 0 ∨ dy ≠ 0) :
    {t : Int | t ≠ 0 ∧ g.onBoard (x + t * dx) (y + t * dy) ∧ g.rowAt (x + t * dx) = y + t * dy} =
      ↑((Finset.Icc (-(g.n : Int)) g.n).filter (fun t => t ≠ 0 ∧ g.hit x y dx dy t)) := by
  ext t
  simp only [Set.mem_setOf_eq, Finset.coe_filter, Finset.mem_Icc, Grid.hit]
  constructor
  · rintro ⟨h1, h2, h3⟩
    refine ⟨?_, h1, h2, h3⟩
    rcases le_or_lt 0 t with ht | ht
    · have := steps_lt_of_onBoard g h0 h2 hd ht
      omega
    · have h2' : g.onBoard (x + (-t) * (-dx)) (y + (-t) * (-dy)) := by
        have e1 : x + (-t) * (-dx) = x + t * dx := by ring
        have e2 : y + (-t) * (-dy) = y + t * dy := by ring
        rw [e1, e2]; exact h2
      have := steps_lt_of_onBoard g h0 h2' (by omega) (by omega)
      omega
  · rintro ⟨_, h1, h2, h3⟩
    exact ⟨h1, h2, h3⟩

/-- A line whose direction has `dx = 1` or `dx = -1` visits every column once:
its pieces are the pieces of the other columns `i` standing `(i - x) * dx` steps
from `(x, y)`. -/
theorem line_unit_card (g : Grid) (x y dx dy : Int) (h0 : g.onBoard x y)
    (hdx : dx = 1 ∨ dx = -1) :
    g.line x y dx dy = ((Finset.Ico (0 : Int) g.n).filter (fun i =>
      i ≠ x ∧ (0 ≤ g.rowAt i ∧ g.rowAt i < g.n) ∧ g.rowAt i - y = (i - x) * dx * dy)).card := by
  rw [line_eq_card g x y dx dy h0 (by omega)]
  congr 1
  apply Finset.card_bij (fun t _ => x + t * dx)
  · intro t ht
    simp only [Finset.mem_filter, Finset.mem_Icc, Finset.mem_Ico, Grid.hit, Grid.onBoard] at ht ⊢
    obtain ⟨_, ht0, ⟨b1, b2, b3, b4⟩, hr⟩ := ht
    refine ⟨⟨b1, b2⟩, ?_, ⟨by omega, by omega⟩, ?_⟩
    · rcases hdx with rfl | rfl <;> omega
    · rw [hr]
      rcases hdx with rfl | rfl <;> ring
  · intro a _ b _ h
    rcases hdx with rfl | rfl <;> omega
  · intro i hi
    simp only [Finset.mem_filter, Finset.mem_Ico] at hi
    obtain ⟨⟨i1, i2⟩, hix, ⟨r1, r2⟩, hr⟩ := hi
    obtain ⟨a1, a2, a3, a4⟩ := h0
    have hxi : x + (i - x) * dx * dx = i := by
      rcases hdx with rfl | rfl <;> ring
    have hyi : y + (i - x) * dx * dy = g.rowAt i := by omega
    refine ⟨(i - x) * dx, ?_, hxi⟩
    simp only [Finset.mem_filter, Finset.mem_Icc, Grid.hit, Grid.onBoard]
    rw [hxi, hyi]
    refine ⟨?_, ?_, ⟨i1, i2, r1, r2⟩, rfl⟩
    · rcases hdx with rfl | rfl <;> omega
    · rcases hdx with rfl | rfl <;> omega

/-- The vertical line through `(x, y)` meets at most the piece of column `x`. -/
theorem line_vertical_card (g : Grid) (x y : Int) (h0 : g.onBoard x y) :
    g.line x y 0 1 = ((Finset.Ico (0 : Int) g.n).filter (fun i =>
      i = x ∧ (0 ≤ g.rowAt i ∧ g.rowAt i < g.n) ∧ g.rowAt i ≠ y)).card := by
  rw [line_eq_card g x y 0 1 h0 (by omega)]
  congr 1
  obtain ⟨a1, a2, a3, a4⟩ := h0
  apply Finset.card_bij (fun _ _ => x)
  · intro t ht
    simp only [Finset.mem_filter, Finset.mem_Icc, Finset.mem_Ico, Grid.hit, Grid.onBoard,
      mul_zero, add_zero, mul_one] at ht ⊢
    obtain ⟨_, ht0, ⟨b1, b2, b3, b4⟩, hr⟩ := ht
    exact ⟨⟨a1, a2⟩, trivial, ⟨by omega, by omega⟩, by omega⟩
  · intro a ha b hb _
    simp only [Finset.mem_filter, Grid.hit, mul_zero, add_zero, mul_one] at ha hb
    omega
  · intro i hi
    simp only [Finset.mem_filter, Finset.mem_Ico] at hi
    obtain ⟨_, rfl, ⟨r1, r2⟩, hr⟩ := hi
    refine ⟨g.rowAt i - y, ?_, rfl⟩
    simp only [Finset.mem_filter, Finset.mem_Icc, Grid.hit, Grid.onBoard, mul_zero, add_zero,
      mul_one]
    exact ⟨by omega, by omega, ⟨a1, a2, by omega, by omega⟩, by omega⟩

/-- C10. On every board, for every cell `(x, y)` of the board, the attack
constraint's contribution at `(x, y)` is the number of columns `i` that hold a
piece on the board, other than a piece standing on `(x, y)` itself, with the piece
in column `x`, in row `y`, or on one of the two diagonals through `(x, y)`
(`rows[i] - y = i - x` or `rows[i] - y = -(i - x)`). -/
theorem attack_counts_pieces (g : Grid) (x y : Int) (hx : 0 ≤ x ∧ x < g.n)
    (hy : 0 ≤ y ∧ y < g.n) :
    attack g x y = ((Finset.Ico (0 : Int) g.n).filter (fun i =>
      (0 ≤ g.rowAt i ∧ g.rowAt i < g.n) ∧ ¬ (i = x ∧ g.rowAt i = y) ∧
        (i = x ∨ g.rowAt i = y ∨ g.rowAt i - y = i - x ∨ g.rowAt i - y = -(i - x)))).card := by
  have h0 : g.onBoard x y := ⟨hx.1, hx.2, hy.1, hy.2⟩
  unfold attack
  rw [line_unit_card g x y 1 0 h0 (Or.inl rfl), line_vertical_card g x y h0,
    line_unit_card g x y 1 1 h0 (Or.inl rfl), line_unit_card g x y (-1) 1 h0 (Or.inr rfl)]
  simp only [Finset.card_filter]
  push_cast
  simp only [← Finset.sum_add_distrib]
  apply Finset.sum_congr rfl
  intro i _
  by_cases h1 : i = x <;> by_cases h2 : g.rowAt i = y <;> by_cases h3 : g.rowAt i - y = i - x <;>
    by_cases h4 : g.rowAt i - y = -(i - x) <;> by_cases h5 : 0 ≤ g.rowAt i ∧ g.rowAt i < g.n <;>
    simp [h1, h2, h3, h4, h5] <;> omega

theorem indicesOf_length (mn : Int) (l : List Int) (row : Int) :
    (indicesOf mn l row).length = l.count mn := by
  induction l generalizing row with
  | nil => rfl
  | cons x xs ih =>
    unfold indicesOf
    by_cases h : x = mn
    · subst h
      simp [ih]
    · rw [if_neg h, ih, List.count_cons_of_ne (fun e => h e.symm)]

theorem indicesOf_eq_filter (mn : Int) (l : List Int) (row : Int) :
    indicesOf mn l row =
      List.map (fun k : Nat => row + (k : Int))
        (List.filter (fun k : Nat => l[k]? = some mn) (List.range l.length)) := by
  induction l generalizing row with
  | nil => rfl
  | cons x xs ih =>
    unfold indicesOf
    rw [List.length_cons, List.range_succ_eq_map, List.filter_cons, List.filter_map, ih (row + 1)]
    have hfil : ((fun k : Nat => decide ((x :: xs)[k]? = some mn)) ∘ Nat.succ) =
        (fun k : Nat => decide (xs[k]? = some mn)) := by
      funext k
      simp
    rw [hfil]
    by_cases h : x = mn
    · simp [h, List.map_map, Function.comp_def, add_assoc, add_comm (1 : Int)]
    · simp [h, List.map_map, Function.comp_def, add_assoc, add_comm (1 : Int)]

theorem tieBreak_eq (mn : Int) (l : List Int) (row : Int) (k : Nat) (mv : Int) :
    tieBreak mn l row k mv = (indicesOf mn l row).getD k mv := by
  induction l generalizing row k with
  | nil => simp [tieBreak, indicesOf]
  | cons x xs ih =>
    unfold tieBreak indicesOf
    by_cases h : x = mn
    · rw [if_pos h, if_pos h]
      cases k with
      | zero => simp
      | succ k =>
        have : ((k + 1 : Nat) : Int) - 1 = (k : Int) := by push_cast; ring
        rw [if_neg (by omega), this, ih]
        simp
    · rw [if_neg h, if_neg h, ih]

/-- What the first loop of `Heuristic` computes from a state `(mv, mc, c)`. -/
theorem scanMin_spec (l : List Int) (row mv mc c : Int) :
    (scanMin l row (mv, mc, c)).2.1 ≤ mc ∧
    (∀ x ∈ l, (scanMin l row (mv, mc, c)).2.1 ≤ x) ∧
    ((scanMin l row (mv, mc, c)).2.1 = mc ∨ (scanMin l row (mv, mc, c)).2.1 ∈ l) ∧
    (scanMin l row (mv, mc, c)).2.2 =
      (if (scanMin l row (mv, mc, c)).2.1 = mc then c else 0)
        + l.count (scanMin l row (mv, mc, c)).2.1 ∧
    ((scanMin l row (mv, mc, c)).2.1 < mc →
      (indicesOf (scanMin l row (mv, mc, c)).2.1 l row).head? =
        some (scanMin l row (mv, mc, c)).1) := by
  induction l generalizing row mv mc c with
  | nil => simp [scanMin, indicesOf]
  | cons x xs ih =>
    unfold scanMin
    by_cases h1 : mc ≥ x
    · rw [if_pos h1]
      by_cases h2 : mc = x
      · rw [if_pos h2]
        obtain ⟨a1, a2, a3, a4, a5⟩ := ih (row + 1) mv mc (c + 1)
        subst h2
        refine ⟨a1, ?_, ?_, ?_, ?_⟩
        · intro z hz
          rcases List.mem_cons.mp hz with rfl | hz
          · exact a1
          · exact a2 z hz
        · rcases a3 with a3 | a3
          · exact Or.inl a3
          · exact Or.inr (List.mem_cons_of_mem _ a3)
        · rw [a4]
          by_cases h3 : (scanMin xs (row + 1) (mv, mc, c + 1)).2.1 = mc
          · rw [if_pos h3, if_pos h3, h3, List.count_cons_self]
            push_cast
            ring
          · rw [if_neg h3, if_neg h3, List.count_cons_of_ne (fun e => h3 e)]
        · intro hlt
          have := a5 hlt
          unfold indicesOf
          rw [if_neg (by omega)]
          exact this
      · rw [if_neg h2]
        have hlt : x < mc := lt_of_le_of_ne h1 (fun e => h2 e.symm)
        obtain ⟨a1, a2, a3, a4, a5⟩ := ih (row + 1) row x 1
        refine ⟨by omega, ?_, ?_, ?_, ?_⟩
        · intro z hz
          rcases List.mem_cons.mp hz with rfl | hz
          · exact a1
          · exact a2 z hz
        · rcases a3 with a3 | a3
          · exact Or.inr (by rw [a3]; exact List.mem_cons_self _ _)
          · exact Or.inr (List.mem_cons_of_mem _ a3)
        · rw [if_neg (by omega), a4]
          by_cases h3 : (scanMin xs (row + 1) (row, x, 1)).2.1 = x
          · rw [if_pos h3, h3, List.count_cons_self]
            push_cast
            ring
          · rw [if_neg h3, List.count_cons_of_ne (fun e => h3 e)]
        · intro _
          unfold indicesOf
          by_cases h3 : (scanMin xs (row + 1) (row, x, 1)).2.1 = x
          · rw [if_pos h3.symm]
            have hxs : ∀ z ∈ xs, x ≤ z := fun z hz => h3 ▸ a2 z hz
            clear a1 a2 a3 a4 a5 ih
            have key : ∀ (ys : List Int) (r : Int) (cc : Int), (∀ z ∈ ys, x ≤ z) →
                (scanMin ys r (row, x, cc)).1 = row := by
              intro ys
              induction ys with
              | nil => intro r cc _; rfl
              | cons y ys ihy =>
                intro r cc hy
                unfold scanMin
                have hxy := hy y (List.mem_cons_self _ _)
                have hys : ∀ z ∈ ys, x ≤ z := fun z hz => hy z (List.mem_cons_of_mem _ hz)
                by_cases e1 : x ≥ y
                · rw [if_pos e1, if_pos (by omega : x = y)]
                  exact ihy _ _ hys
                · rw [if_neg e1]
                  exact ihy _ _ hys
            simp [key xs (row + 1) 1 hxs]
          · rw [if_neg (fun e => h3 e.symm)]
            exact a5 (lt_of_le_of_ne a1 h3)
    · rw [if_neg h1]
      obtain ⟨a1, a2, a3, a4, a5⟩ := ih (row + 1) mv mc c
      refine ⟨a1, ?_, ?_, ?_, ?_⟩
      · intro z hz
        rcases List.mem_cons.mp hz with rfl | hz
        · omega
        · exact a2 z hz
      · rcases a3 with a3 | a3
        · exact Or.inl a3
        · exact Or.inr (List.mem_cons_of_mem _ a3)
      · rw [a4, List.count_cons_of_ne (by omega)]
      · intro hlt
        unfold indicesOf
        rw [if_neg (by omega)]
        exact a5 hlt

theorem mem_minimizers (nq : NQueens) (col v : Int) :
    v ∈ nq.minimizers col ↔
      (0 ≤ v ∧ v < nq.n) ∧ ∀ r : Int, 0 ≤ r → r < nq.n → nq.conflicts col v ≤ nq.conflicts col r := by
  unfold NQueens.minimizers
  simp only [List.mem_map, List.mem_filter, List.mem_range, decide_eq_true_eq]
  constructor
  · rintro ⟨k, ⟨hk, hmin⟩, rfl⟩
    refine ⟨⟨by omega, by omega⟩, fun r h0 h1 => ?_⟩
    have := hmin r.toNat (by omega)
    rwa [Int.toNat_of_nonneg h0] at this
  · rintro ⟨⟨h0, h1⟩, hmin⟩
    refine ⟨v.toNat, ⟨by omega, fun r' hr' => ?_⟩, Int.toNat_of_nonneg h0⟩
    rw [Int.toNat_of_nonneg h0]
    exact hmin r' (by omega) (by omega)

theorem rowConflicts_getElem? (nq : NQueens) (col : Int) (k : Nat) (hk : k < nq.n) :
    (nq.rowConflicts col)[k]? = some (nq.conflicts col k) := by
  unfold NQueens.rowConflicts
  simp [hk]

theorem mem_rowConflicts (nq : NQueens) (col x : Int) :
    x ∈ nq.rowConflicts col ↔ ∃ k : Nat, k < nq.n ∧ nq.conflicts col k = x := by
  unfold NQueens.rowConflicts
  simp

/-- With the true minimum `mn` of the slice, the indices holding `mn` are the
minimizing rows. -/
theorem indicesOf_rowConflicts (nq : NQueens) (col mn : Int)
    (hle : ∀ x ∈ nq.rowConflicts col, mn ≤ x) (hmem : mn ∈ nq.rowConflicts col) :
    indicesOf mn (nq.rowConflicts col) 0 = nq.minimizers col := by
  rw [indicesOf_eq_filter]
  unfold NQueens.minimizers
  have hlen : (nq.rowConflicts col).length = nq.n := by simp [NQueens.rowConflicts]
  rw [hlen]
  have hfil : List.filter (fun k : Nat => decide ((nq.rowConflicts col)[k]? = some mn))
      (List.range nq.n) = List.filter (fun r : Nat =>
        decide (∀ r' ∈ List.range nq.n, nq.conflicts col r ≤ nq.conflicts col r'))
      (List.range nq.n) := by
    apply List.filter_congr
    intro k hk
    rw [List.mem_range] at hk
    rw [rowConflicts_getElem? nq col k hk]
    simp only [Option.some.injEq, List.mem_range, decide_eq_decide]
    constructor
    · intro h r' hr'
      rw [h]
      exact hle _ ((mem_rowConflicts nq col _).mpr ⟨r', hr', rfl⟩)
    · intro h
      obtain ⟨j, hj, hjmn⟩ := (mem_rowConflicts nq col mn).mp hmem
      have h1 := h j hj
      have h2 := hle _ ((mem_rowConflicts nq col _).mpr ⟨k, hk, rfl⟩)
      omega
  rw [hfil]
  simp

/-- Within the range of Go's `int` the wrap-around changes nothing. -/
theorem wrap64_of_range (x : Int) (h0 : -9223372036854775808 ≤ x)
    (h1 : x ≤ 9223372036854775807) : wrap64 x = x := by
  unfold wrap64
  omega

/-- One above the largest `int` is the smallest `int`. -/
theorem wrap64_largest : wrap64 (9223372036854775807 + 1) = -9223372036854775808 := by
  decide

/-- A board with at least one row has a minimizing row for every column. -/
theorem minimizers_ne_nil (nq : NQueens) (col : Int) (hn : 1 ≤ nq.n) :
    nq.minimizers col ≠ [] := by
  obtain ⟨a1, a2, a3, a4, a5⟩ :=
    scanMin_spec (nq.rowConflicts col) 0 0 (nq.conflicts col 0 + 1) 0
  have hc0 : nq.conflicts col 0 ∈ nq.rowConflicts col :=
    (mem_rowConflicts nq col _).mpr ⟨0, by omega, by simp⟩
  have hlt := a2 _ hc0
  have hmem := a3.resolve_left (by omega)
  have hind := indicesOf_rowConflicts nq col _ a2 hmem
  have hhead := a5 (by omega)
  rw [hind] at hhead
  intro e
  rw [e] at hhead
  simp at hhead

/-- The result of `Heuristic` in closed form, when `conflicts[0]+1` does not
wrap: the cost is `minCost`; with one minimizing row that row is returned and no
outcome is read, otherwise one outcome `d` is read and the row at position
`d % m` of the `m` minimizing rows is returned. -/
theorem Heuristic_eq (nq : NQueens) (col : Int) (r : Rand) (hn : 1 ≤ nq.n)
    (hfit : nq.fits col) :
    nq.minimizers col ≠ [] ∧
    nq.Heuristic col r =
      if (nq.minimizers col).length = 1 then
        .ok (((nq.minimizers col).getD 0 0, nq.minCost col), r)
      else match r with
        | [] => .error .starved
        | d :: ds =>
          .ok (((nq.minimizers col).getD (d % (nq.minimizers col).length) 0, nq.minCost col), ds) := by
  have hlen : (nq.rowConflicts col).length = nq.n := by simp [NQueens.rowConflicts]
  have h0 : (nq.rowConflicts col)[0]? = some (nq.conflicts col 0) := by
    have := rowConflicts_getElem? nq col 0 (by omega)
    simpa using this
  have hidx : index (nq.rowConflicts col) 0 = .ok (nq.conflicts col 0) := by
    unfold index
    rw [if_pos ⟨le_rfl, by rw [hlen]; exact_mod_cast hn⟩]
    simp only [Int.toNat_zero, h0]
  obtain ⟨a1, a2, a3, a4, a5⟩ :=
    scanMin_spec (nq.rowConflicts col) 0 0 (nq.conflicts col 0 + 1) 0
  have hc0 : nq.conflicts col 0 ∈ nq.rowConflicts col :=
    (mem_rowConflicts nq col _).mpr ⟨0, by omega, by simp⟩
  have hlt := a2 _ hc0
  have hmem := a3.resolve_left (by omega)
  have hind := indicesOf_rowConflicts nq col _ a2 hmem
  have hcount := indicesOf_length (scanMin (nq.rowConflicts col) 0
    (0, nq.conflicts col 0 + 1, 0)).2.1 (nq.rowConflicts col) 0
  rw [hind] at hcount
  have hhead := a5 (by omega)
  rw [hind] at hhead
  rw [if_neg (by omega), zero_add, ← hcount] at a4
  have hne : nq.minimizers col ≠ [] := by
    intro e
    rw [e] at hhead
    simp at hhead
  have hcost : nq.minCost col = (scanMin (nq.rowConflicts col) 0
      (0, nq.conflicts col 0 + 1, 0)).2.1 := by
    unfold NQueens.minCost
    obtain ⟨v, vs, hvs⟩ := List.exists_cons_of_ne_nil hne
    have hv : v ∈ indicesOf (scanMin (nq.rowConflicts col) 0
        (0, nq.conflicts col 0 + 1, 0)).2.1 (nq.rowConflicts col) 0 := by
      rw [hind, hvs]; exact List.mem_cons_self _ _
    rw [indicesOf_eq_filter, hlen] at hv
    simp only [List.mem_map, List.mem_filter, List.mem_range, decide_eq_true_eq] at hv
    obtain ⟨k, ⟨hk, hkv⟩, rfl⟩ := hv
    rw [rowConflicts_getElem? nq col k hk] at hkv
    rw [hvs]
    simpa using hkv
  refine ⟨hne, ?_⟩
  unfold NQueens.Heuristic
  simp only [hidx]
  rw [wrap64_of_range _ hfit.1 hfit.2]
  generalize hres : scanMin (nq.rowConflicts col) 0 (0, nq.conflicts col 0 + 1, 0) = res at *
  obtain ⟨mv, mn, c⟩ := res
  simp only at a4 hhead hcost hind
  subst hcost
  have hmv : (nq.minimizers col).getD 0 0 = mv := by
    obtain ⟨v, vs, hvs⟩ := List.exists_cons_of_ne_nil hne
    rw [hvs] at hhead ⊢
    simpa using hhead
  dsimp only at a1 a2 a3 a4 a5 hlt hmem hcount ⊢
  by_cases hc1 : c = 1
  · rw [if_pos hc1, if_pos (by omega), hmv]
  · rw [if_neg hc1, if_neg (by omega)]
    have hpos : 0 < (nq.minimizers col).length := List.length_pos.mpr hne
    unfold Intn
    rw [if_neg (by omega)]
    cases r with
    | nil => rfl
    | cons d ds =>
      simp only
      have hk : (d : Int) % c = ((d % (nq.minimizers col).length : Nat) : Int) := by
        rw [a4]; push_cast; rfl
      rw [hk, tieBreak_eq, hind]
      have hlt2 : d % (nq.minimizers col).length < (nq.minimizers col).length :=
        Nat.mod_lt _ hpos
      rw [List.getD_eq_getElem _ _ hlt2, List.getD_eq_getElem _ _ hlt2]

theorem minimizers_sorted (nq : NQueens) (col : Int) :
    (nq.minimizers col).Sorted (· < ·) := by
  unfold NQueens.minimizers
  have h1 : (List.range nq.n).Sorted (· < ·) := List.sorted_lt_range nq.n
  have h2 := List.Sorted.filter (fun r : Nat =>
    decide (∀ r' ∈ List.range nq.n, nq.conflicts col r ≤ nq.conflicts col r')) h1
  exact List.Pairwise.map _ (fun a b hab => by exact_mod_cast hab) h2

theorem minCost_le (nq : NQueens) (col : Int) (hn : 1 ≤ nq.n) (r : Int) (h0 : 0 ≤ r)
    (h1 : r < nq.n) : nq.minCost col ≤ nq.conflicts col r := by
  obtain ⟨v, vs, hvs⟩ := List.exists_cons_of_ne_nil (minimizers_ne_nil nq col hn)
  have hv : v ∈ nq.minimizers col := by rw [hvs]; exact List.mem_cons_self _ _
  unfold NQueens.minCost
  rw [hvs]
  exact ((mem_minimizers nq col v).mp hv).2 r h0 h1

theorem conflicts_of_mem_minimizers (nq : NQueens) (col v : Int) (hn : 1 ≤ nq.n)
    (hv : v ∈ nq.minimizers col) : nq.conflicts col v = nq.minCost col := by
  obtain ⟨w, ws, hws⟩ := List.exists_cons_of_ne_nil (minimizers_ne_nil nq col hn)
  have hw : w ∈ nq.minimizers col := by rw [hws]; exact List.mem_cons_self _ _
  have hv' := (mem_minimizers nq col v).mp hv
  have hw' := (mem_minimizers nq col w).mp hw
  have e : nq.minCost col = nq.conflicts col w := by
    unfold NQueens.minCost; rw [hws]; rfl
  have a := hv'.2 w hw'.1.1 hw'.1.2
  have b := hw'.2 v hv'.1.1 hv'.1.2
  omega

/-- Whenever `Heuristic` returns and `conflicts[0]+1` has not wrapped, it returns a
minimizing row together with `minCost`, and it has read at most one outcome. -/
theorem Heuristic_ok (nq : NQueens) (col : Int) (r r' : Rand) (v c : Int) (hn : 1 ≤ nq.n)
    (hfit : nq.fits col) (h : nq.Heuristic col r = .ok ((v, c), r')) :
    v ∈ nq.minimizers col ∧ c = nq.minCost col ∧ (r' = r ∨ r' = r.drop 1) := by
  obtain ⟨hne, heq⟩ := Heuristic_eq nq col r hn hfit
  have hpos : 0 < (nq.minimizers col).length := List.length_pos.mpr hne
  rw [heq] at h
  by_cases h1 : (nq.minimizers col).length = 1
  · rw [if_pos h1] at h
    simp only [Except.ok.injEq, Prod.mk.injEq] at h
    obtain ⟨⟨rfl, rfl⟩, rfl⟩ := h
    refine ⟨?_, rfl, Or.inl rfl⟩
    rw [List.getD_eq_getElem _ _ hpos]
    exact List.getElem_mem _
  · rw [if_neg h1] at h
    cases r with
    | nil => simp at h
    | cons d ds =>
      simp only [Except.ok.injEq, Prod.mk.injEq] at h
      obtain ⟨⟨rfl, rfl⟩, rfl⟩ := h
      refine ⟨?_, rfl, Or.inr rfl⟩
      rw [List.getD_eq_getElem _ _ (Nat.mod_lt _ hpos)]
      exact List.getElem_mem _

/-- On a board with at least one row on which `conflicts[0]+1` does not wrap,
`Heuristic` does not panic, and it returns whenever an outcome is left to read. -/
theorem Heuristic_total (nq : NQueens) (col : Int) (r : Rand) (hn : 1 ≤ nq.n)
    (hfit : nq.fits col) :
    (∃ v c r', nq.Heuristic col r = .ok ((v, c), r')) ∨
      (r = [] ∧ nq.Heuristic col r = .error .starved) := by
  obtain ⟨_, heq⟩ := Heuristic_eq nq col r hn hfit
  rw [heq]
  by_cases h1 : (nq.minimizers col).length = 1
  · rw [if_pos h1]; exact Or.inl ⟨_, _, _, rfl⟩
  · rw [if_neg h1]
    cases r with
    | nil => exact Or.inr ⟨rfl, rfl⟩
    | cons d ds => exact Or.inl ⟨_, _, _, rfl⟩

/-- Away from the wrap-around of `conflicts[0]+1`: on a board with at least one
row, for every outcome `d` of the tie-break draw, `Heuristic` returns a row `v` of
`[0, n)` and a cost `c` such that `c` is the least value of `conflicts col r` over
the rows `r` of `[0, n)` and is attained at `v`. -/
theorem Heuristic_returns_minimum (nq : NQueens) (col : Int) (d : Nat) (ds : Rand)
    (hn : 1 ≤ nq.n) (hfit : nq.fits col) :
    ∃ v c r', nq.Heuristic col (d :: ds) = .ok ((v, c), r') ∧ (0 ≤ v ∧ v < nq.n) ∧
      (∀ r : Int, 0 ≤ r → r < nq.n → c ≤ nq.conflicts col r) ∧ nq.conflicts col v = c := by
  rcases Heuristic_total nq col (d :: ds) hn hfit with ⟨v, c, r', h⟩ | ⟨h, _⟩
  · obtain ⟨hv, hc, _⟩ := Heuristic_ok nq col _ _ v c hn hfit h
    refine ⟨v, c, r', h, ((mem_minimizers nq col v).mp hv).1, ?_, ?_⟩
    · intro r h0 h1
      rw [hc]
      exact minCost_le nq col hn r h0 h1
    · rw [hc]
      exact conflicts_of_mem_minimizers nq col v hn hv
  · simp at h

/-- Away from the wrap-around of `conflicts[0]+1`: let `mins` be the rows of
`[0, n)` with the fewest conflicts for `col`, in ascending order, and `m` their
number.  With `m = 1` `Heuristic` returns that row and reads no outcome.
Otherwise it draws with `rand.Intn m`, and the draw `k` returns the row at
position `k` of `mins`, the `(k+1)`-th smallest minimizing row; each minimizing
row is returned for exactly one `k < m`. -/
theorem Heuristic_tie_break (nq : NQueens) (col : Int) (hn : 1 ≤ nq.n) (hfit : nq.fits col) :
    (∀ v : Int, v ∈ nq.minimizers col ↔ (0 ≤ v ∧ v < nq.n) ∧
        ∀ r : Int, 0 ≤ r → r < nq.n → nq.conflicts col v ≤ nq.conflicts col r) ∧
    (nq.minimizers col).Sorted (· < ·) ∧
    1 ≤ (nq.minimizers col).length ∧
    ((nq.minimizers col).length = 1 → ∀ r : Rand,
      nq.Heuristic col r = .ok (((nq.minimizers col).getD 0 0, nq.minCost col), r)) ∧
    ((nq.minimizers col).length ≠ 1 → ∀ r : Rand,
      nq.Heuristic col r =
        match Intn (nq.minimizers col).length r with
        | .error e => .error e
        | .ok (k, r') => .ok (((nq.minimizers col).getD k.toNat 0, nq.minCost col), r')) ∧
    ((nq.minimizers col).length ≠ 1 → ∀ (k : Nat) (ds : Rand), k < (nq.minimizers col).length →
      nq.Heuristic col (k :: ds) = .ok (((nq.minimizers col).getD k 0, nq.minCost col), ds)) ∧
    (∀ v ∈ nq.minimizers col, ∃! k : Nat, k < (nq.minimizers col).length ∧
      (nq.minimizers col).getD k 0 = v) := by
  have hne := minimizers_ne_nil nq col hn
  have hpos : 0 < (nq.minimizers col).length := List.length_pos.mpr hne
  refine ⟨mem_minimizers nq col, minimizers_sorted nq col, hpos, ?_, ?_, ?_, ?_⟩
  · intro h1 r
    rw [(Heuristic_eq nq col r hn hfit).2, if_pos h1]
  · intro h1 r
    rw [(Heuristic_eq nq col r hn hfit).2, if_neg h1]
    unfold Intn
    rw [if_neg (by omega)]
    cases r with
    | nil => rfl
    | cons d ds =>
      simp only
      have : ((d : Int) % ((nq.minimizers col).length : Int)).toNat =
          d % (nq.minimizers col).length := by
        rw [← Int.natCast_mod, Int.toNat_natCast]
      rw [this]
  · intro h1 k ds hk
    rw [(Heuristic_eq nq col (k :: ds) hn hfit).2, if_neg h1]
    simp only
    rw [Nat.mod_eq_of_lt hk]
  · intro v hv
    obtain ⟨k, hk, hkv⟩ := List.getElem_of_mem hv
    have hnd : (nq.minimizers col).Nodup := (minimizers_sorted nq col).nodup
    refine ⟨k, ⟨hk, by rw [List.getD_eq_getElem _ _ hk]; exact hkv⟩, ?_⟩
    rintro j ⟨hj, hjv⟩
    rw [List.getD_eq_getElem _ _ hj] at hjv
    exact (List.Nodup.getElem_inj_iff hnd).mp (hjv.trans hkv.symm)

theorem mem_Conflicts (nq : NQueens) (order : List Nat) (c : Conflict) :
    c ∈ nq.Conflicts order ↔ ∃ col ∈ order, c.Var = (col : Int) ∧
      c.Conflicts = nq.conflicts c.Var (nq.rowAt c.Var) ∧ c.Conflicts ≠ 0 := by
  unfold NQueens.Conflicts
  simp only [List.mem_filterMap]
  constructor
  · rintro ⟨col, hcol, h⟩
    by_cases h0 : nq.conflicts (col : Int) (nq.rowAt (col : Int)) ≠ 0
    · rw [if_pos h0] at h
      simp only [Option.some.injEq] at h
      subst h
      exact ⟨col, hcol, rfl, rfl, h0⟩
    · rw [if_neg h0] at h
      simp at h
  · rintro ⟨col, hcol, hv, hc, h0⟩
    refine ⟨col, hcol, ?_⟩
    rw [hv] at hc
    rw [if_pos (by rw [← hc]; exact h0)]
    cases c
    simp only at hv hc
    simp [hv, hc]

theorem Conflicts_vars_sublist (nq : NQueens) (order : List Nat) :
    ((nq.Conflicts order).map (fun c => c.Var)).Sublist (order.map (fun col : Nat => (col : Int))) := by
  unfold NQueens.Conflicts
  induction order with
  | nil => simp
  | cons col rest ih =>
    rw [List.filterMap_cons]
    by_cases h0 : nq.conflicts (col : Int) (nq.rowAt (col : Int)) ≠ 0
    · simp only [if_pos h0, List.map_cons]
      exact List.Sublist.cons₂ _ ih
    · simp only [if_neg h0, List.map_cons]
      exact List.Sublist.cons _ ih

/-- C8. When the goroutines of `Conflicts` report in the order `order`, a
permutation of the columns, the report holds exactly the pairs
`(v, conflicts(v, rows[v]))` of the columns `v` of `[0, n)` whose count is not
zero, no column twice; it is empty exactly when every column's count at its
current row is zero. -/
theorem Conflicts_report (nq : NQueens) (order : List Nat)
    (hperm : order.Perm (List.range nq.n)) :
    (∀ c : Conflict, c ∈ nq.Conflicts order ↔
      (0 ≤ c.Var ∧ c.Var < nq.n) ∧ c.Conflicts = nq.conflicts c.Var (nq.rowAt c.Var) ∧
        c.Conflicts ≠ 0) ∧
    ((nq.Conflicts order).map (fun c => c.Var)).Nodup ∧
    (nq.Conflicts order = [] ↔
      ∀ v : Int, 0 ≤ v → v < nq.n → nq.conflicts v (nq.rowAt v) = 0) := by
  have hmem : ∀ c : Conflict, c ∈ nq.Conflicts order ↔
      (0 ≤ c.Var ∧ c.Var < nq.n) ∧ c.Conflicts = nq.conflicts c.Var (nq.rowAt c.Var) ∧
        c.Conflicts ≠ 0 := by
    intro c
    rw [mem_Conflicts]
    constructor
    · rintro ⟨col, hcol, hv, hc, h0⟩
      have := List.mem_range.mp (hperm.mem_iff.mp hcol)
      exact ⟨⟨by omega, by omega⟩, hc, h0⟩
    · rintro ⟨⟨h1, h2⟩, hc, h0⟩
      refine ⟨c.Var.toNat, hperm.mem_iff.mpr (List.mem_range.mpr (by omega)), ?_, hc, h0⟩
      rw [Int.toNat_of_nonneg h1]
  refine ⟨hmem, ?_, ?_⟩
  · apply List.Nodup.sublist (Conflicts_vars_sublist nq order)
    apply List.Nodup.map (fun a b h => by exact_mod_cast h)
    exact hperm.nodup_iff.mpr (List.nodup_range nq.n)
  · constructor
    · intro he v h0 h1
      by_contra hne
      have : (⟨v, nq.conflicts v (nq.rowAt v)⟩ : Conflict) ∈ nq.Conflicts order :=
        (hmem _).mpr ⟨⟨h0, h1⟩, rfl, hne⟩
      rw [he] at this
      simp at this
    · intro h
      apply List.eq_nil_iff_forall_not_mem.mpr
      intro c hc
      obtain ⟨⟨h0, h1⟩, hcc, hne⟩ := (hmem c).mp hc
      exact hne (hcc.trans (h c.Var h0 h1))

theorem index_ok {α : Type} (s : List α) (i : Int) (h0 : 0 ≤ i) (h1 : i < s.length) (a : α) :
    index s i = .ok (s.getD i.toNat a) := by
  unfold index
  rw [if_pos ⟨h0, h1⟩]
  have hlt : i.toNat < s.length := by omega
  rw [List.getElem?_eq_getElem hlt, List.getD_eq_getElem _ _ hlt]

theorem index_entry (cs : List Conflict) (off : Int) (i : Nat) (hne : cs ≠ []) :
    index cs (((i : Int) + off) % cs.length) = .ok (entry cs off i) := by
  have hpos : (0 : Int) < cs.length := by exact_mod_cast List.length_pos.mpr hne
  exact index_ok cs _ (Int.emod_nonneg _ (by omega)) (Int.emod_lt_of_pos _ hpos) _

theorem entry_mem (cs : List Conflict) (off : Int) (i : Nat) (hne : cs ≠ []) :
    entry cs off i ∈ cs := by
  have hpos : (0 : Int) < cs.length := by exact_mod_cast List.length_pos.mpr hne
  have h0 := Int.emod_nonneg ((i : Int) + off) (by omega : (cs.length : Int) ≠ 0)
  have h1 := Int.emod_lt_of_pos ((i : Int) + off) hpos
  unfold entry
  have hlt : (((i : Int) + off) % cs.length).toNat < cs.length := by omega
  rw [List.getD_eq_getElem _ _ hlt]
  exact List.getElem_mem _

@[simp] theorem setRow_n (nq : NQueens) (v vv : Int) : (nq.setRow v vv).n = nq.n := rfl

@[simp] theorem setRow_constraints (nq : NQueens) (v vv : Int) :
    (nq.setRow v vv).constraints = nq.constraints := rfl

theorem setRow_wf (nq : NQueens) (v vv : Int) (h : nq.wf) : (nq.setRow v vv).wf := by
  unfold NQueens.wf NQueens.setRow at *
  simpa using h

theorem setRow_setRow (nq : NQueens) (v a b : Int) :
    (nq.setRow v a).setRow v b = nq.setRow v b := by
  unfold NQueens.setRow
  simp

theorem rowAt_setRow (nq : NQueens) (v vv w : Int) (hwf : nq.wf) (hv : 0 ≤ v ∧ v < nq.n)
    (hw : 0 ≤ w) :
    (nq.setRow v vv).rowAt w = if w = v then vv else nq.rowAt w := by
  unfold NQueens.wf at hwf
  unfold NQueens.setRow Grid.rowAt
  simp only [List.getD_eq_getElem?_getD, List.getElem?_set]
  by_cases h : w = v
  · subst h
    have : w.toNat < nq.rows.length := by omega
    simp [this]
  · have : v.toNat ≠ w.toNat := by omega
    simp [h, this]

theorem set_getElem_same {α : Type} (l : List α) (i : Nat) (h : i < l.length) :
    l.set i l[i] = l := by
  apply List.ext_getElem (by simp)
  intro k h1 h2
  rw [List.getElem_set]
  split
  · subst_vars; rfl
  · rfl

theorem setRow_rowAt_self (nq : NQueens) (v : Int) (hwf : nq.wf) (hv : 0 ≤ v ∧ v < nq.n) :
    nq.setRow v (nq.rowAt v) = nq := by
  unfold NQueens.wf at hwf
  unfold NQueens.setRow Grid.rowAt
  have hlt : v.toNat < nq.rows.length := by omega
  rw [List.getD_eq_getElem _ _ hlt, set_getElem_same]

theorem Unassign_ok (nq : NQueens) (v : Int) (hwf : nq.wf) (hv : 0 ≤ v ∧ v < nq.n) :
    NQueens.Unassign v nq = .ok (nq.rowAt v, nq.setRow v (-1)) := by
  unfold NQueens.wf at hwf
  unfold NQueens.Unassign
  rw [if_pos ⟨hv.1, by omega⟩]
  rfl

theorem Assign_ok (nq : NQueens) (v vv : Int) (hwf : nq.wf) (hv : 0 ≤ v ∧ v < nq.n) :
    NQueens.Assign v vv nq = .ok (nq.setRow v vv) := by
  unfold NQueens.wf at hwf
  unfold NQueens.Assign
  rw [if_pos ⟨hv.1, by omega⟩]
  rfl

/-- One iteration of the scan on a board: the candidate is unassigned, the
heuristic is asked, and the candidate is moved to the heuristic's row or put
back. -/
theorem scanLoop_cons (nq : NQueens) (order : List Nat) (cs : List Conflict) (off : Int)
    (i : Nat) (is : List Nat) (r : Rand) (hwf : nq.wf) (hne : cs ≠ [])
    (hcs : ∀ c ∈ cs, 0 ≤ c.Var ∧ c.Var < nq.n) :
    scanLoop (NQueens.subject order) cs off (i :: is) nq r =
      match (nq.setRow (entry cs off i).Var (-1)).Heuristic (entry cs off i).Var r with
      | .error e => .error e
      | .ok ((minVal, minCost), r2) =>
        if minCost < (entry cs off i).Conflicts then
          .ok (true, nq.setRow (entry cs off i).Var minVal, r2)
        else scanLoop (NQueens.subject order) cs off is nq r2 := by
  have hv := hcs _ (entry_mem cs off i hne)
  rw [scanLoop, index_entry cs off i hne]
  simp only [NQueens.subject, Unassign_ok nq _ hwf hv]
  cases hH : (nq.setRow (entry cs off i).Var (-1)).Heuristic (entry cs off i).Var r with
  | error e => rfl
  | ok x =>
    obtain ⟨⟨minVal, minCost⟩, r2⟩ := x
    simp only
    rw [Assign_ok _ _ _ (setRow_wf nq _ _ hwf) hv, Assign_ok _ _ _ (setRow_wf nq _ _ hwf) hv,
      setRow_setRow, setRow_setRow, setRow_rowAt_self nq _ hwf hv]

/-- The outcomes `Heuristic` leaves are those it was given, less at most one. -/
theorem Heuristic_drop (nq : NQueens) (col : Int) (r r' : Rand) (v c : Int) (hn : 1 ≤ nq.n)
    (hfit : nq.fits col) (h : nq.Heuristic col r = .ok ((v, c), r')) :
    ∃ k, k ≤ 1 ∧ k ≤ r.length ∧ r' = r.drop k := by
  obtain ⟨_, heq⟩ := Heuristic_eq nq col r hn hfit
  rw [heq] at h
  by_cases h1 : (nq.minimizers col).length = 1
  · rw [if_pos h1] at h
    simp only [Except.ok.injEq, Prod.mk.injEq] at h
    exact ⟨0, by omega, by omega, h.2.symm⟩
  · rw [if_neg h1] at h
    cases r with
    | nil => simp at h
    | cons d ds =>
      simp only [Except.ok.injEq, Prod.mk.injEq] at h
      exact ⟨1, le_rfl, by simp, h.2.symm⟩

theorem scanLoop_cases (nq : NQueens) (order : List Nat) (cs : List Conflict) (off : Int)
    (hwf : nq.wf) (hn : 1 ≤ nq.n) (hne : cs ≠ [])
    (hcs : ∀ c ∈ cs, 0 ≤ c.Var ∧ c.Var < nq.n)
    (hfit : ∀ c ∈ cs, (nq.setRow c.Var (-1)).fits c.Var) :
    ∀ (is : List Nat) (r : Rand),
      (scanLoop (NQueens.subject order) cs off is nq r = .error .starved ∧
        r.length < is.length) ∨
      (∃ k, k ≤ is.length ∧ k ≤ r.length ∧
        scanLoop (NQueens.subject order) cs off is nq r = .ok (false, nq, r.drop k) ∧
        ∀ i ∈ is, ¬ nq.improvable (entry cs off i)) ∨
      (∃ i ∈ is, ∃ k val, k ≤ is.length ∧ k ≤ r.length ∧ nq.improvable (entry cs off i) ∧
        val ∈ (nq.setRow (entry cs off i).Var (-1)).minimizers (entry cs off i).Var ∧
        scanLoop (NQueens.subject order) cs off is nq r =
          .ok (true, nq.setRow (entry cs off i).Var val, r.drop k)) := by
  intro is
  induction is with
  | nil =>
    intro r
    exact Or.inr (Or.inl ⟨0, le_rfl, Nat.zero_le _, rfl, by simp⟩)
  | cons i is ih =>
    intro r
    rw [scanLoop_cons nq order cs off i is r hwf hne hcs]
    have hn' : 1 ≤ (nq.setRow (entry cs off i).Var (-1)).n := hn
    have hf := hfit _ (entry_mem cs off i hne)
    rcases Heuristic_total (nq.setRow (entry cs off i).Var (-1)) (entry cs off i).Var r hn' hf
      with ⟨val, c, r2, hH⟩ | ⟨hr, hH⟩
    · obtain ⟨hval, hc, _⟩ := Heuristic_ok _ _ _ _ _ _ hn' hf hH
      obtain ⟨k0, hk01, hk0r, hr2⟩ := Heuristic_drop _ _ _ _ _ _ hn' hf hH
      rw [hH]
      simp only
      by_cases himp : c < (entry cs off i).Conflicts
      · rw [if_pos himp]
        refine Or.inr (Or.inr ⟨i, List.mem_cons_self _ _, k0, val, ?_, hk0r, ?_, hval, ?_⟩)
        · simp only [List.length_cons]; omega
        · unfold NQueens.improvable; rw [← hc]; exact himp
        · rw [hr2]
      · rw [if_neg himp]
        have hnot : ¬ nq.improvable (entry cs off i) := by
          unfold NQueens.improvable; rw [← hc]; exact himp
        have hlen2 : r2.length = r.length - k0 := by rw [hr2, List.length_drop]
        rcases ih r2 with ⟨hs, hl⟩ | ⟨k, hk1, hk2, hs, hall⟩ | ⟨j, hj, k, v2, hk1, hk2, hj2, hv2, hs⟩
        · refine Or.inl ⟨hs, ?_⟩
          simp only [List.length_cons]; omega
        · refine Or.inr (Or.inl ⟨k0 + k, ?_, by omega, ?_, ?_⟩)
          · simp only [List.length_cons]; omega
          · rw [hs, hr2, List.drop_drop, Nat.add_comm]
          · intro x hx
            rcases List.mem_cons.mp hx with rfl | hx
            · exact hnot
            · exact hall x hx
        · refine Or.inr (Or.inr ⟨j, List.mem_cons_of_mem _ hj, k0 + k, v2, ?_, by omega, hj2,
            hv2, ?_⟩)
          · simp only [List.length_cons]; omega
          · rw [hs, hr2, List.drop_drop, Nat.add_comm]
    · rw [hH]
      refine Or.inl ⟨rfl, ?_⟩
      rw [hr]; simp

/-- The scan stops at the first improvable entry: the entries before it are put
back, and its variable is moved to the row the heuristic returns. -/
theorem scanLoop_first (nq : NQueens) (order : List Nat) (cs : List Conflict) (off : Int)
    (hwf : nq.wf) (hn : 1 ≤ nq.n) (hne : cs ≠ [])
    (hcs : ∀ c ∈ cs, 0 ≤ c.Var ∧ c.Var < nq.n)
    (hfit : ∀ c ∈ cs, (nq.setRow c.Var (-1)).fits c.Var) (i : Nat) (post : List Nat)
    (himp : nq.improvable (entry cs off i)) :
    ∀ (pre : List Nat) (r : Rand), (∀ j ∈ pre, ¬ nq.improvable (entry cs off j)) →
      pre.length + 1 ≤ r.length →
      ∃ (val : Int) (r0 r' : Rand),
        (nq.setRow (entry cs off i).Var (-1)).Heuristic (entry cs off i).Var r0 =
          .ok ((val, (nq.setRow (entry cs off i).Var (-1)).minCost (entry cs off i).Var), r') ∧
        scanLoop (NQueens.subject order) cs off (pre ++ i :: post) nq r =
          .ok (true, nq.setRow (entry cs off i).Var val, r') := by
  intro pre
  induction pre with
  | nil =>
    intro r _ hlen
    rw [List.nil_append, scanLoop_cons nq order cs off i post r hwf hne hcs]
    have hn' : 1 ≤ (nq.setRow (entry cs off i).Var (-1)).n := hn
    have hf := hfit _ (entry_mem cs off i hne)
    rcases Heuristic_total (nq.setRow (entry cs off i).Var (-1)) (entry cs off i).Var r hn' hf
      with ⟨val, c, r2, hH⟩ | ⟨hr, _⟩
    · obtain ⟨_, hc, _⟩ := Heuristic_ok _ _ _ _ _ _ hn' hf hH
      subst hc
      refine ⟨val, r, r2, hH, ?_⟩
      rw [hH]
      simp only
      exact if_pos himp
    · rw [hr] at hlen; simp at hlen
  | cons j pre ih =>
    intro r hpre hlen
    rw [List.cons_append, scanLoop_cons nq order cs off j _ r hwf hne hcs]
    have hn' : 1 ≤ (nq.setRow (entry cs off j).Var (-1)).n := hn
    have hf := hfit _ (entry_mem cs off j hne)
    rcases Heuristic_total (nq.setRow (entry cs off j).Var (-1)) (entry cs off j).Var r hn' hf
      with ⟨val, c, r2, hH⟩ | ⟨hr, _⟩
    · obtain ⟨_, hc, _⟩ := Heuristic_ok _ _ _ _ _ _ hn' hf hH
      obtain ⟨k0, hk01, hk0r, hr2⟩ := Heuristic_drop _ _ _ _ _ _ hn' hf hH
      have hnot : ¬ c < (entry cs off j).Conflicts := by
        rw [hc]; exact hpre j (List.mem_cons_self _ _)
      rw [hH]
      simp only
      rw [if_neg hnot]
      apply ih r2 (fun x hx => hpre x (List.mem_cons_of_mem _ hx))
      rw [hr2, List.length_drop]
      simp only [List.length_cons] at hlen
      omega
    · rw [hr] at hlen; simp at hlen

theorem swapVals_ok (nq : NQueens) (order : List Nat) (v1 v2 : Int) (hwf : nq.wf)
    (h1 : 0 ≤ v1 ∧ v1 < nq.n) (h2 : 0 ≤ v2 ∧ v2 < nq.n) (hne : v1 ≠ v2) :
    swapVals (NQueens.subject order) v1 v2 nq = .ok (nq.swapRows v1 v2) := by
  unfold swapVals
  simp only [NQueens.subject]
  rw [Unassign_ok nq v1 hwf h1]
  simp only
  rw [Unassign_ok _ v2 (setRow_wf nq _ _ hwf) h2]
  simp only
  rw [Assign_ok _ v1 _ (setRow_wf _ _ _ (setRow_wf nq _ _ hwf)) h1]
  simp only
  rw [Assign_ok _ v2 _ (setRow_wf _ _ _ (setRow_wf _ _ _ (setRow_wf nq _ _ hwf))) h2]
  rw [rowAt_setRow nq v1 (-1) v2 hwf h1 h2.1, if_neg (fun e => hne e.symm)]
  unfold NQueens.swapRows NQueens.setRow
  have hx : v1.toNat ≠ v2.toNat := by omega
  simp only [Except.ok.injEq, NQueens.mk.injEq, Grid.mk.injEq, and_true]
  rw [List.set_comm _ _ _ hx, List.set_set, List.set_comm _ _ _ hx.symm, List.set_set,
    List.set_comm _ _ _ hx]

theorem swapRows_wf (nq : NQueens) (v1 v2 : Int) (h : nq.wf) : (nq.swapRows v1 v2).wf :=
  setRow_wf _ _ _ (setRow_wf _ _ _ h)

theorem rowAt_swapRows (nq : NQueens) (v1 v2 w : Int) (hwf : nq.wf) (h1 : 0 ≤ v1 ∧ v1 < nq.n)
    (h2 : 0 ≤ v2 ∧ v2 < nq.n) (hw : 0 ≤ w) :
    (nq.swapRows v1 v2).rowAt w =
      if w = v2 then nq.rowAt v1 else if w = v1 then nq.rowAt v2 else nq.rowAt w := by
  unfold NQueens.swapRows
  rw [rowAt_setRow _ v2 _ w (setRow_wf nq _ _ hwf) h2 hw, rowAt_setRow nq v1 _ w hwf h1 hw]

theorem perm_set_head {α : Type} (x : α) :
    ∀ (xs : List α) (j : Nat) (h : j < xs.length), (xs[j] :: xs.set j x).Perm (x :: xs) := by
  intro xs
  induction xs with
  | nil => intro j h; simp at h
  | cons y ys ih =>
    intro j h
    cases j with
    | zero => exact List.Perm.swap _ _ _
    | succ j =>
      simp only [List.getElem_cons_succ, List.set_cons_succ]
      exact (List.Perm.swap _ _ _).trans ((ih j (by simpa using h)).cons y |>.trans
        (List.Perm.swap _ _ _))

theorem perm_swap_lt {α : Type} :
    ∀ (l : List α) (i j : Nat) (hi : i < l.length) (hj : j < l.length), i < j →
      ((l.set i l[j]).set j l[i]).Perm l := by
  intro l
  induction l with
  | nil => intro i j hi; simp at hi
  | cons x xs ih =>
    intro i j hi hj hij
    cases j with
    | zero => omega
    | succ j =>
      cases i with
      | zero =>
        simp only [List.getElem_cons_succ, List.set_cons_zero, List.set_cons_succ,
          List.getElem_cons_zero]
        exact perm_set_head x xs j (by simpa using hj)
      | succ i =>
        simp only [List.getElem_cons_succ, List.set_cons_succ]
        exact (ih i j (by simpa using hi) (by simpa using hj) (by omega)).cons x

theorem swapRows_perm (nq : NQueens) (v1 v2 : Int) (hwf : nq.wf) (h1 : 0 ≤ v1 ∧ v1 < nq.n)
    (h2 : 0 ≤ v2 ∧ v2 < nq.n) (hne : v1 ≠ v2) : (nq.swapRows v1 v2).rows.Perm nq.rows := by
  unfold NQueens.wf at hwf
  have l1 : v1.toNat < nq.rows.length := by omega
  have l2 : v2.toNat < nq.rows.length := by omega
  have hx : v1.toNat ≠ v2.toNat := by omega
  unfold NQueens.swapRows NQueens.setRow Grid.rowAt
  simp only
  rw [List.getD_eq_getElem _ _ l1, List.getD_eq_getElem _ _ l2]
  rcases Nat.lt_or_gt_of_ne hx with h | h
  · exact perm_swap_lt nq.rows _ _ l1 l2 h
  · rw [List.set_comm _ _ _ hx]
    exact perm_swap_lt nq.rows _ _ l2 l1 h

theorem setRow_total (nq : NQueens) (v vv : Int) (hwf : nq.wf) (ht : nq.total)
    (hv : 0 ≤ v ∧ v < nq.n) (hvv : 0 ≤ vv ∧ vv < nq.n) : (nq.setRow v vv).total := by
  intro w h0 h1
  rw [rowAt_setRow nq v vv w hwf hv h0]
  split
  · exact hvv
  · exact ht w h0 h1

theorem swapRows_total (nq : NQueens) (v1 v2 : Int) (hwf : nq.wf) (ht : nq.total)
    (h1 : 0 ≤ v1 ∧ v1 < nq.n) (h2 : 0 ≤ v2 ∧ v2 < nq.n) : (nq.swapRows v1 v2).total := by
  intro w h0 hw
  rw [rowAt_swapRows nq v1 v2 w hwf h1 h2 h0]
  split
  · exact ht v1 h1.1 h1.2
  · split
    · exact ht v2 h2.1 h2.2
    · exact ht w h0 hw

theorem Intn_cases (n : Int) (r : Rand) (hn : 0 < n) :
    (r = [] ∧ Intn n r = .error .starved) ∨
      (∃ d ds, r = d :: ds ∧ Intn n r = .ok ((d : Int) % n, ds)) := by
  unfold Intn
  rw [if_neg (by omega)]
  cases r with
  | nil => exact Or.inl ⟨rfl, rfl⟩
  | cons d ds => exact Or.inr ⟨d, ds, rfl, rfl⟩

theorem swapAnchor_cases (nq : NQueens) (order : List Nat) (cs : List Conflict) (off : Int)
    (r : Rand) (hn : 1 ≤ nq.n) (hcs : ∀ c ∈ cs, 0 ≤ c.Var ∧ c.Var < nq.n)
    (hoff : 0 ≤ off ∧ off < cs.length) :
    (swapAnchor (NQueens.subject order) cs off nq r = .error .starved ∧ r.length < 2) ∨
      (∃ (v1 : Int) (k : Nat), (0 ≤ v1 ∧ v1 < nq.n) ∧ k ≤ 2 ∧ k ≤ r.length ∧
        swapAnchor (NQueens.subject order) cs off nq r = .ok (v1, nq, r.drop k)) := by
  unfold swapAnchor
  rw [index_ok cs off hoff.1 hoff.2 ⟨0, 0⟩]
  have hc : cs.getD off.toNat ⟨0, 0⟩ ∈ cs := by
    have hlt : off.toNat < cs.length := by omega
    rw [List.getD_eq_getElem _ _ hlt]
    exact List.getElem_mem _
  simp only
  rcases Intn_cases 2 r (by norm_num) with ⟨hr, h⟩ | ⟨d, ds, hr, h⟩
  · rw [h]
    exact Or.inl ⟨rfl, by rw [hr]; simp⟩
  · rw [h]
    simp only
    by_cases hcoin : (d : Int) % 2 = 0
    · rw [if_pos hcoin]
      simp only [NQueens.subject, NQueens.Size]
      rcases Intn_cases (nq.n : Int) ds (by omega) with ⟨hr2, h2⟩ | ⟨d2, ds2, hr2, h2⟩
      · rw [h2]
        exact Or.inl ⟨rfl, by rw [hr, hr2]; simp⟩
      · rw [h2]
        refine Or.inr ⟨(d2 : Int) % (nq.n : Int), 2,
          ⟨Int.emod_nonneg _ (by omega), Int.emod_lt_of_pos _ (by omega)⟩,
          le_rfl, by rw [hr, hr2]; simp, ?_⟩
        rw [hr, hr2]
        rfl
    · rw [if_neg hcoin]
      refine Or.inr ⟨_, 1, hcs _ hc, by omega, by rw [hr]; simp, ?_⟩
      rw [hr]
      rfl

theorem pickVar2_cases (nq : NQueens) (order : List Nat) (var1 : Int) (hn : 1 ≤ nq.n) :
    ∀ (fuel : Nat) (r : Rand),
      pickVar2 (NQueens.subject order) var1 fuel nq r = .error .starved ∨
        (∃ (v2 : Int) (k : Nat), (0 ≤ v2 ∧ v2 < nq.n) ∧ v2 ≠ var1 ∧ k ≤ r.length ∧
          pickVar2 (NQueens.subject order) var1 fuel nq r = .ok (v2, nq, r.drop k)) := by
  intro fuel
  induction fuel with
  | zero => intro r; exact Or.inl rfl
  | succ fuel ih =>
    intro r
    unfold pickVar2
    simp only [NQueens.subject, NQueens.Size]
    rcases Intn_cases (nq.n : Int) r (by omega) with ⟨_, h⟩ | ⟨d, ds, hr, h⟩
    · rw [h]; exact Or.inl rfl
    · rw [h]
      simp only
      by_cases hv : (d : Int) % (nq.n : Int) = var1
      · rw [if_pos hv]
        rcases ih ds with h3 | ⟨v2, k, hv2, hne, hk, h3⟩
        · exact Or.inl h3
        · refine Or.inr ⟨v2, k + 1, hv2, hne, by rw [hr]; simp; omega, ?_⟩
          rw [hr]
          exact h3
      · rw [if_neg hv]
        refine Or.inr ⟨(d : Int) % (nq.n : Int), 1,
          ⟨Int.emod_nonneg _ (by omega), Int.emod_lt_of_pos _ (by omega)⟩,
          hv, by rw [hr]; simp, ?_⟩
        rw [hr]
        rfl

theorem goodDraws_length (t : Nat) (r : Rand) (h : goodDraws t r) : t + 1 ≤ r.length := by
  obtain ⟨p, K, rfl, hK⟩ := h
  simp
  omega

theorem goodDraws_drop_one (t : Nat) (r : Rand) (h : goodDraws (t + 1) r) :
    goodDraws t (r.drop 1) := by
  obtain ⟨p, K, rfl, hK⟩ := h
  cases p with
  | nil =>
    obtain ⟨K', rfl⟩ : ∃ K', K = K' + 1 := ⟨K - 1, by omega⟩
    exact ⟨[], K', by simp [List.replicate_succ], by omega⟩
  | cons d p => exact ⟨p, K, by simp, by omega⟩

theorem goodDraws_drop (t : Nat) : ∀ (k : Nat) (r : Rand), goodDraws (t + k) r →
    goodDraws t (r.drop k) := by
  intro k
  induction k with
  | zero => intro r h; simpa using h
  | succ k ih =>
    intro r h
    have h1 := goodDraws_drop_one (t + k) r (by rw [Nat.add_assoc]; exact h)
    have h2 := ih _ h1
    rwa [List.drop_drop, Nat.add_comm] at h2

theorem goodDraws_mono (t s : Nat) (r : Rand) (h : goodDraws t r) (hs : s ≤ t) :
    goodDraws s r := by
  obtain ⟨p, K, hr, hK⟩ := h
  exact ⟨p, K, hr, by omega⟩

/-- On a board with at least two columns the loop that draws `var2` ends as soon
as the outcomes hold a zero followed, later, by a one. -/
theorem pickVar2_good (nq : NQueens) (order : List Nat) (var1 : Int) (hn : 2 ≤ nq.n) :
    ∀ (r : Rand) (fuel : Nat), goodDraws 1 r → r.length + 1 ≤ fuel →
      ∃ v2 r', pickVar2 (NQueens.subject order) var1 fuel nq r = .ok (v2, nq, r') := by
  have hzero : ∀ (K fuel : Nat), K + 2 ≤ fuel → var1 = 0 →
      ∃ v2 r', pickVar2 (NQueens.subject order) var1 fuel nq (List.replicate K 0 ++ [1]) =
        .ok (v2, nq, r') := by
    intro K
    induction K with
    | zero =>
      intro fuel hf hv
      obtain ⟨f, rfl⟩ : ∃ f, fuel = f + 1 := ⟨fuel - 1, by omega⟩
      unfold pickVar2
      simp only [NQueens.subject, NQueens.Size, List.replicate_zero, List.nil_append, Intn]
      rw [if_neg (by omega)]
      simp only
      have : ((1 : Nat) : Int) % (nq.n : Int) = 1 := Int.emod_eq_of_lt (by norm_num) (by omega)
      rw [this, if_neg (by omega)]
      exact ⟨_, _, rfl⟩
    | succ K ihK =>
      intro fuel hf hv
      obtain ⟨f, rfl⟩ : ∃ f, fuel = f + 1 := ⟨fuel - 1, by omega⟩
      unfold pickVar2
      simp only [NQueens.subject, NQueens.Size, List.replicate_succ, List.cons_append, Intn]
      rw [if_neg (by omega)]
      simp only
      have : ((0 : Nat) : Int) % (nq.n : Int) = 0 := by simp
      rw [this, if_pos hv.symm]
      exact ihK f (by omega) hv
  intro r
  induction r with
  | nil =>
    intro fuel hg _
    have := goodDraws_length 1 [] hg
    simp at this
  | cons d ds ih =>
    intro fuel hg hf
    obtain ⟨f, rfl⟩ : ∃ f, fuel = f + 1 := ⟨fuel - 1, by omega⟩
    simp only [List.length_cons] at hf
    by_cases hv : (d : Int) % (nq.n : Int) = var1
    · obtain ⟨p, K, hr, hK⟩ := hg
      cases p with
      | nil =>
        obtain ⟨K', rfl⟩ : ∃ K', K = K' + 1 := ⟨K - 1, by omega⟩
        simp only [List.nil_append, List.replicate_succ, List.cons_append, List.cons.injEq] at hr
        obtain ⟨rfl, rfl⟩ := hr
        have hv0 : var1 = 0 := by rw [← hv]; simp
        have := hzero (K' + 1) (f + 1) (by simp at hf; omega) hv0
        simpa [List.replicate_succ] using this
      | cons d' p =>
        simp only [List.cons_append, List.cons.injEq] at hr
        obtain ⟨rfl, rfl⟩ := hr
        unfold pickVar2
        simp only [NQueens.subject, NQueens.Size, Intn]
        rw [if_neg (by omega)]
        simp only
        rw [if_pos hv]
        exact ih f ⟨p, K, rfl, hK⟩ (by omega)
    · unfold pickVar2
      simp only [NQueens.subject, NQueens.Size, Intn]
      rw [if_neg (by omega)]
      simp only
      rw [if_neg hv]
      exact ⟨_, _, rfl⟩

theorem Conflicts_vars (nq : NQueens) (order : List Nat) (hperm : order.Perm (List.range nq.n)) :
    ∀ c ∈ nq.Conflicts order, 0 ≤ c.Var ∧ c.Var < nq.n := by
  intro c hc
  obtain ⟨col, hcol, hv, _, _⟩ := (mem_Conflicts nq order c).mp hc
  have := List.mem_range.mp (hperm.mem_iff.mp hcol)
  omega

theorem scanFits_entries (nq : NQueens) (order : List Nat)
    (hperm : order.Perm (List.range nq.n)) (hfit : nq.scanFits) :
    ∀ c ∈ nq.Conflicts order, (nq.setRow c.Var (-1)).fits c.Var := by
  intro c hc
  have hv := Conflicts_vars nq order hperm c hc
  have h := hfit c.Var.toNat (List.mem_range.mpr (by omega))
  rwa [Int.toNat_of_nonneg hv.1] at h

theorem escape_cases (nq : NQueens) (order : List Nat) (cs : List Conflict) (off : Int)
    (r : Rand) (hwf : nq.wf) (hn : 1 ≤ nq.n) (hcs : ∀ c ∈ cs, 0 ≤ c.Var ∧ c.Var < nq.n)
    (hoff : 0 ≤ off ∧ off < cs.length) :
    escape (NQueens.subject order) cs off nq r = .error .starved ∨
      (∃ (v1 v2 : Int) (r' : Rand), (0 ≤ v1 ∧ v1 < nq.n) ∧ (0 ≤ v2 ∧ v2 < nq.n) ∧ v1 ≠ v2 ∧
        escape (NQueens.subject order) cs off nq r = .ok (false, nq.swapRows v1 v2, r')) := by
  unfold escape
  rcases swapAnchor_cases nq order cs off r hn hcs hoff with ⟨h, _⟩ | ⟨v1, k, hv1, _, _, h⟩
  · rw [h]; exact Or.inl rfl
  · rw [h]
    simp only
    rcases pickVar2_cases nq order v1 hn ((r.drop k).length + 1) (r.drop k)
      with h2 | ⟨v2, k2, hv2, hne, _, h2⟩
    · rw [h2]; exact Or.inl rfl
    · rw [h2]
      simp only
      rw [swapVals_ok nq order v1 v2 hwf hv1 hv2 (fun e => hne e.symm)]
      exact Or.inr ⟨v1, v2, _, hv1, hv2, fun e => hne e.symm, rfl⟩

theorem escape_good (nq : NQueens) (order : List Nat) (cs : List Conflict) (off : Int)
    (r : Rand) (hwf : nq.wf) (hn : 2 ≤ nq.n) (hcs : ∀ c ∈ cs, 0 ≤ c.Var ∧ c.Var < nq.n)
    (hoff : 0 ≤ off ∧ off < cs.length) (hg : goodDraws 3 r) :
    ∃ nq' r', escape (NQueens.subject order) cs off nq r = .ok (false, nq', r') := by
  unfold escape
  have hlen := goodDraws_length 3 r hg
  rcases swapAnchor_cases nq order cs off r (by omega) hcs hoff with
    ⟨_, h⟩ | ⟨v1, k, hv1, hk2, hkr, h⟩
  · omega
  · rw [h]
    simp only
    have hg1 : goodDraws 1 (r.drop k) :=
      goodDraws_mono _ 1 _ (goodDraws_drop (3 - k) k r (by
        have : 3 - k + k = 3 := by omega
        rw [this]; exact hg)) (by omega)
    obtain ⟨v2, r', h2⟩ := pickVar2_good nq order v1 hn (r.drop k) _ hg1 le_rfl
    rw [h2]
    simp only
    rcases pickVar2_cases nq order v1 (by omega) ((r.drop k).length + 1) (r.drop k)
      with h3 | ⟨v2', k2, hv2, hne, _, h3⟩
    · rw [h2] at h3; simp at h3
    · rw [h2] at h3
      simp only [Except.ok.injEq, Prod.mk.injEq] at h3
      obtain ⟨rfl, _, _⟩ := h3
      rw [swapVals_ok nq order v1 v2 hwf hv1 hv2 (fun e => hne e.symm)]
      exact ⟨_, _, rfl⟩

theorem Step_of_nil {σ : Type} (mc : MinConflict σ) (s s0 : σ) (r : Rand)
    (hc : mc.Conflicts s = .ok ([], s0)) : Step mc s r = .ok (true, s0, r) := by
  unfold Step
  rw [hc]
  rfl

theorem Step_of_draw_error {σ : Type} (mc : MinConflict σ) (s s0 : σ) (r : Rand)
    (cs : List Conflict) (e : Fault) (hc : mc.Conflicts s = .ok (cs, s0)) (hne : cs ≠ [])
    (hd : Intn cs.length r = .error e) : Step mc s r = .error e := by
  unfold Step
  rw [hc]
  simp only
  rw [if_neg (by simpa using hne), hd]

theorem Step_of_scan_error {σ : Type} (mc : MinConflict σ) (s s0 : σ) (r r1 : Rand)
    (cs : List Conflict) (off : Int) (e : Fault) (hc : mc.Conflicts s = .ok (cs, s0))
    (hne : cs ≠ []) (hd : Intn cs.length r = .ok (off, r1))
    (hs : scanLoop mc cs off (List.range cs.length) s0 r1 = .error e) :
    Step mc s r = .error e := by
  unfold Step
  rw [hc]
  simp only
  rw [if_neg (by simpa using hne), hd]
  simp only
  rw [hs]

theorem Step_of_scan_true {σ : Type} (mc : MinConflict σ) (s s0 s1 : σ) (r r1 r2 : Rand)
    (cs : List Conflict) (off : Int) (hc : mc.Conflicts s = .ok (cs, s0))
    (hne : cs ≠ []) (hd : Intn cs.length r = .ok (off, r1))
    (hs : scanLoop mc cs off (List.range cs.length) s0 r1 = .ok (true, s1, r2)) :
    Step mc s r = .ok (false, s1, r2) := by
  unfold Step
  rw [hc]
  simp only
  rw [if_neg (by simpa using hne), hd]
  simp only
  rw [hs]

theorem Step_of_scan_false {σ : Type} (mc : MinConflict σ) (s s0 s1 : σ) (r r1 r2 : Rand)
    (cs : List Conflict) (off : Int) (hc : mc.Conflicts s = .ok (cs, s0))
    (hne : cs ≠ []) (hd : Intn cs.length r = .ok (off, r1))
    (hs : scanLoop mc cs off (List.range cs.length) s0 r1 = .ok (false, s1, r2)) :
    Step mc s r = escape mc cs off s1 r2 := by
  unfold Step
  rw [hc]
  simp only
  rw [if_neg (by simpa using hne), hd]
  simp only
  rw [hs]

theorem subject_Conflicts (nq : NQueens) (order : List Nat) :
    (NQueens.subject order).Conflicts nq = .ok (nq.Conflicts order, nq) := rfl

/-- The four ways a step can end on a board whose heuristic calls do not wrap. -/
theorem Step_cases (nq : NQueens) (order : List Nat) (r : Rand) (hwf : nq.wf)
    (hperm : order.Perm (List.range nq.n)) (hfit : nq.scanFits) :
    (nq.Conflicts order = [] ∧ Step (NQueens.subject order) nq r = .ok (true, nq, r)) ∨
    (nq.Conflicts order ≠ [] ∧ Step (NQueens.subject order) nq r = .error .starved) ∨
    (∃ c ∈ nq.Conflicts order, ∃ (val : Int) (r' : Rand), nq.improvable c ∧
      val ∈ (nq.setRow c.Var (-1)).minimizers c.Var ∧
      Step (NQueens.subject order) nq r = .ok (false, nq.setRow c.Var val, r')) ∨
    (nq.Conflicts order ≠ [] ∧ ∃ (v1 v2 : Int) (r' : Rand),
      (0 ≤ v1 ∧ v1 < nq.n) ∧ (0 ≤ v2 ∧ v2 < nq.n) ∧ v1 ≠ v2 ∧
      Step (NQueens.subject order) nq r = .ok (false, nq.swapRows v1 v2, r')) := by
  have hcs := Conflicts_vars nq order hperm
  by_cases hne : nq.Conflicts order = []
  · left
    exact ⟨hne, Step_of_nil _ _ _ _ (by rw [subject_Conflicts, hne])⟩
  · right
    have hpos : 0 < (nq.Conflicts order).length := List.length_pos.mpr hne
    have hn : 1 ≤ nq.n := by
      obtain ⟨c, hc⟩ := List.exists_mem_of_ne_nil _ hne
      have := hcs c hc
      omega
    have hC := subject_Conflicts nq order
    rcases Intn_cases ((nq.Conflicts order).length : Int) r (by omega) with
      ⟨_, h⟩ | ⟨d, ds, hr, h⟩
    · exact Or.inl ⟨hne, Step_of_draw_error _ _ _ _ _ _ hC hne h⟩
    · have hoff : 0 ≤ (d : Int) % ((nq.Conflicts order).length : Int) ∧
          (d : Int) % ((nq.Conflicts order).length : Int) < (nq.Conflicts order).length :=
        ⟨Int.emod_nonneg _ (by omega), Int.emod_lt_of_pos _ (by omega)⟩
      rcases scanLoop_cases nq order _ ((d : Int) % ((nq.Conflicts order).length : Int))
          hwf hn hne hcs (scanFits_entries nq order hperm hfit)
          (List.range (nq.Conflicts order).length) ds with
        ⟨hs, _⟩ | ⟨k, _, _, hs, _⟩ | ⟨i, _, k, val, _, _, himp, hval, hs⟩
      · exact Or.inl ⟨hne, Step_of_scan_error _ _ _ _ _ _ _ _ hC hne h hs⟩
      · rw [Step_of_scan_false _ _ _ _ _ _ _ _ _ hC hne h hs]
        rcases escape_cases nq order _ _ (ds.drop k) hwf hn hcs hoff with
          he | ⟨v1, v2, r', h1, h2, h12, he⟩
        · rw [he]; exact Or.inl ⟨hne, rfl⟩
        · rw [he]; exact Or.inr (Or.inr ⟨hne, v1, v2, r', h1, h2, h12, rfl⟩)
      · rw [Step_of_scan_true _ _ _ _ _ _ _ _ _ hC hne h hs]
        exact Or.inr (Or.inl ⟨_, entry_mem _ _ i hne, val, _, himp, hval, rfl⟩)

theorem Step_good (nq : NQueens) (order : List Nat) (r : Rand) (hwf : nq.wf) (hn : 2 ≤ nq.n)
    (hperm : order.Perm (List.range nq.n)) (hfit : nq.scanFits)
    (hg : goodDraws ((nq.Conflicts order).length + 4) r) :
    ∃ b nq' r', Step (NQueens.subject order) nq r = .ok (b, nq', r') := by
  have hcs := Conflicts_vars nq order hperm
  have hC := subject_Conflicts nq order
  by_cases hne : nq.Conflicts order = []
  · exact ⟨true, nq, r, Step_of_nil _ _ _ _ (by rw [subject_Conflicts, hne])⟩
  · have hpos : 0 < (nq.Conflicts order).length := List.length_pos.mpr hne
    have hlen := goodDraws_length _ r hg
    rcases Intn_cases ((nq.Conflicts order).length : Int) r (by omega) with
      ⟨hr, _⟩ | ⟨d, ds, hr, h⟩
    · rw [hr] at hlen; simp at hlen
    · have hoff : 0 ≤ (d : Int) % ((nq.Conflicts order).length : Int) ∧
          (d : Int) % ((nq.Conflicts order).length : Int) < (nq.Conflicts order).length :=
        ⟨Int.emod_nonneg _ (by omega), Int.emod_lt_of_pos _ (by omega)⟩
      have hg1 : goodDraws ((nq.Conflicts order).length + 3) ds := by
        have := goodDraws_drop_one ((nq.Conflicts order).length + 3) r hg
        rwa [hr] at this
      have hlen1 := goodDraws_length _ ds hg1
      rcases scanLoop_cases nq order _ ((d : Int) % ((nq.Conflicts order).length : Int))
          hwf (by omega) hne hcs (scanFits_entries nq order hperm hfit)
          (List.range (nq.Conflicts order).length) ds with
        ⟨_, hl⟩ | ⟨k, hk, _, hs, _⟩ | ⟨i, _, k, val, _, _, _, _, hs⟩
      · simp only [List.length_range] at hl; omega
      · rw [Step_of_scan_false _ _ _ _ _ _ _ _ _ hC hne h hs]
        simp only [List.length_range] at hk
        have hg2 : goodDraws 3 (ds.drop k) :=
          goodDraws_mono _ 3 _ (goodDraws_drop ((nq.Conflicts order).length + 3 - k) k ds (by
            have : (nq.Conflicts order).length + 3 - k + k = (nq.Conflicts order).length + 3 := by
              omega
            rw [this]; exact hg1)) (by omega)
        obtain ⟨nq', r', he⟩ := escape_good nq order _ _ (ds.drop k) hwf hn hcs hoff hg2
        exact ⟨_, _, _, he⟩
      · exact ⟨_, _, _, Step_of_scan_true _ _ _ _ _ _ _ _ _ hC hne h hs⟩

/-- Whatever outcomes a run has read on a board whose heuristic calls do not
wrap, there are further outcomes with which the step returns: only an unending
run of unlucky draws keeps `Step` from ending. -/
theorem Step_progress (nq : NQueens) (order : List Nat) (r : Rand) (hwf : nq.wf)
    (hn : 2 ≤ nq.n) (hperm : order.Perm (List.range nq.n)) (hfit : nq.scanFits) :
    ∃ r2 b nq' r', Step (NQueens.subject order) nq (r ++ r2) = .ok (b, nq', r') :=
  ⟨List.replicate ((nq.Conflicts order).length + 4) 0 ++ [1],
    Step_good nq order _ hwf hn hperm hfit ⟨r, _, rfl, le_rfl⟩⟩

theorem range_split (len k : Nat) (hk : k < len) :
    ∃ post, List.range len = List.range k ++ k :: post := by
  obtain ⟨m, rfl⟩ : ∃ m, len = k + (m + 1) := ⟨len - k - 1, by omega⟩
  refine ⟨(List.range m).map (fun x => k + (x + 1)), ?_⟩
  rw [List.range_add, List.range_succ_eq_map]
  simp [Function.comp_def]

/-- Away from the wrap-around of `conflicts[0]+1`: on a board with at least two
columns whose every column holds a row of `[0, n)` and whose heuristic calls do
not wrap, for every list of random outcomes and every reporting order, a step
does not panic; whenever it returns, whether through the solved, the improving
or the escape branch, `rows` still has one entry per column and every column
again holds a row of `[0, n)`, none the sentinel `-1`; and the outcomes read so
far can always be continued so that the step returns. -/
theorem Step_keeps_total (nq : NQueens) (order : List Nat) (r : Rand) (hwf : nq.wf)
    (hn : 2 ≤ nq.n) (ht : nq.total) (hperm : order.Perm (List.range nq.n))
    (hfit : nq.scanFits) :
    Step (NQueens.subject order) nq r ≠ .error .panic ∧
    (∀ (b : Bool) (nq' : NQueens) (r' : Rand),
      Step (NQueens.subject order) nq r = .ok (b, nq', r') →
        nq'.wf ∧ nq'.n = nq.n ∧ nq'.total) ∧
    (∃ (r2 : Rand) (b : Bool) (nq' : NQueens) (r' : Rand),
      Step (NQueens.subject order) nq (r ++ r2) = .ok (b, nq', r')) := by
  refine ⟨?_, ?_, Step_progress nq order r hwf hn hperm hfit⟩
  · rcases Step_cases nq order r hwf hperm hfit with
      ⟨_, h⟩ | ⟨_, h⟩ | ⟨c, _, val, r', _, _, h⟩ | ⟨_, v1, v2, r', _, _, _, h⟩ <;>
      rw [h] <;> simp
  · intro b nq' r' hs
    rcases Step_cases nq order r hwf hperm hfit with
      ⟨_, h⟩ | ⟨_, h⟩ | ⟨c, hc, val, r'', _, hval, h⟩ | ⟨_, v1, v2, r'', h1, h2, _, h⟩
    · rw [h] at hs
      simp only [Except.ok.injEq, Prod.mk.injEq] at hs
      obtain ⟨_, rfl, _⟩ := hs
      exact ⟨hwf, rfl, ht⟩
    · rw [h] at hs; simp at hs
    · rw [h] at hs
      simp only [Except.ok.injEq, Prod.mk.injEq] at hs
      obtain ⟨_, rfl, _⟩ := hs
      have hv := Conflicts_vars nq order hperm c hc
      have hval' := ((mem_minimizers _ _ _).mp hval).1
      exact ⟨setRow_wf nq _ _ hwf, rfl, setRow_total nq _ _ hwf ht hv hval'⟩
    · rw [h] at hs
      simp only [Except.ok.injEq, Prod.mk.injEq] at hs
      obtain ⟨_, rfl, _⟩ := hs
      exact ⟨swapRows_wf nq _ _ hwf, rfl, swapRows_total nq _ _ hwf ht h1 h2⟩

/-- Away from the wrap-around of `conflicts[0]+1`: let the report be non-empty
and `off = d % len(cs)` the drawn start offset.  If iteration `k` of the scan is
the first whose entry
`cs[(k+off)%len(cs)]` has its heuristic cost, computed on the board with only
that variable unassigned, strictly below its reported conflict count, then
(given one outcome for each heuristic call that may need one) `Step` returns
false, having assigned to that entry's variable the row the heuristic returned
for it, and every other column holds the row it held before the call. -/
theorem Step_improves_first (nq : NQueens) (order : List Nat) (d : Nat) (ds : Rand) (k : Nat)
    (hwf : nq.wf) (hperm : order.Perm (List.range nq.n)) (hfit : nq.scanFits)
    (hk : k < (nq.Conflicts order).length)
    (hfirst : ∀ j < k, ¬ nq.improvable
      (entry (nq.Conflicts order) ((d : Int) % (nq.Conflicts order).length) j))
    (himp : nq.improvable
      (entry (nq.Conflicts order) ((d : Int) % (nq.Conflicts order).length) k))
    (hds : k + 1 ≤ ds.length) :
    ∃ (c : Conflict) (val cost : Int) (r0 r' : Rand),
      index (nq.Conflicts order)
        (((k : Int) + (d : Int) % (nq.Conflicts order).length) % (nq.Conflicts order).length)
        = .ok c ∧
      (nq.setRow c.Var (-1)).Heuristic c.Var r0 = .ok ((val, cost), r') ∧
      cost < c.Conflicts ∧
      Step (NQueens.subject order) nq (d :: ds) = .ok (false, nq.setRow c.Var val, r') ∧
      (nq.setRow c.Var val).rowAt c.Var = val ∧
      ∀ w : Int, 0 ≤ w → w ≠ c.Var → (nq.setRow c.Var val).rowAt w = nq.rowAt w := by
  have hcs := Conflicts_vars nq order hperm
  have hne : nq.Conflicts order ≠ [] := List.length_pos.mp (by omega)
  have hn : 1 ≤ nq.n := by
    obtain ⟨c, hc⟩ := List.exists_mem_of_ne_nil _ hne
    have := hcs c hc
    omega
  obtain ⟨post, hsplit⟩ := range_split _ k hk
  obtain ⟨val, r0, r', hH, hs⟩ := scanLoop_first nq order _
    ((d : Int) % (nq.Conflicts order).length) hwf hn hne hcs
    (scanFits_entries nq order hperm hfit) k post himp (List.range k) ds
    (fun j hj => hfirst j (List.mem_range.mp hj)) (by simpa using hds)
  rw [← hsplit] at hs
  have hd : Intn (nq.Conflicts order).length (d :: ds) =
      .ok ((d : Int) % (nq.Conflicts order).length, ds) := by
    unfold Intn
    rw [if_neg (by have := List.length_pos.mpr hne; omega)]
  have hv := hcs _ (entry_mem (nq.Conflicts order) ((d : Int) % (nq.Conflicts order).length) k hne)
  refine ⟨_, val, _, r0, r', index_entry _ _ k hne, hH, himp,
    Step_of_scan_true _ _ _ _ _ _ _ _ _ (subject_Conflicts nq order) hne hd hs, ?_, ?_⟩
  · rw [rowAt_setRow nq _ _ _ hwf hv hv.1, if_pos rfl]
  · intro w hw hwv
    rw [rowAt_setRow nq _ _ _ hwf hv hw, if_neg hwv]

/-- Lines 55-58 of `Step` on their own, for every subject, every report `cs` and
every offset `off` within it: when the coin flip is not zero the first variable of
the swap is the variable of `cs[off]`, which is the entry iteration `i = 0` of a
scan with that offset reads (`cs[(0+off)%len(cs)]`); no method of the subject is
called and only the coin's outcome is read. -/
theorem swapAnchor_reuses_first {σ : Type} (mc : MinConflict σ) (cs : List Conflict)
    (off : Int) (s : σ) (d : Nat) (ds : Rand) (hoff : 0 ≤ off ∧ off < cs.length)
    (hcoin : (d : Int) % 2 ≠ 0) :
    ∃ c : Conflict, index cs ((((0 : Nat) : Int) + off) % cs.length) = .ok c ∧
      swapAnchor mc cs off s (d :: ds) = .ok (c.Var, s, ds) := by
  have hmod : (((0 : Nat) : Int) + off) % cs.length = off := by
    rw [Nat.cast_zero, zero_add]
    exact Int.emod_eq_of_lt hoff.1 hoff.2
  refine ⟨cs.getD off.toNat ⟨0, 0⟩, ?_, ?_⟩
  · rw [hmod]
    exact index_ok cs off hoff.1 hoff.2 _
  · unfold swapAnchor
    rw [index_ok cs off hoff.1 hoff.2 ⟨0, 0⟩]
    simp only [Intn]
    rw [if_neg (by norm_num)]
    simp only
    rw [if_neg hcoin]

/-- C4, counterexample. On the 4x4 board with rows `[0, 2, 3, 1]` under the
attack constraint the report is `[(1,1), (2,1)]`; with start offset 0 the scan
improves nothing, the entry scanned last, at position `(0 + 2 - 1) % 2`, is that
of variable 2, yet with the coin at 1 the first variable of the swap is 1: the
step exchanges columns 1 and 0 and ends on rows `[2, 0, 3, 1]`. -/
theorem anchor_is_not_last_scanned :
    plateauBoard.Conflicts [0, 1, 2, 3] = [⟨1, 1⟩, ⟨2, 1⟩] ∧
    (scanLoop (NQueens.subject [0, 1, 2, 3]) [⟨1, 1⟩, ⟨2, 1⟩] 0 (List.range 2) plateauBoard
      [0, 1, 0]).toOption.map (fun x => (x.1, x.2.1.rows, x.2.2)) =
        some (false, [0, 2, 3, 1], [1, 0]) ∧
    (index [(⟨1, 1⟩ : Conflict), ⟨2, 1⟩] ((0 + 2 - 1) % 2)).toOption.map (fun c => c.Var) =
      some 2 ∧
    (swapAnchor (NQueens.subject [0, 1, 2, 3]) [⟨1, 1⟩, ⟨2, 1⟩] 0 plateauBoard
      [1, 0]).toOption.map (fun x => (x.1, x.2.2)) = some (1, [0]) ∧
    (swapAnchor (NQueens.subject [0, 1, 2, 3]) [⟨1, 1⟩, ⟨2, 1⟩] 0 plateauBoard
      [1, 0]).toOption.map (fun x => x.1) ≠
      (index [(⟨1, 1⟩ : Conflict), ⟨2, 1⟩] ((0 + 2 - 1) % 2)).toOption.map (fun c => c.Var) ∧
    (Step (NQueens.subject [0, 1, 2, 3]) plateauBoard [0, 0, 1, 0]).toOption.map
      (fun x => (x.1, x.2.1.rows, x.2.2)) = some (false, [2, 0, 3, 1], []) := by
  decide

/-- Away from the wrap-around of `conflicts[0]+1`: on a board with at least two
columns whose heuristic calls do not wrap and whose report is non-empty and holds
no entry that can be strictly improved, for every list of random outcomes, a step
does not panic; whenever it returns it returns false and the board is the one
before the call with the rows of two distinct columns `var1 ≠ var2` exchanged,
every other column unchanged, so `rows` is a permutation of what it was; and the
outcomes read so far can always be continued so that the step returns. -/
theorem Step_escape_swaps (nq : NQueens) (order : List Nat) (r : Rand) (hwf : nq.wf)
    (hn : 2 ≤ nq.n) (hperm : order.Perm (List.range nq.n)) (hfit : nq.scanFits)
    (hne : nq.Conflicts order ≠ [])
    (hloc : ∀ c ∈ nq.Conflicts order, ¬ nq.improvable c) :
    Step (NQueens.subject order) nq r ≠ .error .panic ∧
    (∀ (b : Bool) (nq' : NQueens) (r' : Rand),
      Step (NQueens.subject order) nq r = .ok (b, nq', r') →
        b = false ∧ ∃ var1 var2 : Int, (0 ≤ var1 ∧ var1 < nq.n) ∧ (0 ≤ var2 ∧ var2 < nq.n) ∧
          var1 ≠ var2 ∧ nq'.n = nq.n ∧ nq'.constraints = nq.constraints ∧
          nq'.rows.length = nq.rows.length ∧
          nq'.rowAt var1 = nq.rowAt var2 ∧ nq'.rowAt var2 = nq.rowAt var1 ∧
          (∀ w : Int, 0 ≤ w → w ≠ var1 → w ≠ var2 → nq'.rowAt w = nq.rowAt w) ∧
          nq'.rows.Perm nq.rows) ∧
    (∃ (r2 : Rand) (b : Bool) (nq' : NQueens) (r' : Rand),
      Step (NQueens.subject order) nq (r ++ r2) = .ok (b, nq', r')) := by
  refine ⟨?_, ?_, Step_progress nq order r hwf hn hperm hfit⟩
  · rcases Step_cases nq order r hwf hperm hfit with
      ⟨_, h⟩ | ⟨_, h⟩ | ⟨c, _, val, r', _, _, h⟩ | ⟨_, v1, v2, r', _, _, _, h⟩ <;>
      rw [h] <;> simp
  · intro b nq' r' hs
    rcases Step_cases nq order r hwf hperm hfit with
      ⟨h0, _⟩ | ⟨_, h⟩ | ⟨c, hc, val, r'', himp, _, h⟩ | ⟨_, v1, v2, r'', h1, h2, h12, h⟩
    · exact absurd h0 hne
    · rw [h] at hs; simp at hs
    · exact absurd himp (hloc c hc)
    · rw [h] at hs
      simp only [Except.ok.injEq, Prod.mk.injEq] at hs
      obtain ⟨rfl, rfl, _⟩ := hs
      refine ⟨rfl, v1, v2, h1, h2, h12, rfl, rfl, ?_, ?_, ?_, ?_,
        swapRows_perm nq v1 v2 hwf h1 h2 h12⟩
      · exact (swapRows_wf nq v1 v2 hwf).trans hwf.symm
      · rw [rowAt_swapRows nq v1 v2 v1 hwf h1 h2 h1.1, if_neg h12, if_pos rfl]
      · rw [rowAt_swapRows nq v1 v2 v2 hwf h1 h2 h2.1, if_pos rfl]
      · intro w hw hw1 hw2
        rw [rowAt_swapRows nq v1 v2 w hwf h1 h2 hw, if_neg hw2, if_neg hw1]

/-- C9. On every board, for every cell `(x, y)` of the board and every
direction other than `(0,0)`, both loops of `ray` end within `n` iterations and
`line x y dx dy` is the number of integers `t ≠ 0` for which
`(x + t*dx, y + t*dy)` is a cell of the board with `rows[x + t*dx] = y + t*dy`;
so the cell `(x, y)` itself, at `t = 0`, is never counted, and the value is that
of `line x y (-dx) (-dy)`. -/
theorem line_counts_hits (g : Grid) (x y dx dy : Int) (hx : 0 ≤ x ∧ x < g.n)
    (hy : 0 ≤ y ∧ y < g.n) (hd : ¬ (dx = 0 ∧ dy = 0)) :
    (g.rayLoop dx dy g.n (x + dx) (y + dy) 0).isSome = true ∧
    (g.rayLoop (-dx) (-dy) g.n (x + -dx) (y + -dy) 0).isSome = true ∧
    g.line x y dx dy = (Set.ncard {t : Int | t ≠ 0 ∧ g.onBoard (x + t * dx) (y + t * dy) ∧
      g.rowAt (x + t * dx) = y + t * dy} : Int) ∧
    g.line x y dx dy = g.line x y (-dx) (-dy) := by
  have h0 : g.onBoard x y := ⟨hx.1, hx.2, hy.1, hy.2⟩
  have hd' : dx ≠ 0 ∨ dy ≠ 0 := by
    by_contra h
    push_neg at h
    exact hd h
  refine ⟨rayLoop_isSome g x y dx dy h0 hd', rayLoop_isSome g x y (-dx) (-dy) h0 (by omega),
    ?_, ?_⟩
  · rw [hitSet_eq g x y dx dy h0 hd', Set.ncard_coe_Finset]
    exact line_eq_card g x y dx dy h0 hd'
  · unfold Grid.line
    rw [neg_neg, neg_neg, add_comm]

/-- Witness for C9: the board of size 10 with every column on row 0, where the
four lines through `(0,0)` count 9, 0, 0 and 0 pieces. -/
theorem line_counts_hits_witness :
    ((0 : Int) ≤ 0 ∧ (0 : Int) < rowZeroBoard.n) ∧ ¬ ((1 : Int) = 0 ∧ (0 : Int) = 0) ∧
    rowZeroBoard.line 0 0 1 0 = (Set.ncard {t : Int | t ≠ 0 ∧
      rowZeroBoard.onBoard (0 + t * 1) (0 + t * 0) ∧
      rowZeroBoard.rowAt (0 + t * 1) = 0 + t * 0} : Int) ∧
    rowZeroBoard.line 0 0 1 0 = 9 ∧ rowZeroBoard.line 0 0 0 1 = 0 ∧
    rowZeroBoard.line 0 0 1 1 = 0 ∧ rowZeroBoard.line 0 0 (-1) 1 = 0 :=
  ⟨by decide, by decide,
    (line_counts_hits rowZeroBoard.toGrid 0 0 1 0 (by decide) (by decide) (by decide)).2.2.1,
    by decide, by decide, by decide, by decide⟩

/-- Witness for C10: the cell `(1, 2)` of the board of size 4 with every column on row 0. -/
theorem attack_counts_pieces_witness :
    ((0 : Int) ≤ 1 ∧ (1 : Int) < crowdedBoard.n) ∧ ((0 : Int) ≤ 2 ∧ (2 : Int) < crowdedBoard.n) ∧
    attack crowdedBoard.toGrid 1 2 = ((Finset.Ico (0 : Int) crowdedBoard.n).filter (fun i =>
      (0 ≤ crowdedBoard.rowAt i ∧ crowdedBoard.rowAt i < crowdedBoard.n) ∧
        ¬ (i = 1 ∧ crowdedBoard.rowAt i = 2) ∧
        (i = 1 ∨ crowdedBoard.rowAt i = 2 ∨ crowdedBoard.rowAt i - 2 = i - 1 ∨
          crowdedBoard.rowAt i - 2 = -(i - 1)))).card ∧
    attack crowdedBoard.toGrid 1 2 = 2 :=
  ⟨by decide, by decide,
    attack_counts_pieces crowdedBoard.toGrid 1 2 (by decide) (by decide), by decide⟩

/-- An instance: column 0 of the board of size 4 with every column on row 0. -/
theorem Heuristic_returns_minimum_witness :
    1 ≤ crowdedBoard.n ∧ crowdedBoard.fits 0 ∧
    ∃ v c r', crowdedBoard.Heuristic 0 (5 :: []) = .ok ((v, c), r') ∧
      (0 ≤ v ∧ v < crowdedBoard.n) ∧
      (∀ r : Int, 0 ≤ r → r < crowdedBoard.n → c ≤ crowdedBoard.conflicts 0 r) ∧
      crowdedBoard.conflicts 0 v = c :=
  ⟨by decide, by decide, Heuristic_returns_minimum crowdedBoard 0 5 [] (by decide) (by decide)⟩

/-- An instance: column 0, unassigned, of the board of size 4 with the other
columns on row 0, where three rows tie. -/
theorem Heuristic_tie_break_witness :
    1 ≤ crowdedBoard.n ∧ (crowdedBoard.setRow 0 (-1)).fits 0 ∧
    (crowdedBoard.setRow 0 (-1)).minimizers 0 = [1, 2, 3] ∧
    (∀ (k : Nat) (ds : Rand), k < ((crowdedBoard.setRow 0 (-1)).minimizers 0).length →
      (crowdedBoard.setRow 0 (-1)).Heuristic 0 (k :: ds) =
        .ok ((((crowdedBoard.setRow 0 (-1)).minimizers 0).getD k 0,
          (crowdedBoard.setRow 0 (-1)).minCost 0), ds)) :=
  ⟨by decide, by decide, by decide,
    (Heuristic_tie_break (crowdedBoard.setRow 0 (-1)) 0 (by decide)
      (by decide)).2.2.2.2.2.1 (by decide)⟩

/-- Witness for C8: the board of size 4 with every column on row 0, reported in the order 2, 0, 3, 1. -/
theorem Conflicts_report_witness :
    List.Perm [2, 0, 3, 1] (List.range crowdedBoard.n) ∧
    ((crowdedBoard.Conflicts [2, 0, 3, 1]).map (fun c => c.Var)).Nodup ∧
    crowdedBoard.Conflicts [2, 0, 3, 1] = [⟨2, 3⟩, ⟨0, 3⟩, ⟨3, 3⟩, ⟨1, 3⟩] :=
  ⟨by decide, (Conflicts_report crowdedBoard [2, 0, 3, 1] (by decide)).2.1, by decide⟩

theorem plateauBoard_total : plateauBoard.total := by
  intro v h0 h1
  have h2 : v < 4 := h1
  interval_cases v <;> decide

/-- An instance: the plateau board with the outcomes 0, 0, 1, 0. -/
theorem Step_keeps_total_witness :
    plateauBoard.wf ∧ 2 ≤ plateauBoard.n ∧ plateauBoard.total ∧
    List.Perm [0, 1, 2, 3] (List.range plateauBoard.n) ∧ plateauBoard.scanFits ∧
    (∀ (b : Bool) (nq' : NQueens) (r' : Rand),
      Step (NQueens.subject [0, 1, 2, 3]) plateauBoard [0, 0, 1, 0] = .ok (b, nq', r') →
        nq'.wf ∧ nq'.n = plateauBoard.n ∧ nq'.total) :=
  ⟨by decide, by decide, plateauBoard_total, by decide, by decide,
    (Step_keeps_total plateauBoard [0, 1, 2, 3] [0, 0, 1, 0] (by decide) (by decide)
      plateauBoard_total (by decide) (by decide)).2.1⟩

/-- An instance: the board with rows `[0, 0, 2, 1]` under the attack constraint,
with the draw 1 for the offset.  The scan starts at the entry of column 1, which
cannot be improved and is put back, and moves column 2, the next entry. -/
theorem Step_improves_first_witness :
    (boardOf [0, 0, 2, 1] [attack]).wf ∧
    List.Perm [0, 1, 2, 3] (List.range (boardOf [0, 0, 2, 1] [attack]).n) ∧
    (boardOf [0, 0, 2, 1] [attack]).scanFits ∧
    (boardOf [0, 0, 2, 1] [attack]).Conflicts [0, 1, 2, 3] = [⟨0, 2⟩, ⟨1, 1⟩, ⟨2, 2⟩, ⟨3, 1⟩] ∧
    ¬ (boardOf [0, 0, 2, 1] [attack]).improvable
      (entry ((boardOf [0, 0, 2, 1] [attack]).Conflicts [0, 1, 2, 3])
        (((1 : Nat) : Int) % ((boardOf [0, 0, 2, 1] [attack]).Conflicts [0, 1, 2, 3]).length) 0) ∧
    (boardOf [0, 0, 2, 1] [attack]).improvable
      (entry ((boardOf [0, 0, 2, 1] [attack]).Conflicts [0, 1, 2, 3])
        (((1 : Nat) : Int) % ((boardOf [0, 0, 2, 1] [attack]).Conflicts [0, 1, 2, 3]).length) 1) ∧
    (∃ (c : Conflict) (val cost : Int) (r0 r' : Rand),
      index ((boardOf [0, 0, 2, 1] [attack]).Conflicts [0, 1, 2, 3])
        ((((1 : Nat) : Int) +
            ((1 : Nat) : Int) % ((boardOf [0, 0, 2, 1] [attack]).Conflicts [0, 1, 2, 3]).length) %
          ((boardOf [0, 0, 2, 1] [attack]).Conflicts [0, 1, 2, 3]).length) = .ok c ∧
      ((boardOf [0, 0, 2, 1] [attack]).setRow c.Var (-1)).Heuristic c.Var r0 =
        .ok ((val, cost), r') ∧
      cost < c.Conflicts ∧
      Step (NQueens.subject [0, 1, 2, 3]) (boardOf [0, 0, 2, 1] [attack]) (1 :: [0, 0]) =
        .ok (false, (boardOf [0, 0, 2, 1] [attack]).setRow c.Var val, r') ∧
      ((boardOf [0, 0, 2, 1] [attack]).setRow c.Var val).rowAt c.Var = val ∧
      ∀ w : Int, 0 ≤ w → w ≠ c.Var →
        ((boardOf [0, 0, 2, 1] [attack]).setRow c.Var val).rowAt w =
          (boardOf [0, 0, 2, 1] [attack]).rowAt w) ∧
    (Step (NQueens.subject [0, 1, 2, 3]) (boardOf [0, 0, 2, 1] [attack])
      (1 :: [0, 0])).toOption.map (fun x => (x.1, x.2.1.rows)) = some (false, [0, 0, 3, 1]) :=
  ⟨by decide, by decide, by decide, by decide, by decide, by decide,
    Step_improves_first (boardOf [0, 0, 2, 1] [attack]) [0, 1, 2, 3] 1 [0, 0] 1 (by decide)
      (by decide) (by decide) (by decide)
      (fun j hj => by
        have hj0 : j = 0 := by omega
        subst hj0
        decide)
      (by decide) (by decide),
    by decide⟩

/-- An instance: the report of the plateau board with offset 1 and the coin at 1. -/
theorem swapAnchor_reuses_first_witness :
    ((0 : Int) ≤ 1 ∧ (1 : Int) < ([⟨1, 1⟩, ⟨2, 1⟩] : List Conflict).length) ∧
    ((3 : Nat) : Int) % 2 ≠ 0 ∧
    ∃ c : Conflict, index [(⟨1, 1⟩ : Conflict), ⟨2, 1⟩]
        ((((0 : Nat) : Int) + 1) % ([⟨1, 1⟩, ⟨2, 1⟩] : List Conflict).length) = .ok c ∧
      swapAnchor (NQueens.subject [0, 1, 2, 3]) [⟨1, 1⟩, ⟨2, 1⟩] 1 plateauBoard (3 :: [0]) =
        .ok (c.Var, plateauBoard, [0]) :=
  ⟨by decide, by decide,
    swapAnchor_reuses_first (NQueens.subject [0, 1, 2, 3]) [⟨1, 1⟩, ⟨2, 1⟩] 1 plateauBoard 3 [0]
      (by decide) (by decide)⟩

/-- An instance: the plateau board with the outcomes 0, 0, 1, 0. -/
theorem Step_escape_swaps_witness :
    plateauBoard.wf ∧ 2 ≤ plateauBoard.n ∧
    List.Perm [0, 1, 2, 3] (List.range plateauBoard.n) ∧ plateauBoard.scanFits ∧
    plateauBoard.Conflicts [0, 1, 2, 3] ≠ [] ∧
    (∀ c ∈ plateauBoard.Conflicts [0, 1, 2, 3], ¬ plateauBoard.improvable c) ∧
    (∀ (b : Bool) (nq' : NQueens) (r' : Rand),
      Step (NQueens.subject [0, 1, 2, 3]) plateauBoard [0, 0, 1, 0] = .ok (b, nq', r') →
        b = false ∧ ∃ var1 var2 : Int, (0 ≤ var1 ∧ var1 < plateauBoard.n) ∧
          (0 ≤ var2 ∧ var2 < plateauBoard.n) ∧
          var1 ≠ var2 ∧ nq'.n = plateauBoard.n ∧ nq'.constraints = plateauBoard.constraints ∧
          nq'.rows.length = plateauBoard.rows.length ∧
          nq'.rowAt var1 = plateauBoard.rowAt var2 ∧ nq'.rowAt var2 = plateauBoard.rowAt var1 ∧
          (∀ w : Int, 0 ≤ w → w ≠ var1 → w ≠ var2 → nq'.rowAt w = plateauBoard.rowAt w) ∧
          nq'.rows.Perm plateauBoard.rows) :=
  ⟨by decide, by decide, by decide, by decide, by decide, by decide,
    (Step_escape_swaps plateauBoard [0, 1, 2, 3] [0, 0, 1, 0] (by decide) (by decide)
      (by decide) (by decide) (by decide) (by decide)).2.1⟩

theorem gcdLoop_nat : ∀ (fuel : Nat) (a b : Nat), b ≤ fuel →
    gcdLoop fuel (a : Int) (b : Int) = some ((Nat.gcd a b : Nat) : Int) := by
  intro fuel
  induction fuel with
  | zero =>
    intro a b hb
    obtain rfl : b = 0 := by omega
    unfold gcdLoop
    simp
  | succ fuel ih =>
    intro a b hb
    unfold gcdLoop
    by_cases h0 : b = 0
    · subst h0
      simp
    · rw [if_pos (by exact_mod_cast h0)]
      simp only
      have hmod : (a : Int).tmod (b : Int) = ((a % b : Nat) : Int) := by
        rw [Int.tmod_eq_emod (by omega) (by omega)]
        rfl
      rw [hmod, ih b (a % b) (by
        have := Nat.mod_lt a (Nat.pos_of_ne_zero h0)
        omega)]
      rw [Nat.gcd_comm b (a % b), ← Nat.gcd_rec, Nat.gcd_comm]

/-- On non-negative arguments `gcd` ends and returns the greatest common
divisor. -/
theorem gcd_nat (a b : Nat) : gcd (a : Int) (b : Int) = ((Nat.gcd a b : Nat) : Int) := by
  unfold gcd
  rw [Int.natAbs_ofNat, gcdLoop_nat b a b le_rfl]
  rfl

theorem gcdLoop_isSome (a b : Nat) : (gcdLoop (b : Int).natAbs (a : Int) (b : Int)).isSome = true := by
  rw [Int.natAbs_ofNat, gcdLoop_nat b a b le_rfl]
  rfl

theorem gcd_nat_eq_one_iff (a b : Nat) : gcd (a : Int) (b : Int) = 1 ↔ Nat.gcd a b = 1 := by
  rw [gcd_nat]
  exact_mod_cast Iff.rfl

theorem mem_newSlopes (limit : Int) (s : slope) :
    s ∈ newSlopes limit ↔
      1 ≤ s.x ∧ s.x < limit ∧ 1 ≤ s.y ∧ s.y < limit ∧ Int.gcd s.x s.y = 1 := by
  unfold newSlopes
  simp only [List.mem_flatMap, List.mem_filterMap, List.mem_range'_1]
  constructor
  · rintro ⟨i, ⟨hi1, hi2⟩, j, ⟨hj1, hj2⟩, h⟩
    by_cases hg : gcd (i : Int) (j : Int) ≠ 1
    · rw [if_pos hg] at h; simp at h
    · rw [if_neg hg] at h
      simp only [Option.some.injEq] at h
      subst h
      push_neg at hg
      rw [gcd_nat_eq_one_iff] at hg
      refine ⟨by simp only; omega, by simp only; omega, by simp only; omega,
        by simp only; omega, ?_⟩
      simpa [Int.gcd] using hg
  · rintro ⟨hx1, hx2, hy1, hy2, hg⟩
    refine ⟨s.x.toNat, ⟨by omega, by omega⟩, s.y.toNat, ⟨by omega, by omega⟩, ?_⟩
    have ex : ((s.x.toNat : Nat) : Int) = s.x := Int.toNat_of_nonneg (by omega)
    have ey : ((s.y.toNat : Nat) : Int) = s.y := Int.toNat_of_nonneg (by omega)
    have hg' : gcd ((s.x.toNat : Nat) : Int) ((s.y.toNat : Nat) : Int) = 1 := by
      rw [gcd_nat_eq_one_iff]
      have e1 : s.x.natAbs = s.x.toNat := by omega
      have e2 : s.y.natAbs = s.y.toNat := by omega
      rw [← e1, ← e2]
      exact hg
    rw [if_neg (by push_neg; exact hg'), ex, ey]

theorem newSlopes_pairwise (limit : Int) : (newSlopes limit).Pairwise slope.before := by
  unfold newSlopes
  rw [List.pairwise_flatMap]
  constructor
  · intro i _
    apply List.Pairwise.filterMap _ _ (List.pairwise_lt_range' 1 _)
    intro j j' hjj' b hb b' hb'
    by_cases hg : gcd (i : Int) (j : Int) ≠ 1
    · rw [if_pos hg] at hb; simp at hb
    · by_cases hg' : gcd (i : Int) (j' : Int) ≠ 1
      · rw [if_pos hg'] at hb'; simp at hb'
      · rw [if_neg hg] at hb
        rw [if_neg hg'] at hb'
        simp only [Option.mem_def, Option.some.injEq] at hb hb'
        subst hb hb'
        right
        exact ⟨rfl, by simp only; omega⟩
  · apply List.Pairwise.imp _ (List.pairwise_lt_range' 1 _)
    intro i i' hii' s hs t ht
    simp only [List.mem_filterMap] at hs ht
    obtain ⟨j, _, hs⟩ := hs
    obtain ⟨j', _, ht⟩ := ht
    by_cases hg : gcd (i : Int) (j : Int) ≠ 1
    · rw [if_pos hg] at hs; simp at hs
    · by_cases hg' : gcd (i' : Int) (j' : Int) ≠ 1
      · rw [if_pos hg'] at ht; simp at ht
      · rw [if_neg hg] at hs
        rw [if_neg hg'] at ht
        simp only [Option.some.injEq] at hs ht
        subst hs ht
        left
        simp only
        omega

theorem newSlopes_nodup (limit : Int) : (newSlopes limit).Nodup := by
  apply List.Pairwise.imp _ (newSlopes_pairwise limit)
  intro s t h e
  subst e
  unfold slope.before at h
  omega

theorem newSlopes_cons (limit : Int) (h : 2 ≤ limit) :
    ∃ rest, newSlopes limit = ⟨1, 1⟩ :: rest := by
  unfold newSlopes
  obtain ⟨m, hm⟩ : ∃ m, (limit - 1).toNat = m + 1 := ⟨(limit - 1).toNat - 1, by omega⟩
  rw [hm, List.range'_succ, List.flatMap_cons, List.filterMap_cons]
  have : gcd ((1 : Nat) : Int) ((1 : Nat) : Int) = 1 := by decide
  simp only [this]
  exact ⟨_, rfl⟩

theorem newSlopes_nil (limit : Int) (h : limit < 2) : newSlopes limit = [] := by
  unfold newSlopes
  have : (limit - 1).toNat = 0 := by omega
  rw [this]
  rfl

/-- The slopes the two factories keep: those of `newSlopes` other than `(1,1)`. -/
theorem mem_dropFirst_newSlopes (limit : Int) (slopes : List slope)
    (h : dropFirst (newSlopes limit) = .ok slopes) (s : slope) :
    s ∈ slopes ↔ s ∈ newSlopes limit ∧ ¬ (s.x = 1 ∧ s.y = 1) := by
  by_cases hl : 2 ≤ limit
  · obtain ⟨rest, hrest⟩ := newSlopes_cons limit hl
    have hnd := newSlopes_nodup limit
    rw [hrest] at h hnd ⊢
    simp only [dropFirst, Except.ok.injEq] at h
    subst h
    rw [List.nodup_cons] at hnd
    constructor
    · intro hs
      refine ⟨List.mem_cons_of_mem _ hs, ?_⟩
      rintro ⟨h1, h2⟩
      apply hnd.1
      cases s
      simp only at h1 h2
      subst h1 h2
      exact hs
    · rintro ⟨hs, hne⟩
      rcases List.mem_cons.mp hs with e | hs
      · subst e
        exact absurd ⟨rfl, rfl⟩ hne
      · exact hs
  · rw [newSlopes_nil limit (by omega)] at h
    simp [dropFirst] at h

theorem dropFirst_newSlopes_ok (limit : Int) (h : 2 ≤ limit) :
    ∃ slopes, dropFirst (newSlopes limit) = .ok slopes := by
  obtain ⟨rest, hrest⟩ := newSlopes_cons limit h
  rw [hrest]
  exact ⟨rest, rfl⟩

theorem goDiv_pos (n maxPts : Int) (hn : 0 ≤ n) (hm : 1 ≤ maxPts) :
    goDiv n maxPts = .ok (n / maxPts) := by
  unfold goDiv
  rw [if_neg (by omega), Int.tdiv_eq_ediv hn (by omega)]

theorem one_le_ediv (n maxPts : Int) (hm : 1 ≤ maxPts) (hmn : maxPts ≤ n) : 1 ≤ n / maxPts := by
  have := Int.ediv_le_ediv (by omega : (0 : Int) < maxPts) hmn
  rwa [Int.ediv_self (by omega)] at this

/-- What `NewConstraintColinear` returns when it does not take an early
return. -/
theorem NewConstraintColinear_ok (maxPts n : Int) (hn : 2 ≤ n) (hm : 1 ≤ maxPts)
    (hmn : maxPts ≤ n) (hsol : ¬ ((n = 2 ∨ n = 3 ∨ n = 5 ∨ n = 6 ∨ n = 7) ∧ maxPts ≤ 2)) :
    ∃ slopes, dropFirst (newSlopes (1 + n / maxPts)) = .ok slopes ∧
      NewConstraintColinear maxPts n = .ok (some (colinear slopes (maxPts - 1))) := by
  obtain ⟨slopes, hs⟩ := dropFirst_newSlopes_ok (1 + n / maxPts)
    (by have := one_le_ediv n maxPts hm hmn; omega)
  refine ⟨slopes, hs, ?_⟩
  unfold NewConstraintColinear
  rw [if_neg (by omega), if_neg hsol, goDiv_pos n maxPts (by omega) hm]
  simp only [hs]

theorem NewConstraintAngle_ok (maxPts n : Int) (hn : 2 ≤ n) (hm : 1 ≤ maxPts)
    (hmn : maxPts ≤ n) :
    ∃ slopes, dropFirst (newSlopes (1 + n / maxPts)) = .ok slopes ∧
      NewConstraintAngle maxPts n = .ok (some (angle slopes (maxPts - 1))) := by
  obtain ⟨slopes, hs⟩ := dropFirst_newSlopes_ok (1 + n / maxPts)
    (by have := one_le_ediv n maxPts hm hmn; omega)
  refine ⟨slopes, hs, ?_⟩
  unfold NewConstraintAngle
  rw [if_neg (by omega), goDiv_pos n maxPts (by omega) hm]
  simp only [hs]

/-- C12. `NewConstraintAttack n` returns `ErrNoSolution`, and no constraint,
exactly when `n` is 2 or 3; for every other `n` it returns the attack constraint
and no error. -/
theorem NewConstraintAttack_error_iff (n : Int) :
    (NewConstraintAttack n = none ↔ (n = 2 ∨ n = 3)) ∧
    (NewConstraintAttack n = some attack ↔ ¬ (n = 2 ∨ n = 3)) := by
  unfold NewConstraintAttack
  by_cases h : n = 2 ∨ n = 3
  · simp [h]
  · simp [h]

/-- C13. `NewConstraintColinear maxPts n` returns `ErrNoSolution` exactly when `n`
is one of 2, 3, 5, 6, 7 and `maxPts <= 2`: so it does for `maxPts = 2` on each of
these five sizes, and it returns no error for `n = 1`, `n = 4` or `n >= 8`. -/
theorem NewConstraintColinear_error_iff (maxPts n : Int) :
    NewConstraintColinear maxPts n = .ok none ↔
      ((n = 2 ∨ n = 3 ∨ n = 5 ∨ n = 6 ∨ n = 7) ∧ maxPts ≤ 2) := by
  unfold NewConstraintColinear
  by_cases h1 : n = 1
  · rw [if_pos h1]
    simp only [Except.ok.injEq, reduceCtorEq, false_iff]
    omega
  · rw [if_neg h1]
    by_cases h2 : (n = 2 ∨ n = 3 ∨ n = 5 ∨ n = 6 ∨ n = 7) ∧ maxPts ≤ 2
    · rw [if_pos h2]
      simp [h2]
    · rw [if_neg h2]
      simp only [h2, iff_false]
      cases goDiv n maxPts with
      | error e => simp
      | ok q =>
        simp only
        cases dropFirst (newSlopes (1 + q)) with
        | error e => simp
        | ok slopes => simp

/-- C18. For every `limit`: `gcd` ends on non-negative arguments and returns their
greatest common divisor; `newSlopes limit` holds exactly the pairs `(dx, dy)`
with `1 <= dx, dy < limit` and greatest common divisor 1, none twice, in
ascending order of `dx` and, for equal `dx`, of `dy`; so its first element is
`(1,1)` when `limit >= 2`, and it is empty otherwise. -/
theorem newSlopes_enumerates (limit : Int) :
    (∀ a b : Nat, (gcdLoop (b : Int).natAbs (a : Int) (b : Int)).isSome = true ∧
      gcd (a : Int) (b : Int) = ((Nat.gcd a b : Nat) : Int)) ∧
    (∀ s : slope, s ∈ newSlopes limit ↔
      1 ≤ s.x ∧ s.x < limit ∧ 1 ≤ s.y ∧ s.y < limit ∧ Int.gcd s.x s.y = 1) ∧
    (newSlopes limit).Nodup ∧
    (newSlopes limit).Pairwise slope.before ∧
    (newSlopes limit).head? = if 2 ≤ limit then some ⟨1, 1⟩ else none := by
  refine ⟨fun a b => ⟨gcdLoop_isSome a b, gcd_nat a b⟩, mem_newSlopes limit,
    newSlopes_nodup limit, newSlopes_pairwise limit, ?_⟩
  by_cases h : 2 ≤ limit
  · obtain ⟨rest, hrest⟩ := newSlopes_cons limit h
    rw [if_pos h, hrest]
    rfl
  · rw [if_neg h, newSlopes_nil limit (by omega)]
    rfl

/-- C20, at the failing input: with `maxPts = 3` on a board of size 2 both
factories panic, on the slice expression `newSlopes(1)[1:]`. -/
theorem factories_panic_when_maxPts_exceeds_n :
    goDiv 2 3 = .ok 0 ∧ newSlopes (1 + 0) = [] ∧
    NewConstraintColinear 3 2 = .error .panic ∧ NewConstraintAngle 3 2 = .error .panic :=
  ⟨rfl, rfl, rfl, rfl⟩

theorem Conflicts_nil_iff (nq : NQueens) (order : List Nat)
    (hperm : order.Perm (List.range nq.n)) :
    nq.Conflicts order = [] ↔
      ∀ v : Int, 0 ≤ v → v < nq.n → nq.conflicts v (nq.rowAt v) = 0 := by
  constructor
  · intro he v h0 h1
    by_contra hne
    have : (⟨v, nq.conflicts v (nq.rowAt v)⟩ : Conflict) ∈ nq.Conflicts order := by
      rw [mem_Conflicts]
      refine ⟨v.toNat, hperm.mem_iff.mpr (List.mem_range.mpr (by omega)), ?_, rfl, hne⟩
      simp only
      omega
    rw [he] at this
    simp at this
  · intro h
    apply List.eq_nil_iff_forall_not_mem.mpr
    intro c hc
    obtain ⟨col, hcol, hv, hcc, hne⟩ := (mem_Conflicts nq order c).mp hc
    have := List.mem_range.mp (hperm.mem_iff.mp hcol)
    exact hne (hcc.trans (h c.Var (by omega) (by omega)))

theorem conflicts_single (nq : NQueens) (c : Constraint) (h : nq.constraints = [c])
    (x y : Int) : nq.conflicts x y = c nq.toGrid x y := by
  unfold NQueens.conflicts
  rw [h]
  simp

/-- The attack closure counts the pieces that share the column, the row or a
diagonal of `(x, y)`. -/
theorem attack_eq_card (g : Grid) (x y : Int) (h0 : g.onBoard x y) :
    attack g x y = ((Finset.Ico (0 : Int) g.n).filter (fun i =>
      (0 ≤ g.rowAt i ∧ g.rowAt i < g.n) ∧ ¬ (i = x ∧ g.rowAt i = y) ∧
        (i = x ∨ g.rowAt i = y ∨ g.rowAt i - y = i - x ∨ g.rowAt i - y = -(i - x)))).card := by
  unfold attack
  rw [line_unit_card g x y 1 0 h0 (Or.inl rfl), line_vertical_card g x y h0,
    line_unit_card g x y 1 1 h0 (Or.inl rfl), line_unit_card g x y (-1) 1 h0 (Or.inr rfl)]
  simp only [Finset.card_filter]
  push_cast
  simp only [← Finset.sum_add_distrib]
  apply Finset.sum_congr rfl
  intro i _
  by_cases h1 : i = x <;> by_cases h2 : g.rowAt i = y <;> by_cases h3 : g.rowAt i - y = i - x <;>
    by_cases h4 : g.rowAt i - y = -(i - x) <;> by_cases h5 : 0 ≤ g.rowAt i ∧ g.rowAt i < g.n <;>
    simp [h1, h2, h3, h4, h5] <;> omega

/-- C11. On a board whose every column holds a row of `[0, n)` and whose only
constraint is the attack constraint, the report of `Conflicts` is non-empty, for
every completion order of the goroutines, if and only if two queens of distinct
columns share a row or a diagonal; so it is empty exactly for the placements in
which no two queens attack each other. -/
theorem attack_report_nonempty_iff (nq : NQueens) (order : List Nat) (ht : nq.total)
    (hcons : nq.constraints = [attack]) (hperm : order.Perm (List.range nq.n)) :
    nq.Conflicts order ≠ [] ↔
      ∃ i j : Int, (0 ≤ i ∧ i < nq.n) ∧ (0 ≤ j ∧ j < nq.n) ∧ i ≠ j ∧
        (nq.rowAt i = nq.rowAt j ∨ nq.rowAt i - nq.rowAt j = i - j ∨
          nq.rowAt i - nq.rowAt j = -(i - j)) := by
  rw [Ne, Conflicts_nil_iff nq order hperm]
  push_neg
  constructor
  · rintro ⟨v, h0, h1, hne⟩
    have hb : nq.onBoard v (nq.rowAt v) := ⟨h0, h1, (ht v h0 h1).1, (ht v h0 h1).2⟩
    rw [conflicts_single nq attack hcons, attack_eq_card nq.toGrid v _ hb] at hne
    have hpos : 0 < ((Finset.Ico (0 : Int) nq.n).filter (fun i =>
        (0 ≤ nq.rowAt i ∧ nq.rowAt i < nq.n) ∧ ¬ (i = v ∧ nq.rowAt i = nq.rowAt v) ∧
        (i = v ∨ nq.rowAt i = nq.rowAt v ∨ nq.rowAt i - nq.rowAt v = i - v ∨
          nq.rowAt i - nq.rowAt v = -(i - v)))).card := by
      apply Nat.pos_of_ne_zero
      intro h
      apply hne
      exact_mod_cast h
    obtain ⟨i, hi⟩ := Finset.card_pos.mp hpos
    simp only [Finset.mem_filter, Finset.mem_Ico] at hi
    obtain ⟨⟨i0, i1⟩, _, hnot, hor⟩ := hi
    have hiv : i ≠ v := by
      intro e
      subst e
      exact hnot ⟨rfl, rfl⟩
    refine ⟨i, v, ⟨i0, i1⟩, ⟨h0, h1⟩, hiv, ?_⟩
    rcases hor with h | h | h | h
    · exact absurd h hiv
    · exact Or.inl h
    · exact Or.inr (Or.inl h)
    · exact Or.inr (Or.inr h)
  · rintro ⟨i, j, ⟨i0, i1⟩, ⟨j0, j1⟩, hij, hor⟩
    refine ⟨j, j0, j1, ?_⟩
    have hb : nq.onBoard j (nq.rowAt j) := ⟨j0, j1, (ht j j0 j1).1, (ht j j0 j1).2⟩
    rw [conflicts_single nq attack hcons, attack_eq_card nq.toGrid j _ hb]
    have hmem : i ∈ (Finset.Ico (0 : Int) nq.n).filter (fun i =>
        (0 ≤ nq.rowAt i ∧ nq.rowAt i < nq.n) ∧ ¬ (i = j ∧ nq.rowAt i = nq.rowAt j) ∧
        (i = j ∨ nq.rowAt i = nq.rowAt j ∨ nq.rowAt i - nq.rowAt j = i - j ∨
          nq.rowAt i - nq.rowAt j = -(i - j))) := by
      simp only [Finset.mem_filter, Finset.mem_Ico]
      exact ⟨⟨i0, i1⟩, ht i i0 i1, fun h => hij h.1, Or.inr hor⟩
    have := Finset.card_pos.mpr ⟨i, hmem⟩
    exact_mod_cast (Nat.pos_iff_ne_zero.mp this)

/-- A line whose direction `(dx, dy)` is in lowest terms with `dx ≠ 0` passes
through the columns `x + t * dx`: its pieces are the pieces of the other columns
that satisfy the equation of the line. -/
theorem line_primitive_card (g : Grid) (x y dx dy : Int) (h0 : g.onBoard x y) (hdx : dx ≠ 0)
    (hg : Int.gcd dx dy = 1) :
    g.line x y dx dy = ((Finset.Ico (0 : Int) g.n).filter (fun i =>
      i ≠ x ∧ (0 ≤ g.rowAt i ∧ g.rowAt i < g.n) ∧
        (i - x) * dy = (g.rowAt i - y) * dx)).card := by
  rw [line_eq_card g x y dx dy h0 (Or.inl hdx)]
  congr 1
  apply Finset.card_bij (fun t _ => x + t * dx)
  · intro t ht
    simp only [Finset.mem_filter, Finset.mem_Icc, Finset.mem_Ico, Grid.hit, Grid.onBoard] at ht ⊢
    obtain ⟨_, ht0, ⟨b1, b2, b3, b4⟩, hr⟩ := ht
    refine ⟨⟨b1, b2⟩, ?_, ⟨by omega, by omega⟩, ?_⟩
    · intro e
      have : t * dx = 0 := by omega
      rcases mul_eq_zero.mp this with h | h
      · exact ht0 h
      · exact hdx h
    · rw [hr]; ring
  · intro a _ b _ h
    have : a * dx = b * dx := by omega
    exact mul_right_cancel₀ hdx this
  · intro i hi
    simp only [Finset.mem_filter, Finset.mem_Ico] at hi
    obtain ⟨⟨i1, i2⟩, hix, ⟨r1, r2⟩, hr⟩ := hi
    obtain ⟨a1, a2, a3, a4⟩ := h0
    have hdvd : dx ∣ (i - x) := by
      apply Int.dvd_of_dvd_mul_left_of_gcd_one (c := dy) _ hg
      rw [hr]
      exact dvd_mul_left _ _
    obtain ⟨t, ht⟩ := hdvd
    have hty : t * dy = g.rowAt i - y := by
      have : dx * (t * dy) = dx * (g.rowAt i - y) := by
        rw [← mul_assoc, ← ht, hr, mul_comm]
      exact mul_left_cancel₀ hdx this
    have htx : x + t * dx = i := by rw [mul_comm]; omega
    have ht0 : t ≠ 0 := by
      intro e
      rw [e] at ht
      omega
    have habs : |t| ≤ |i - x| := by
      rw [ht, abs_mul]
      exact le_mul_of_one_le_left (abs_nonneg t) (Int.one_le_abs hdx)
    have hlt : |i - x| < g.n := by
      rw [abs_lt]
      constructor <;> omega
    have hb := abs_le.mp (le_trans habs (le_of_lt hlt))
    refine ⟨t, ?_, htx⟩
    simp only [Finset.mem_filter, Finset.mem_Icc, Grid.hit, Grid.onBoard]
    rw [htx]
    have hy : y + t * dy = g.rowAt i := by omega
    rw [hy]
    exact ⟨⟨hb.1, hb.2⟩, ht0, ⟨i1, i2, r1, r2⟩, rfl⟩

theorem gcd_of_nonneg (x y : Int) (hx : 0 ≤ x) (hy : 0 ≤ y) :
    gcd x y = ((Int.gcd x y : Nat) : Int) := by
  have ex : ((x.toNat : Nat) : Int) = x := Int.toNat_of_nonneg hx
  have ey : ((y.toNat : Nat) : Int) = y := Int.toNat_of_nonneg hy
  have := gcd_nat x.toNat y.toNat
  rw [ex, ey] at this
  rw [this]
  have e1 : x.natAbs = x.toNat := by omega
  have e2 : y.natAbs = y.toNat := by omega
  unfold Int.gcd
  rw [e1, e2]

/-- What `NewConstraintAngle` has returned when it returns a constraint on a
board of size other than 1. -/
theorem NewConstraintAngle_some (maxPts n : Int) (c : Constraint) (hn : n ≠ 1)
    (h : NewConstraintAngle maxPts n = .ok (some c)) :
    ∃ slopes, dropFirst (newSlopes (1 + n.tdiv maxPts)) = .ok slopes ∧
      c = angle slopes (maxPts - 1) := by
  unfold NewConstraintAngle at h
  rw [if_neg hn] at h
  unfold goDiv at h
  by_cases h0 : maxPts = 0
  · rw [if_pos h0] at h; simp at h
  · rw [if_neg h0] at h
    simp only at h
    cases hd : dropFirst (newSlopes (1 + n.tdiv maxPts)) with
    | error e => rw [hd] at h; simp at h
    | ok slopes =>
      rw [hd] at h
      simp only [Except.ok.injEq, Option.some.injEq] at h
      exact ⟨slopes, rfl, h.symm⟩

theorem NewConstraintColinear_some (maxPts n : Int) (c : Constraint) (hn : n ≠ 1)
    (h : NewConstraintColinear maxPts n = .ok (some c)) :
    ∃ slopes, dropFirst (newSlopes (1 + n.tdiv maxPts)) = .ok slopes ∧
      c = colinear slopes (maxPts - 1) := by
  unfold NewConstraintColinear at h
  rw [if_neg hn] at h
  by_cases h2 : (n = 2 ∨ n = 3 ∨ n = 5 ∨ n = 6 ∨ n = 7) ∧ maxPts ≤ 2
  · rw [if_pos h2] at h; simp at h
  · rw [if_neg h2] at h
    unfold goDiv at h
    by_cases h0 : maxPts = 0
    · rw [if_pos h0] at h; simp at h
    · rw [if_neg h0] at h
      simp only at h
      cases hd : dropFirst (newSlopes (1 + n.tdiv maxPts)) with
      | error e => rw [hd] at h; simp at h
      | ok slopes =>
        rw [hd] at h
        simp only [Except.ok.injEq, Option.some.injEq] at h
        exact ⟨slopes, rfl, h.symm⟩

/-- The line through the origin and `(x, y)`, in lowest terms, meets the pieces of
the columns other than 0 that lie on it. -/
theorem line_origin_card (g : Grid) (x y : Int) (hx : 1 ≤ x ∧ x < g.n) (hy : 1 ≤ y) :
    g.line 0 0 (x.tdiv (gcd x y)) (y.tdiv (gcd x y)) =
      ((Finset.Ico (0 : Int) g.n).filter (fun i =>
        i ≠ 0 ∧ (0 ≤ g.rowAt i ∧ g.rowAt i < g.n) ∧ i * y = g.rowAt i * x)).card := by
  have hgpos : 0 < Int.gcd x y := Int.gcd_pos_of_ne_zero_left y (by omega)
  rw [gcd_of_nonneg x y (by omega) (by omega),
    Int.tdiv_eq_ediv (by omega) (by omega), Int.tdiv_eq_ediv (by omega) (by omega)]
  have hprim := Int.gcd_div_gcd_div_gcd hgpos
  have hxe : x / (Int.gcd x y : Int) * (Int.gcd x y : Int) = x :=
    Int.ediv_mul_cancel Int.gcd_dvd_left
  have hye : y / (Int.gcd x y : Int) * (Int.gcd x y : Int) = y :=
    Int.ediv_mul_cancel Int.gcd_dvd_right
  have hg0 : ((Int.gcd x y : Nat) : Int) ≠ 0 := by omega
  have hpx : x / (Int.gcd x y : Int) ≠ 0 := by
    intro e
    rw [e] at hxe
    omega
  rw [line_primitive_card g 0 0 _ _ ⟨le_rfl, by omega, le_rfl, by omega⟩ hpx hprim]
  congr 1
  apply congrArg Finset.card
  apply Finset.filter_congr
  intro i _
  simp only [sub_zero]
  constructor
  · rintro ⟨h1, h2, h3⟩
    refine ⟨h1, h2, ?_⟩
    calc i * y = i * (y / (Int.gcd x y : Int) * (Int.gcd x y : Int)) := by rw [hye]
      _ = i * (y / (Int.gcd x y : Int)) * (Int.gcd x y : Int) := by ring
      _ = g.rowAt i * (x / (Int.gcd x y : Int)) * (Int.gcd x y : Int) := by rw [h3]
      _ = g.rowAt i * (x / (Int.gcd x y : Int) * (Int.gcd x y : Int)) := by ring
      _ = g.rowAt i * x := by rw [hxe]
  · rintro ⟨h1, h2, h3⟩
    refine ⟨h1, h2, ?_⟩
    apply mul_right_cancel₀ hg0
    calc i * (y / (Int.gcd x y : Int)) * (Int.gcd x y : Int)
        = i * (y / (Int.gcd x y : Int) * (Int.gcd x y : Int)) := by ring
      _ = i * y := by rw [hye]
      _ = g.rowAt i * x := h3
      _ = g.rowAt i * (x / (Int.gcd x y : Int) * (Int.gcd x y : Int)) := by rw [hxe]
      _ = g.rowAt i * (x / (Int.gcd x y : Int)) * (Int.gcd x y : Int) := by ring

/-- The pieces on the line through the origin and `(x, y)`, the origin's counted
and one on `(x, y)` not, in terms of the pieces of the other columns. -/
theorem origin_line_pieces (g : Grid) (x y : Int) (hx : 1 ≤ x ∧ x < g.n)
    (hy : 1 ≤ y ∧ y < g.n) :
    (((Finset.Ico (0 : Int) g.n).filter (fun i =>
        (0 ≤ g.rowAt i ∧ g.rowAt i < g.n) ∧ i * y = g.rowAt i * x ∧
          ¬ (i = x ∧ g.rowAt i = y))).card : Int) =
      (((Finset.Ico (0 : Int) g.n).filter (fun i =>
        i ≠ 0 ∧ (0 ≤ g.rowAt i ∧ g.rowAt i < g.n) ∧ i * y = g.rowAt i * x)).card : Int)
        + (if g.rowAt 0 = 0 then 1 else 0) - (if g.rowAt x = y then 1 else 0) := by
  have hx0 : x ≠ 0 := by omega
  simp only [Finset.card_filter]
  push_cast
  have h0 : (if g.rowAt 0 = 0 then (1 : Int) else 0) =
      ∑ i ∈ Finset.Ico (0 : Int) g.n, if i = 0 ∧ g.rowAt i = 0 then 1 else 0 := by
    rw [Finset.sum_eq_single_of_mem 0 (by simp only [Finset.mem_Ico]; omega)]
    · simp
    · intro b _ hb
      simp [hb]
  have h1 : (if g.rowAt x = y then (1 : Int) else 0) =
      ∑ i ∈ Finset.Ico (0 : Int) g.n, if i = x ∧ g.rowAt i = y then 1 else 0 := by
    rw [Finset.sum_eq_single_of_mem x (by simp only [Finset.mem_Ico]; omega)]
    · simp
    · intro b _ hb
      simp [hb]
  rw [h0, h1, ← Finset.sum_add_distrib, ← Finset.sum_sub_distrib]
  apply Finset.sum_congr rfl
  intro i _
  by_cases hi0 : i = 0
  · subst hi0
    have hne : ¬ ((0 : Int) = x) := fun e => hx0 e.symm
    by_cases hr : g.rowAt 0 = 0
    · simp [hr, hne]; omega
    · have : ¬ (0 * y = g.rowAt 0 * x) := by
        intro e
        rw [zero_mul] at e
        rcases mul_eq_zero.mp e.symm with h | h
        · exact hr h
        · exact hx0 h
      simp [hr, hne, this, hx0]
  · by_cases hix : i = x
    · subst hix
      by_cases hr : g.rowAt i = y
      · simp [hr, hi0, mul_comm]; omega
      · have : ¬ (i * y = g.rowAt i * i) := by
          intro e
          apply hr
          have : i * g.rowAt i = i * y := by rw [e, mul_comm]
          exact mul_left_cancel₀ hi0 this
        simp [hr, hi0, this]
    · simp [hi0, hix]

/-- The angle closure at a cell off both axes. -/
theorem angle_general_eq (slopes : List slope) (mp : Int) (g : Grid) (x y : Int)
    (hx : 1 ≤ x ∧ x < g.n) (hy : 1 ≤ y ∧ y < g.n) :
    angle slopes mp g x y = max 0
      ((((Finset.Ico (0 : Int) g.n).filter (fun i =>
        (0 ≤ g.rowAt i ∧ g.rowAt i < g.n) ∧ i * y = g.rowAt i * x ∧
          ¬ (i = x ∧ g.rowAt i = y))).card : Int) - mp) := by
  unfold angle
  rw [if_neg (by omega), if_neg (by omega)]
  simp only
  rw [line_origin_card g x y hx hy.1, origin_line_pieces g x y hx hy]
  by_cases h0 : g.rowAt 0 = 0 <;> by_cases h1 : g.rowAt x = y <;>
    simp only [h0, h1, if_true, if_false] <;> split <;> omega

theorem addExcess_eq (mp ret pts : Int) : addExcess mp ret pts = ret + max 0 (pts - mp) := by
  unfold addExcess
  split
  · rw [max_eq_right (by omega)]
  · rw [max_eq_left (by omega)]
    omega

theorem foldl_addExcess (mp : Int) (f : slope → Int) :
    ∀ (l : List slope) (acc : Int),
      l.foldl (fun ret s => addExcess mp ret (f s)) acc =
        acc + (l.map (fun s => max 0 (f s - mp))).sum := by
  intro l
  induction l with
  | nil => intro acc; simp
  | cons s l ih =>
    intro acc
    rw [List.foldl_cons, ih, addExcess_eq, List.map_cons, List.sum_cons]
    omega

theorem angle_origin_eq (slopes : List slope) (mp : Int) (g : Grid) :
    angle slopes mp g 0 0 = (slopes.map (fun s => max 0 (g.line 0 0 s.x s.y - mp))).sum := by
  unfold angle
  rw [if_pos ⟨rfl, rfl⟩, foldl_addExcess mp (fun s => g.line 0 0 s.x s.y), zero_add]

/-- C17. For `n >= 2`, every board of size `n` and every query cell `(x, y)` with
`1 <= x, y < n`, the angle constraint is `max(0, P - (maxPts - 1))`, where `P` is
the number of pieces on the line through the origin and `(x, y)`, a piece on the
origin cell counted and a piece on `(x, y)` not counted; and the count of `line`
along `(x/g, y/g)`, `g = gcd(x, y)`, with 1 added when the origin is occupied and
1 taken off when `(x, y)` is occupied, is `P`. -/
theorem angle_general_counts (maxPts n : Int) (g : Grid) (c : Constraint) (x y : Int)
    (hn : 2 ≤ n) (hc : NewConstraintAngle maxPts n = .ok (some c))
    (hgn : (g.n : Int) = n) (hx : 1 ≤ x ∧ x < n) (hy : 1 ≤ y ∧ y < n) :
    c g x y = max 0
      ((((Finset.Ico (0 : Int) g.n).filter (fun i =>
        (0 ≤ g.rowAt i ∧ g.rowAt i < g.n) ∧ i * y = g.rowAt i * x ∧
          ¬ (i = x ∧ g.rowAt i = y))).card : Int) - (maxPts - 1)) ∧
    g.line 0 0 (x.tdiv (gcd x y)) (y.tdiv (gcd x y)) + (if g.rowAt 0 = 0 then 1 else 0) -
        (if g.rowAt x = y then 1 else 0) =
      (((Finset.Ico (0 : Int) g.n).filter (fun i =>
        (0 ≤ g.rowAt i ∧ g.rowAt i < g.n) ∧ i * y = g.rowAt i * x ∧
          ¬ (i = x ∧ g.rowAt i = y))).card : Int) := by
  obtain ⟨slopes, _, rfl⟩ := NewConstraintAngle_some maxPts n c (by omega) hc
  have hx' : 1 ≤ x ∧ x < g.n := by rw [hgn]; exact hx
  have hy' : 1 ≤ y ∧ y < g.n := by rw [hgn]; exact hy
  refine ⟨angle_general_eq slopes (maxPts - 1) g x y hx' hy', ?_⟩
  rw [line_origin_card g x y hx' hy'.1, origin_line_pieces g x y hx' hy']

/-- The pieces a direction with a component above `n / maxPts` can have on its
line through the origin are fewer than `maxPts`. -/
theorem originLinePieces_le (g : Grid) (maxPts dx dy : Int) (hn : 1 ≤ g.n) (hm : 1 ≤ maxPts)
    (hdx : 1 ≤ dx) (hg : Int.gcd dx dy = 1)
    (hbig : (g.n : Int) / maxPts < dx ∨ (g.n : Int) / maxPts < dy) :
    (g.originLinePieces dx dy : Int) ≤ maxPts - 1 := by
  have h0 : g.onBoard 0 0 := ⟨le_rfl, by omega, le_rfl, by omega⟩
  have hline := line_primitive_card g 0 0 dx dy h0 (by omega) hg
  simp only [sub_zero] at hline
  unfold Grid.originLinePieces
  rw [← hline, line_eq_card g 0 0 dx dy h0 (Or.inl (by omega))]
  have hlt : (g.n : Int) < ((g.n : Int) / maxPts + 1) * maxPts :=
    Int.lt_ediv_add_one_mul_self _ (by omega)
  have hsub : (Finset.Icc (-(g.n : Int)) g.n).filter (fun t => t ≠ 0 ∧ g.hit 0 0 dx dy t) ⊆
      Finset.Icc 1 (maxPts - 1) := by
    intro t ht
    simp only [Finset.mem_filter, Finset.mem_Icc, Grid.hit, Grid.onBoard, zero_add] at ht
    obtain ⟨_, ht0, ⟨b1, b2, b3, b4⟩, _⟩ := ht
    have htpos : 0 < t := by
      by_contra hneg
      have : t * dx ≤ 0 := mul_nonpos_of_nonpos_of_nonneg (by omega) (by omega)
      have : t * dx = 0 := by omega
      rcases mul_eq_zero.mp this with h | h <;> omega
    rw [Finset.mem_Icc]
    refine ⟨by omega, ?_⟩
    by_contra hcon
    have htm : maxPts ≤ t := by omega
    rcases hbig with hb | hb
    · have h1 : t * ((g.n : Int) / maxPts + 1) ≤ t * dx :=
        mul_le_mul_of_nonneg_left (by omega) (by omega)
      have h2 : maxPts * ((g.n : Int) / maxPts + 1) ≤ t * ((g.n : Int) / maxPts + 1) :=
        mul_le_mul_of_nonneg_right htm (by
          have := Int.ediv_nonneg (by omega : (0 : Int) ≤ g.n) (by omega : (0 : Int) ≤ maxPts)
          omega)
      have h3 : maxPts * ((g.n : Int) / maxPts + 1) = ((g.n : Int) / maxPts + 1) * maxPts :=
        mul_comm _ _
      omega
    · have h1 : t * ((g.n : Int) / maxPts + 1) ≤ t * dy :=
        mul_le_mul_of_nonneg_left (by omega) (by omega)
      have h2 : maxPts * ((g.n : Int) / maxPts + 1) ≤ t * ((g.n : Int) / maxPts + 1) :=
        mul_le_mul_of_nonneg_right htm (by
          have := Int.ediv_nonneg (by omega : (0 : Int) ≤ g.n) (by omega : (0 : Int) ≤ maxPts)
          omega)
      have h3 : maxPts * ((g.n : Int) / maxPts + 1) = ((g.n : Int) / maxPts + 1) * maxPts :=
        mul_comm _ _
      omega
  have hcard := Finset.card_le_card hsub
  rw [Int.card_Icc] at hcard
  have : ((maxPts - 1 + 1 - 1).toNat : Int) = maxPts - 1 := by
    rw [Int.toNat_of_nonneg (by omega)]; ring
  omega

/-- The slopes the angle and collinear factories capture, for parameters in
range. -/
theorem mem_factory_slopes (maxPts n : Int) (slopes : List slope) (hn : 0 ≤ n)
    (hm : 1 ≤ maxPts) (h : dropFirst (newSlopes (1 + n.tdiv maxPts)) = .ok slopes) (s : slope) :
    s ∈ slopes ↔ (1 ≤ s.x ∧ s.x ≤ n / maxPts) ∧ (1 ≤ s.y ∧ s.y ≤ n / maxPts) ∧
      Int.gcd s.x s.y = 1 ∧ ¬ (s.x = 1 ∧ s.y = 1) := by
  rw [Int.tdiv_eq_ediv hn (by omega)] at h
  rw [mem_dropFirst_newSlopes _ slopes h s, mem_newSlopes]
  constructor
  · rintro ⟨⟨h1, h2, h3, h4, h5⟩, h6⟩
    exact ⟨⟨h1, by omega⟩, ⟨h3, by omega⟩, h5, h6⟩
  · rintro ⟨⟨h1, h2⟩, ⟨h3, h4⟩, h5, h6⟩
    exact ⟨⟨h1, by omega, h3, by omega, h5⟩, h6⟩

theorem factory_slopes_nodup (limit : Int) (slopes : List slope)
    (h : dropFirst (newSlopes limit) = .ok slopes) : slopes.Nodup := by
  have hnd := newSlopes_nodup limit
  cases hs : newSlopes limit with
  | nil => rw [hs] at h; simp [dropFirst] at h
  | cons a rest =>
    rw [hs] at h hnd
    simp only [dropFirst, Except.ok.injEq] at h
    subst h
    exact (List.nodup_cons.mp hnd).2

/-- What the origin branch of the angle closure computes.  For `n >= 2`,
`maxPts >= 1` and every board of size `n`, the value at the query point `(0,0)`
is the sum, over every irreducible direction `(dx, dy)` with `dx, dy >= 1` other
than the diagonal `(1,1)`, of `max(0, k - (maxPts - 1))`, with `k` the number of
pieces on the line through the origin with that direction, the origin cell not
counted.  The sum is taken over the directions with components up to any bound
`B >= n / maxPts`; the directions beyond contribute zero. -/
theorem angle_origin_sum (maxPts n : Int) (g : Grid) (c : Constraint) (B : Int)
    (hn : 2 ≤ n) (hm : 1 ≤ maxPts)
    (hc : NewConstraintAngle maxPts n = .ok (some c)) (hgn : (g.n : Int) = n)
    (hB : n / maxPts ≤ B) :
    c g 0 0 = originExcessOffDiagonal maxPts g B := by
  obtain ⟨slopes, hs, rfl⟩ := NewConstraintAngle_some maxPts n c (by omega) hc
  have hmem := mem_factory_slopes maxPts n slopes (by omega) hm hs
  have hnd := factory_slopes_nodup _ slopes hs
  have h0 : g.onBoard 0 0 := ⟨le_rfl, by omega, le_rfl, by omega⟩
  rw [angle_origin_eq]
  have hterm : ∀ s ∈ slopes, max 0 (g.line 0 0 s.x s.y - (maxPts - 1)) =
      max 0 ((g.originLinePieces s.x s.y : Int) - (maxPts - 1)) := by
    intro s hs'
    obtain ⟨⟨h1, _⟩, _, hg, _⟩ := (hmem s).mp hs'
    have hline := line_primitive_card g 0 0 s.x s.y h0 (by omega) hg
    simp only [sub_zero] at hline
    rw [hline]
    rfl
  rw [List.map_congr_left hterm, ← List.sum_toFinset _ hnd]
  unfold originExcessOffDiagonal
  have himg : ∑ s ∈ slopes.toFinset, max 0 ((g.originLinePieces s.x s.y : Int) - (maxPts - 1)) =
      ∑ d ∈ slopes.toFinset.image (fun s : slope => (s.x, s.y)),
        max 0 ((g.originLinePieces d.1 d.2 : Int) - (maxPts - 1)) := by
    rw [Finset.sum_image]
    intro a _ b _ hab
    cases a
    cases b
    simp only [Prod.mk.injEq] at hab
    simp [hab.1, hab.2]
  rw [himg]
  apply Finset.sum_subset
  · intro d hd
    simp only [Finset.mem_image, List.mem_toFinset] at hd
    obtain ⟨s, hs', rfl⟩ := hd
    obtain ⟨⟨h1, h2⟩, ⟨h3, h4⟩, hg, hne⟩ := (hmem s).mp hs'
    simp only [Finset.mem_filter, Finset.mem_product, Finset.mem_Icc]
    exact ⟨⟨⟨h1, by omega⟩, ⟨h3, by omega⟩⟩, hg, hne⟩
  · intro d hd hnot
    simp only [Finset.mem_filter, Finset.mem_product, Finset.mem_Icc] at hd
    obtain ⟨⟨⟨h1, h2⟩, ⟨h3, h4⟩⟩, hg, hne⟩ := hd
    have hbig : (g.n : Int) / maxPts < d.1 ∨ (g.n : Int) / maxPts < d.2 := by
      by_contra hcon
      push_neg at hcon
      apply hnot
      simp only [Finset.mem_image, List.mem_toFinset]
      refine ⟨⟨d.1, d.2⟩, (hmem _).mpr ⟨⟨h1, ?_⟩, ⟨h3, ?_⟩, hg, hne⟩, rfl⟩
      · rw [← hgn]; exact hcon.1
      · rw [← hgn]; exact hcon.2
    have := originLinePieces_le g maxPts d.1 d.2 (by omega) hm h1 hg hbig
    rw [max_eq_left (by omega)]

/-- C16, at the failing input. With `maxPts = 2` on the board of size 4 with every
queen on the main diagonal, the slopes `NewConstraintAngle` keeps are `(1,2)` and
`(2,1)`, without `(1,1)`, and the closure returns 0 at the query point `(0,0)`,
while the three pieces off the origin on the diagonal give the sum over every
irreducible direction, the diagonal `(1,1)` included, the value 2; the general
branch of the same closure counts the diagonal and returns 2 at `(1,1)`, `(2,2)`
and `(3,3)`. -/
theorem angle_origin_skips_diagonal :
    NewConstraintAngle 2 4 = .ok (some (angle [⟨1, 2⟩, ⟨2, 1⟩] 1)) ∧
    angle [⟨1, 2⟩, ⟨2, 1⟩] 1 diagonalGrid 0 0 = 0 ∧
    diagonalGrid.originLinePieces 1 1 = 3 ∧
    originExcessAll 2 diagonalGrid 3 = 2 ∧
    angle [⟨1, 2⟩, ⟨2, 1⟩] 1 diagonalGrid 0 0 ≠ originExcessAll 2 diagonalGrid 3 ∧
    angle [⟨1, 2⟩, ⟨2, 1⟩] 1 diagonalGrid 1 1 = 2 ∧
    angle [⟨1, 2⟩, ⟨2, 1⟩] 1 diagonalGrid 2 2 = 2 ∧
    angle [⟨1, 2⟩, ⟨2, 1⟩] 1 diagonalGrid 3 3 = 2 :=
  ⟨rfl, by decide, by decide, by decide, by decide, by decide, by decide, by decide⟩

/-- Two points on one line through the origin: a third point on the line through
the origin and the first is on the line through the origin and the second. -/
theorem origin_line_transfer (dx dy x y j r : Int) (hdx : dx ≠ 0) (hxy : x * dy = y * dx)
    (hj : j * dy = r * dx) : j * y = r * x := by
  have h : (j * y - r * x) * dx = 0 := by
    have e1 : j * y * dx = j * (x * dy) := by rw [hxy]; ring
    have e2 : r * x * dx = x * (j * dy) := by rw [hj]; ring
    have : (j * y - r * x) * dx = j * y * dx - r * x * dx := by ring
    rw [this, e1, e2]
    ring
  rcases mul_eq_zero.mp h with h | h
  · omega
  · exact absurd h hdx

/-- C15. For `n >= 2` and `maxPts >= 1` for which `NewConstraintAngle maxPts n`
returns a constraint, and a board of size `n` whose every column holds a row of
`[0, n)` and whose only constraint is that one, the report of `Conflicts` is empty
if and only if every line through the origin cell other than the two axes holds
at most `maxPts` pieces, a piece on the origin cell included. -/
theorem angle_report_empty_iff (maxPts n : Int) (nq : NQueens) (order : List Nat)
    (c : Constraint) (hn : 2 ≤ n) (hm : 1 ≤ maxPts)
    (hc : NewConstraintAngle maxPts n = .ok (some c)) (hnq : (nq.n : Int) = n)
    (ht : nq.total) (hcons : nq.constraints = [c])
    (hperm : order.Perm (List.range nq.n)) :
    nq.Conflicts order = [] ↔
      ∀ dx dy : Int, dx ≠ 0 → dy ≠ 0 →
        (((Finset.Ico (0 : Int) nq.n).filter (fun i => i * dy = nq.rowAt i * dx)).card : Int)
          ≤ maxPts := by
  obtain ⟨slopes, hs, rfl⟩ := NewConstraintAngle_some maxPts n c (by omega) hc
  have hmem := mem_factory_slopes maxPts n slopes (by omega) hm hs
  have h00 : nq.onBoard 0 0 := ⟨le_rfl, by omega, le_rfl, by omega⟩
  rw [Conflicts_nil_iff nq order hperm]
  constructor
  · intro hz dx dy hdx hdy
    by_contra hcon
    push_neg at hcon
    have hone : 1 < ((Finset.Ico (0 : Int) nq.n).filter
        (fun i => i * dy = nq.rowAt i * dx)).card := by omega
    obtain ⟨a, ha, b, hb, hab⟩ := Finset.one_lt_card.mp hone
    obtain ⟨x, hxS, hx0⟩ : ∃ x ∈ (Finset.Ico (0 : Int) nq.n).filter
        (fun i => i * dy = nq.rowAt i * dx), x ≠ 0 := by
      by_cases ha0 : a = 0
      · exact ⟨b, hb, fun e => hab (by rw [ha0, e])⟩
      · exact ⟨a, ha, ha0⟩
    simp only [Finset.mem_filter, Finset.mem_Ico] at hxS
    obtain ⟨⟨x0, x1⟩, hxl⟩ := hxS
    have hr := ht x x0 x1
    have hy0 : nq.rowAt x ≠ 0 := by
      intro e
      rw [e, zero_mul] at hxl
      rcases mul_eq_zero.mp hxl with h | h
      · exact hx0 h
      · exact hdy h
    have hval := angle_general_eq slopes (maxPts - 1) nq.toGrid x (nq.rowAt x)
      ⟨by omega, x1⟩ ⟨by omega, hr.2⟩
    have hzero := hz x x0 x1
    rw [conflicts_single nq _ hcons, hval] at hzero
    have hsub : ((Finset.Ico (0 : Int) nq.n).filter
        (fun i => i * dy = nq.rowAt i * dx)).erase x ⊆
        (Finset.Ico (0 : Int) nq.n).filter (fun i =>
          (0 ≤ nq.rowAt i ∧ nq.rowAt i < nq.n) ∧ i * nq.rowAt x = nq.rowAt i * x ∧
            ¬ (i = x ∧ nq.rowAt i = nq.rowAt x)) := by
      intro j hj
      simp only [Finset.mem_erase, Finset.mem_filter, Finset.mem_Ico] at hj ⊢
      obtain ⟨hjx, ⟨j0, j1⟩, hjl⟩ := hj
      exact ⟨⟨j0, j1⟩, ht j j0 j1, origin_line_transfer dx dy x _ j _ hdx hxl hjl,
        fun h => hjx h.1⟩
    have hcard := Finset.card_le_card hsub
    rw [Finset.card_erase_of_mem (by
      simp only [Finset.mem_filter, Finset.mem_Ico]
      exact ⟨⟨x0, x1⟩, hxl⟩)] at hcard
    have hle := max_eq_left_iff.mp hzero
    omega
  · intro hline v v0 v1
    rw [conflicts_single nq _ hcons]
    have hr := ht v v0 v1
    by_cases hv0 : v = 0
    · by_cases hr0 : nq.rowAt v = 0
      · subst hv0
        rw [hr0, angle_origin_eq]
        apply List.sum_eq_zero
        intro z hz
        simp only [List.mem_map] at hz
        obtain ⟨s, hs', rfl⟩ := hz
        obtain ⟨⟨h1, _⟩, ⟨h3, _⟩, hg, _⟩ := (hmem s).mp hs'
        have hl := line_primitive_card nq.toGrid 0 0 s.x s.y h00 (by omega) hg
        simp only [sub_zero] at hl
        have hT := hline s.x s.y (by omega) (by omega)
        have hsub : insert (0 : Int) ((Finset.Ico (0 : Int) nq.n).filter (fun i =>
            i ≠ 0 ∧ (0 ≤ nq.rowAt i ∧ nq.rowAt i < nq.n) ∧ i * s.y = nq.rowAt i * s.x)) ⊆
            (Finset.Ico (0 : Int) nq.n).filter (fun i => i * s.y = nq.rowAt i * s.x) := by
          intro j hj
          simp only [Finset.mem_insert, Finset.mem_filter, Finset.mem_Ico] at hj ⊢
          rcases hj with rfl | ⟨hj1, _, _, hj2⟩
          · exact ⟨⟨le_rfl, by omega⟩, by rw [hr0]; ring⟩
          · exact ⟨hj1, hj2⟩
        have hcard := Finset.card_le_card hsub
        rw [Finset.card_insert_of_not_mem (by simp)] at hcard
        rw [max_eq_left]
        rw [hl]
        omega
      · unfold angle
        rw [if_neg (fun h => hr0 h.2), if_pos (Or.inl hv0)]
    · by_cases hr0 : nq.rowAt v = 0
      · unfold angle
        rw [if_neg (fun h => hv0 h.1), if_pos (Or.inr hr0)]
      · rw [angle_general_eq slopes (maxPts - 1) nq.toGrid v (nq.rowAt v)
          ⟨by omega, v1⟩ ⟨by omega, hr.2⟩]
        have hT := hline v (nq.rowAt v) hv0 hr0
        have hsub : insert v ((Finset.Ico (0 : Int) nq.n).filter (fun i =>
            (0 ≤ nq.rowAt i ∧ nq.rowAt i < nq.n) ∧ i * nq.rowAt v = nq.rowAt i * v ∧
              ¬ (i = v ∧ nq.rowAt i = nq.rowAt v))) ⊆
            (Finset.Ico (0 : Int) nq.n).filter (fun i => i * nq.rowAt v = nq.rowAt i * v) := by
          intro j hj
          simp only [Finset.mem_insert, Finset.mem_filter, Finset.mem_Ico] at hj ⊢
          rcases hj with rfl | ⟨hj1, _, hj2, _⟩
          · exact ⟨⟨v0, v1⟩, mul_comm _ _⟩
          · exact ⟨hj1, hj2⟩
        have hcard := Finset.card_le_card hsub
        rw [Finset.card_insert_of_not_mem (by
          intro hmv
          rw [Finset.mem_filter] at hmv
          exact hmv.2.2.2 ⟨rfl, rfl⟩)] at hcard
        rw [max_eq_left]
        omega

/-- A line from `(x, y)` in a direction with `dx ≠ 0` does not read column `x`. -/
theorem line_congr_off_column (g1 g2 : Grid) (x y dx dy : Int) (hn : g1.n = g2.n)
    (hrows : ∀ i : Int, 0 ≤ i → i ≠ x → g1.rowAt i = g2.rowAt i) (h0 : g1.onBoard x y)
    (hdx : dx ≠ 0) : g1.line x y dx dy = g2.line x y dx dy := by
  have h0' : g2.onBoard x y := by
    unfold Grid.onBoard at h0 ⊢
    rw [← hn]; exact h0
  rw [line_eq_card g1 x y dx dy h0 (Or.inl hdx), line_eq_card g2 x y dx dy h0' (Or.inl hdx), hn]
  congr 1
  apply congrArg Finset.card
  apply Finset.filter_congr
  intro t _
  unfold Grid.hit Grid.onBoard
  rw [hn]
  constructor
  · rintro ⟨ht0, hb, hr⟩
    refine ⟨ht0, hb, ?_⟩
    rw [← hrows _ hb.1 (by
      intro e
      have : t * dx = 0 := by omega
      rcases mul_eq_zero.mp this with h | h
      · exact ht0 h
      · exact hdx h)]
    exact hr
  · rintro ⟨ht0, hb, hr⟩
    refine ⟨ht0, hb, ?_⟩
    rw [hrows _ hb.1 (by
      intro e
      have : t * dx = 0 := by omega
      rcases mul_eq_zero.mp this with h | h
      · exact ht0 h
      · exact hdx h)]
    exact hr

theorem setRow_rows_off (nq : NQueens) (x a b : Int) (hwf : nq.wf) (hx : 0 ≤ x ∧ x < nq.n) :
    ∀ i : Int, 0 ≤ i → i ≠ x → (nq.setRow x a).rowAt i = (nq.setRow x b).rowAt i := by
  intro i hi hix
  rw [rowAt_setRow nq x a i hwf hx hi, rowAt_setRow nq x b i hwf hx hi, if_neg hix, if_neg hix]

theorem foldl_congr_mem {α β : Type} (f g : β → α → β) :
    ∀ (l : List α) (acc : β), (∀ a ∈ l, ∀ b, f b a = g b a) → l.foldl f acc = l.foldl g acc := by
  intro l
  induction l with
  | nil => intro acc _; rfl
  | cons a l ih =>
    intro acc h
    rw [List.foldl_cons, List.foldl_cons, h a (List.mem_cons_self _ _)]
    exact ih _ (fun a' ha' => h a' (List.mem_cons_of_mem _ ha'))

/-- The attack closure at `(x, y)` does not tell column `x` unassigned from
column `x` on row `y`. -/
theorem attack_unassigned (nq : NQueens) (x y : Int) (hwf : nq.wf) (hx : 0 ≤ x ∧ x < nq.n)
    (hy : 0 ≤ y ∧ y < nq.n) :
    attack (nq.setRow x (-1)).toGrid x y = attack (nq.setRow x y).toGrid x y := by
  have h1 : (nq.setRow x (-1)).onBoard x y := ⟨hx.1, hx.2, hy.1, hy.2⟩
  have h2 : (nq.setRow x y).onBoard x y := ⟨hx.1, hx.2, hy.1, hy.2⟩
  rw [attack_eq_card _ x y h1, attack_eq_card _ x y h2]
  congr 1
  apply congrArg Finset.card
  apply Finset.filter_congr
  intro i hi
  rw [Finset.mem_Ico] at hi
  by_cases hix : i = x
  · subst hix
    have e1 : (nq.setRow i (-1)).rowAt i = -1 := by
      rw [rowAt_setRow nq i (-1) i hwf hx hx.1, if_pos rfl]
    have e2 : (nq.setRow i y).rowAt i = y := by
      rw [rowAt_setRow nq i y i hwf hx hx.1, if_pos rfl]
    show ((0 ≤ (nq.setRow i (-1)).rowAt i ∧ _) ∧ _) ↔ ((0 ≤ (nq.setRow i y).rowAt i ∧ _) ∧ _)
    rw [e1, e2]
    constructor
    · rintro ⟨⟨h, _⟩, _⟩
      omega
    · rintro ⟨_, h, _⟩
      exact absurd ⟨rfl, rfl⟩ h
  · have e := setRow_rows_off nq x (-1) y hwf hx i hi.1 hix
    show ((0 ≤ (nq.setRow x (-1)).rowAt i ∧ (nq.setRow x (-1)).rowAt i < _) ∧ _) ↔ _
    rw [e]
    rfl

theorem colinear_unassigned (slopes : List slope) (mp : Int) (nq : NQueens) (x y : Int)
    (hwf : nq.wf) (hx : 0 ≤ x ∧ x < nq.n) (hy : 0 ≤ y ∧ y < nq.n)
    (hs : ∀ s ∈ slopes, s.x ≠ 0) :
    colinear slopes mp (nq.setRow x (-1)).toGrid x y =
      colinear slopes mp (nq.setRow x y).toGrid x y := by
  unfold colinear
  apply foldl_congr_mem
  intro s hs' ret
  have h1 : (nq.setRow x (-1)).onBoard x y := ⟨hx.1, hx.2, hy.1, hy.2⟩
  rw [line_congr_off_column (nq.setRow x (-1)).toGrid (nq.setRow x y).toGrid x y s.x s.y rfl
      (setRow_rows_off nq x (-1) y hwf hx) h1 (hs s hs'),
    line_congr_off_column (nq.setRow x (-1)).toGrid (nq.setRow x y).toGrid x y (-s.x) s.y rfl
      (setRow_rows_off nq x (-1) y hwf hx) h1 (neg_ne_zero.mpr (hs s hs'))]

theorem angle_axis (slopes : List slope) (mp : Int) (g : Grid) (x y : Int)
    (h : x = 0 ∨ y = 0) (hne : ¬ (x = 0 ∧ y = 0)) : angle slopes mp g x y = 0 := by
  unfold angle
  rw [if_neg hne, if_pos h]

theorem angle_unassigned (slopes : List slope) (mp : Int) (nq : NQueens) (x y : Int)
    (hwf : nq.wf) (hx : 0 ≤ x ∧ x < nq.n) (hy : 0 ≤ y ∧ y < nq.n)
    (hs : ∀ s ∈ slopes, s.x ≠ 0) :
    angle slopes mp (nq.setRow x (-1)).toGrid x y =
      angle slopes mp (nq.setRow x y).toGrid x y := by
  by_cases hx0 : x = 0
  · by_cases hy0 : y = 0
    · subst hx0 hy0
      unfold angle
      rw [if_pos ⟨rfl, rfl⟩, if_pos ⟨rfl, rfl⟩]
      apply foldl_congr_mem
      intro s hs' ret
      have h1 : (nq.setRow 0 (-1)).onBoard 0 0 := ⟨hx.1, hx.2, hy.1, hy.2⟩
      rw [line_congr_off_column (nq.setRow 0 (-1)).toGrid (nq.setRow 0 0).toGrid 0 0 s.x s.y rfl
        (setRow_rows_off nq 0 (-1) 0 hwf hx) h1 (hs s hs')]
    · rw [angle_axis slopes mp _ x y (Or.inl hx0) (fun h => hy0 h.2),
        angle_axis slopes mp _ x y (Or.inl hx0) (fun h => hy0 h.2)]
  · by_cases hy0 : y = 0
    · rw [angle_axis slopes mp _ x y (Or.inr hy0) (fun h => hx0 h.1),
        angle_axis slopes mp _ x y (Or.inr hy0) (fun h => hx0 h.1)]
    · rw [angle_general_eq slopes mp (nq.setRow x (-1)).toGrid x y ⟨by omega, hx.2⟩
          ⟨by omega, hy.2⟩,
        angle_general_eq slopes mp (nq.setRow x y).toGrid x y ⟨by omega, hx.2⟩ ⟨by omega, hy.2⟩]
      congr 2
      apply congrArg Nat.cast
      apply congrArg Finset.card
      apply Finset.filter_congr
      intro i hi
      rw [Finset.mem_Ico] at hi
      by_cases hix : i = x
      · subst hix
        have e1 : (nq.setRow i (-1)).rowAt i = -1 := by
          rw [rowAt_setRow nq i (-1) i hwf hx hx.1, if_pos rfl]
        have e2 : (nq.setRow i y).rowAt i = y := by
          rw [rowAt_setRow nq i y i hwf hx hx.1, if_pos rfl]
        show ((0 ≤ (nq.setRow i (-1)).rowAt i ∧ _) ∧ _) ↔
          ((0 ≤ (nq.setRow i y).rowAt i ∧ _) ∧ _ ∧ ¬ (i = i ∧ (nq.setRow i y).rowAt i = y))
        rw [e1, e2]
        constructor
        · rintro ⟨⟨h, _⟩, _⟩
          omega
        · rintro ⟨_, _, h⟩
          exact absurd ⟨rfl, rfl⟩ h
      · have e := setRow_rows_off nq x (-1) y hwf hx i hi.1 hix
        show ((0 ≤ (nq.setRow x (-1)).rowAt i ∧ (nq.setRow x (-1)).rowAt i < _) ∧
          i * y = (nq.setRow x (-1)).rowAt i * x ∧ ¬ (i = x ∧ (nq.setRow x (-1)).rowAt i = y)) ↔ _
        rw [e]
        rfl

theorem factory_slopes_x_ne_zero (limit : Int) (slopes : List slope)
    (h : dropFirst (newSlopes limit) = .ok slopes) : ∀ s ∈ slopes, s.x ≠ 0 := by
  intro s hs
  have := ((mem_dropFirst_newSlopes limit slopes h s).mp hs).1
  have := ((mem_newSlopes limit s).mp this).1
  omega

/-- None of the repository's constraints tells, at `(x, y)`, column `x`
unassigned from column `x` on row `y`. -/
theorem repoConstraint_unassigned (c : Constraint) (hc : repoConstraint c) (nq : NQueens)
    (x y : Int) (hwf : nq.wf) (hx : 0 ≤ x ∧ x < nq.n) (hy : 0 ≤ y ∧ y < nq.n) :
    c (nq.setRow x (-1)).toGrid x y = c (nq.setRow x y).toGrid x y := by
  rcases hc with rfl | ⟨maxPts, n, h⟩ | ⟨maxPts, n, h⟩
  · exact attack_unassigned nq x y hwf hx hy
  · by_cases hn : n = 1
    · unfold NewConstraintColinear at h
      rw [if_pos hn] at h
      simp only [Except.ok.injEq, Option.some.injEq] at h
      subst h
      rfl
    · obtain ⟨slopes, hs, rfl⟩ := NewConstraintColinear_some maxPts n c hn h
      exact colinear_unassigned slopes _ nq x y hwf hx hy (factory_slopes_x_ne_zero _ slopes hs)
  · by_cases hn : n = 1
    · unfold NewConstraintAngle at h
      rw [if_pos hn] at h
      simp only [Except.ok.injEq, Option.some.injEq] at h
      subst h
      rfl
    · obtain ⟨slopes, hs, rfl⟩ := NewConstraintAngle_some maxPts n c hn h
      exact angle_unassigned slopes _ nq x y hwf hx hy (factory_slopes_x_ne_zero _ slopes hs)

theorem conflicts_unassigned (nq : NQueens) (hrepo : ∀ c ∈ nq.constraints, repoConstraint c)
    (x y : Int) (hwf : nq.wf) (hx : 0 ≤ x ∧ x < nq.n) (hy : 0 ≤ y ∧ y < nq.n) :
    (nq.setRow x (-1)).conflicts x y = (nq.setRow x y).conflicts x y := by
  unfold NQueens.conflicts
  apply foldl_congr_mem
  intro c hc ret
  rw [repoConstraint_unassigned c (hrepo c hc) nq x y hwf hx hy]

/-- A step whose scan meets an improvable entry, on a board whose heuristic calls
do not wrap: the first such entry is moved to one of the minimizing rows of its
column. -/
theorem improving_step (nq : NQueens) (order : List Nat) (d : Nat) (ds : Rand) (k : Nat)
    (hwf : nq.wf) (hperm : order.Perm (List.range nq.n)) (hfit : nq.scanFits)
    (hk : k < (nq.Conflicts order).length)
    (hfirst : ∀ j < k, ¬ nq.improvable
      (entry (nq.Conflicts order) ((d : Int) % (nq.Conflicts order).length) j))
    (himp : nq.improvable
      (entry (nq.Conflicts order) ((d : Int) % (nq.Conflicts order).length) k))
    (hds : k + 1 ≤ ds.length) :
    ∃ (c : Conflict) (val : Int) (r' : Rand), c ∈ nq.Conflicts order ∧ nq.improvable c ∧
      val ∈ (nq.setRow c.Var (-1)).minimizers c.Var ∧
      Step (NQueens.subject order) nq (d :: ds) = .ok (false, nq.setRow c.Var val, r') := by
  have hcs := Conflicts_vars nq order hperm
  have hne : nq.Conflicts order ≠ [] := List.length_pos.mp (by omega)
  have hn : 1 ≤ nq.n := by
    obtain ⟨c, hc⟩ := List.exists_mem_of_ne_nil _ hne
    have := hcs c hc
    omega
  obtain ⟨post, hsplit⟩ := range_split _ k hk
  obtain ⟨val, r0, r', hH, hs⟩ := scanLoop_first nq order _
    ((d : Int) % (nq.Conflicts order).length) hwf hn hne hcs
    (scanFits_entries nq order hperm hfit) k post himp (List.range k) ds
    (fun j hj => hfirst j (List.mem_range.mp hj)) (by simpa using hds)
  rw [← hsplit] at hs
  have hd : Intn (nq.Conflicts order).length (d :: ds) =
      .ok ((d : Int) % (nq.Conflicts order).length, ds) := by
    unfold Intn
    rw [if_neg (by have := List.length_pos.mpr hne; omega)]
  have hval := (Heuristic_ok _ _ _ _ _ _ (by exact hn)
    (scanFits_entries nq order hperm hfit _ (entry_mem _ _ k hne)) hH).1
  exact ⟨_, val, r', entry_mem _ _ k hne, himp, hval,
    Step_of_scan_true _ _ _ _ _ _ _ _ _ (subject_Conflicts nq order) hne hd hs⟩

/-- C19. On a well-formed board, for the attack constraint and every constraint a
collinear or angle factory returns, the contribution at a cell `(x, y)` of the
board is the same with column `x` unassigned (`rows[x] = -1`) as with column `x`
assigned to `y`; so the cost the heuristic computes for `y` with the variable
unassigned is the conflict count of the variable once `y` is assigned, and a
step that improves leaves the changed variable with strictly fewer conflicts
than it had (the counts being such that no `conflicts[0]+1` of the step's
heuristic calls wraps, as the counts of these constraints are on any board that
fits in memory). -/
theorem unassigned_cost_is_assigned_cost (nq : NQueens) (hwf : nq.wf)
    (hrepo : ∀ c ∈ nq.constraints, repoConstraint c) :
    (∀ (c : Constraint) (x y : Int), repoConstraint c → (0 ≤ x ∧ x < nq.n) →
      (0 ≤ y ∧ y < nq.n) →
        c (nq.setRow x (-1)).toGrid x y = c (nq.setRow x y).toGrid x y) ∧
    (∀ x y : Int, (0 ≤ x ∧ x < nq.n) → (0 ≤ y ∧ y < nq.n) →
      (nq.setRow x (-1)).conflicts x y = (nq.setRow x y).conflicts x y) ∧
    (∀ (order : List Nat) (d : Nat) (ds : Rand) (k : Nat),
      order.Perm (List.range nq.n) → nq.scanFits → k < (nq.Conflicts order).length →
      (∀ j < k, ¬ nq.improvable
        (entry (nq.Conflicts order) ((d : Int) % (nq.Conflicts order).length) j)) →
      nq.improvable
        (entry (nq.Conflicts order) ((d : Int) % (nq.Conflicts order).length) k) →
      k + 1 ≤ ds.length →
      ∃ (c : Conflict) (val : Int) (r' : Rand), c ∈ nq.Conflicts order ∧
        Step (NQueens.subject order) nq (d :: ds) = .ok (false, nq.setRow c.Var val, r') ∧
        (nq.setRow c.Var val).conflicts c.Var ((nq.setRow c.Var val).rowAt c.Var) <
          nq.conflicts c.Var (nq.rowAt c.Var)) := by
  refine ⟨fun c x y hc hx hy => repoConstraint_unassigned c hc nq x y hwf hx hy,
    fun x y hx hy => conflicts_unassigned nq hrepo x y hwf hx hy, ?_⟩
  intro order d ds k hperm hfit hk hfirst himp hds
  obtain ⟨c, val, r', hc, hci, hval, hstep⟩ :=
    improving_step nq order d ds k hwf hperm hfit hk hfirst himp hds
  refine ⟨c, val, r', hc, hstep, ?_⟩
  have hv := Conflicts_vars nq order hperm c hc
  have hn : 1 ≤ nq.n := by omega
  have hvalr := ((mem_minimizers _ _ _).mp hval).1
  obtain ⟨col, _, _, hcc, _⟩ := (mem_Conflicts nq order c).mp hc
  rw [rowAt_setRow nq c.Var val c.Var hwf hv hv.1, if_pos rfl,
    ← conflicts_unassigned nq hrepo c.Var val hwf hv hvalr,
    conflicts_of_mem_minimizers (nq.setRow c.Var (-1)) c.Var val hn hval, ← hcc]
  exact hci

theorem foldl_colinear (mp : Int) (f1 f2 : slope → Int) :
    ∀ (l : List slope) (acc : Int),
      l.foldl (fun ret s => addExcess mp (addExcess mp ret (f1 s)) (f2 s)) acc =
        acc + (l.map (fun s => max 0 (f1 s - mp) + max 0 (f2 s - mp))).sum := by
  intro l
  induction l with
  | nil => intro acc; simp
  | cons s l ih =>
    intro acc
    rw [List.foldl_cons, ih, addExcess_eq, addExcess_eq, List.map_cons, List.sum_cons]
    omega

theorem sum_eq_zero_iff_of_nonneg : ∀ (l : List Int), (∀ z ∈ l, 0 ≤ z) →
    (l.sum = 0 ↔ ∀ z ∈ l, z = 0) := by
  intro l
  induction l with
  | nil => intro _; simp
  | cons a l ih =>
    intro h
    have ha := h a (List.mem_cons_self _ _)
    have hl : ∀ z ∈ l, 0 ≤ z := fun z hz => h z (List.mem_cons_of_mem _ hz)
    have hs : 0 ≤ l.sum := List.sum_nonneg hl
    rw [List.sum_cons]
    constructor
    · intro e z hz
      rcases List.mem_cons.mp hz with rfl | hz
      · omega
      · exact (ih hl).mp (by omega) z hz
    · intro hz
      rw [hz a (List.mem_cons_self _ _),
        (ih hl).mpr (fun z hz' => hz z (List.mem_cons_of_mem _ hz'))]
      rfl

/-- The collinear closure is zero exactly when no enumerated slope, in either
sign, has more than `mp` other pieces on its line through `(x, y)`. -/
theorem colinear_eq_zero_iff (slopes : List slope) (mp : Int) (g : Grid) (x y : Int) :
    colinear slopes mp g x y = 0 ↔
      ∀ s ∈ slopes, g.line x y s.x s.y ≤ mp ∧ g.line x y (-s.x) s.y ≤ mp := by
  unfold colinear
  rw [foldl_colinear mp (fun s => g.line x y s.x s.y) (fun s => g.line x y (-s.x) s.y),
    zero_add, sum_eq_zero_iff_of_nonneg]
  · constructor
    · intro h s hs
      have := h _ (List.mem_map.mpr ⟨s, hs, rfl⟩)
      have h1 := le_max_left 0 (g.line x y s.x s.y - mp)
      have h2 := le_max_left 0 (g.line x y (-s.x) s.y - mp)
      have h3 := le_max_right 0 (g.line x y s.x s.y - mp)
      have h4 := le_max_right 0 (g.line x y (-s.x) s.y - mp)
      constructor <;> omega
    · intro h z hz
      obtain ⟨s, hs, rfl⟩ := List.mem_map.mp hz
      rw [max_eq_left (by have := (h s hs).1; omega), max_eq_left (by have := (h s hs).2; omega)]
      rfl
  · intro z hz
    obtain ⟨s, _, rfl⟩ := List.mem_map.mp hz
    have h1 := le_max_left 0 (g.line x y s.x s.y - mp)
    have h2 := le_max_left 0 (g.line x y (-s.x) s.y - mp)
    omega

/-- Integers of `[0, n)` that are congruent modulo `m`: there are at most
`(n - 1) / m + 1` of them. -/
theorem card_le_of_congruent (S : Finset Int) (f : Int → Int) (m n : Int) (hm : 1 ≤ m)
    (hn : 1 ≤ n) (hf : ∀ j ∈ S, 0 ≤ f j ∧ f j < n)
    (hinj : ∀ j ∈ S, ∀ j' ∈ S, f j = f j' → j = j')
    (hcong : ∀ j ∈ S, ∀ j' ∈ S, m ∣ f j - f j') :
    (S.card : Int) ≤ (n - 1) / m + 1 := by
  have hq : 0 ≤ (n - 1) / m := Int.ediv_nonneg (by omega) (by omega)
  have hle : S.card ≤ (Finset.Icc (0 : Int) ((n - 1) / m)).card := by
    apply Finset.card_le_card_of_injOn (fun j => f j / m)
    · intro j hj
      have := hf j hj
      show f j / m ∈ (Finset.Icc (0 : Int) ((n - 1) / m) : Set Int)
      rw [Finset.mem_coe, Finset.mem_Icc]
      exact ⟨Int.ediv_nonneg this.1 (by omega), Int.ediv_le_ediv (by omega) (by omega)⟩
    · intro j hj j' hj' e
      apply hinj j hj j' hj'
      have hmod : f j % m = f j' % m :=
        (Int.emod_eq_emod_iff_emod_sub_eq_zero).mpr (Int.emod_eq_zero_of_dvd (hcong j hj j' hj'))
      have e1 := Int.ediv_add_emod (f j) m
      have e2 := Int.ediv_add_emod (f j') m
      have e' : f j / m = f j' / m := e
      rw [← e1, ← e2, e', hmod]
  rw [Int.card_Icc] at hle
  have : (((n - 1) / m + 1 - 0).toNat : Int) = (n - 1) / m + 1 := by
    rw [Int.toNat_of_nonneg (by omega)]; ring
  omega

theorem le_ediv_of_card (card maxPts m n : Int) (hm : 1 ≤ m) (hmp : 1 ≤ maxPts)
    (h1 : maxPts + 1 ≤ card) (h2 : card ≤ (n - 1) / m + 1) : m ≤ n / maxPts := by
  have h3 : maxPts ≤ (n - 1) / m := by omega
  have h4 : maxPts * m ≤ n - 1 := (Int.le_ediv_iff_mul_le (by omega)).mp h3
  apply (Int.le_ediv_iff_mul_le (by omega)).mpr
  rw [mul_comm]
  omega

/-- More than `maxPts` pieces on a line with direction `(px, py)` in lowest
terms, `py > 0`, neither an axis nor a diagonal: the slope `(|px|, py)` is one the
factories enumerate, and with the sign of `px` it finds at least `maxPts` other
pieces on the line through any of them. -/
theorem colinear_detects_pos (nq : NQueens) (ht : nq.total) (maxPts : Int) (hm : 1 ≤ maxPts)
    (slopes : List slope)
    (hmem : ∀ s : slope, s ∈ slopes ↔ (1 ≤ s.x ∧ s.x ≤ (nq.n : Int) / maxPts) ∧
      (1 ≤ s.y ∧ s.y ≤ (nq.n : Int) / maxPts) ∧ Int.gcd s.x s.y = 1 ∧ ¬ (s.x = 1 ∧ s.y = 1))
    (S : Finset Int) (hS : ∀ j ∈ S, 0 ≤ j ∧ j < nq.n) (x : Int) (hx : x ∈ S) (px py : Int)
    (hg : Int.gcd px py = 1) (hpx : px ≠ 0) (hpy : 0 < py) (hne1 : px ≠ py) (hne2 : px ≠ -py)
    (heq : ∀ j ∈ S, (j - x) * py = (nq.rowAt j - nq.rowAt x) * px)
    (hcard : maxPts + 1 ≤ S.card) :
    ∃ s ∈ slopes, maxPts ≤ nq.line x (nq.rowAt x) s.x s.y ∨
      maxPts ≤ nq.line x (nq.rowAt x) (-s.x) s.y := by
  have hxr := hS x hx
  have hn : 1 ≤ (nq.n : Int) := by omega
  have hr := ht x hxr.1 hxr.2
  -- the columns of `S` are congruent modulo `|px|`
  have hcol : ∀ j ∈ S, px ∣ j - x := fun j hj =>
    Int.dvd_of_dvd_mul_left_of_gcd_one (c := py)
      (by rw [heq j hj]; exact dvd_mul_left _ _) hg
  have habs1 : 1 ≤ |px| := Int.one_le_abs hpx
  have hc1 := card_le_of_congruent S (fun j => j) |px| nq.n habs1 hn hS
    (fun j _ j' _ e => e)
    (fun j hj j' hj' => by
      have h1 := (abs_dvd px (j - x)).mpr (hcol j hj)
      have h2 := (abs_dvd px (j' - x)).mpr (hcol j' hj')
      have := dvd_sub h1 h2
      simpa using this)
  have hsx := le_ediv_of_card S.card maxPts |px| nq.n habs1 hm hcard hc1
  -- the rows of the pieces of `S` are congruent modulo `py`
  have hrow : ∀ j ∈ S, py ∣ nq.rowAt j - nq.rowAt x := fun j hj =>
    Int.dvd_of_dvd_mul_left_of_gcd_one (c := px)
      (by rw [← heq j hj]; exact dvd_mul_left _ _) (by rw [Int.gcd_comm]; exact hg)
  have hc2 := card_le_of_congruent S (fun j => nq.rowAt j) py nq.n (by omega) hn
    (fun j hj => ht j (hS j hj).1 (hS j hj).2)
    (fun j hj j' hj' e => by
      have e1 := heq j hj
      have e2 := heq j' hj'
      simp only at e
      rw [e] at e1
      have : (j - x) * py = (j' - x) * py := by rw [e1, e2]
      have := mul_right_cancel₀ (by omega : py ≠ 0) this
      omega)
    (fun j hj j' hj' => by
      have := dvd_sub (hrow j hj) (hrow j' hj')
      simpa using this)
  have hsy := le_ediv_of_card S.card maxPts py nq.n (by omega) hm hcard hc2
  -- the line through `x` meets the other pieces of `S`
  have hb : nq.onBoard x (nq.rowAt x) := ⟨hxr.1, hxr.2, hr.1, hr.2⟩
  have hline := line_primitive_card nq.toGrid x (nq.rowAt x) px py hb hpx hg
  have hsub : S.erase x ⊆ (Finset.Ico (0 : Int) nq.n).filter (fun i =>
      i ≠ x ∧ (0 ≤ nq.rowAt i ∧ nq.rowAt i < nq.n) ∧
        (i - x) * py = (nq.rowAt i - nq.rowAt x) * px) := by
    intro j hj
    rw [Finset.mem_erase] at hj
    simp only [Finset.mem_filter, Finset.mem_Ico]
    exact ⟨hS j hj.2, hj.1, ht j (hS j hj.2).1 (hS j hj.2).2, heq j hj.2⟩
  have hcard2 := Finset.card_le_card hsub
  rw [Finset.card_erase_of_mem hx] at hcard2
  have hlarge : maxPts ≤ nq.line x (nq.rowAt x) px py := by
    rw [hline]
    have : 1 ≤ S.card := Finset.card_pos.mpr ⟨x, hx⟩
    omega
  have hgabs : Int.gcd |px| py = 1 := by
    unfold Int.gcd at hg ⊢
    rw [Int.natAbs_abs]
    exact hg
  rcases lt_or_gt_of_ne hpx with hneg | hpos
  · have ha : |px| = -px := abs_of_neg hneg
    refine ⟨⟨|px|, py⟩, (hmem _).mpr ⟨⟨habs1, hsx⟩, ⟨(by show 1 ≤ py; omega), hsy⟩, hgabs, ?_⟩, Or.inr ?_⟩
    · simp only
      rw [ha]
      omega
    · simp only
      rw [ha, neg_neg]
      exact hlarge
  · have ha : |px| = px := abs_of_pos hpos
    refine ⟨⟨|px|, py⟩, (hmem _).mpr ⟨⟨habs1, hsx⟩, ⟨(by show 1 ≤ py; omega), hsy⟩, hgabs, ?_⟩, Or.inl ?_⟩
    · simp only
      rw [ha]
      omega
    · simp only
      rw [ha]
      exact hlarge

theorem slope_x_ne_y (s : slope) (hx : 1 ≤ s.x) (hg : Int.gcd s.x s.y = 1)
    (hne : ¬ (s.x = 1 ∧ s.y = 1)) : s.x ≠ s.y := by
  intro e
  rw [← e, Int.gcd_self] at hg
  have : s.x = 1 := by omega
  exact hne ⟨this, by rw [← e]; exact this⟩

/-- C14. For `n >= 2` and `maxPts >= 1` for which `NewConstraintColinear maxPts n`
returns a constraint, and a board of size `n` whose every column holds a row of
`[0, n)` and whose only constraint is that one, the report of `Conflicts` is empty
if and only if no line whose direction is neither parallel to an axis nor a
45-degree diagonal holds more than `maxPts` pieces.  The lines are those through
a point `(x0, y0)` with a direction `(dx, dy)` of integers, which are all the
lines that hold two pieces.  So the slopes with a component above `n / maxPts`
that the factory leaves out hide no violation, and `maxPts` pieces on a line are
tolerated. -/
theorem colinear_report_empty_iff (maxPts n : Int) (nq : NQueens) (order : List Nat)
    (c : Constraint) (hn : 2 ≤ n) (hm : 1 ≤ maxPts)
    (hc : NewConstraintColinear maxPts n = .ok (some c)) (hnq : (nq.n : Int) = n)
    (ht : nq.total) (hcons : nq.constraints = [c])
    (hperm : order.Perm (List.range nq.n)) :
    nq.Conflicts order = [] ↔
      ∀ x0 y0 dx dy : Int, dx ≠ 0 → dy ≠ 0 → dx ≠ dy → dx ≠ -dy →
        (((Finset.Ico (0 : Int) nq.n).filter
          (fun i => (i - x0) * dy = (nq.rowAt i - y0) * dx)).card : Int) ≤ maxPts := by
  obtain ⟨slopes, hs, rfl⟩ := NewConstraintColinear_some maxPts n c (by omega) hc
  have hmem := mem_factory_slopes maxPts n slopes (by omega) hm hs
  rw [← hnq] at hmem
  rw [Conflicts_nil_iff nq order hperm]
  constructor
  · intro hz x0 y0 dx dy hdx hdy hne1 hne2
    by_contra hcon
    push_neg at hcon
    have hcard : maxPts + 1 ≤ ((Finset.Ico (0 : Int) nq.n).filter
        (fun i => (i - x0) * dy = (nq.rowAt i - y0) * dx)).card := by omega
    have hpos : 0 < ((Finset.Ico (0 : Int) nq.n).filter
        (fun i => (i - x0) * dy = (nq.rowAt i - y0) * dx)).card := by omega
    obtain ⟨x, hx⟩ := Finset.card_pos.mp hpos
    have hS : ∀ j ∈ (Finset.Ico (0 : Int) nq.n).filter
        (fun i => (i - x0) * dy = (nq.rowAt i - y0) * dx), 0 ≤ j ∧ j < nq.n := by
      intro j hj
      simp only [Finset.mem_filter, Finset.mem_Ico] at hj
      exact hj.1
    have hxl : (x - x0) * dy = (nq.rowAt x - y0) * dx := by
      simp only [Finset.mem_filter] at hx
      exact hx.2
    have hgpos : 0 < Int.gcd dx dy := Int.gcd_pos_of_ne_zero_left dy hdx
    obtain ⟨px, py, hg, hdx', hdy'⟩ := Int.exists_gcd_one hgpos
    have hg0 : ((Int.gcd dx dy : Nat) : Int) ≠ 0 := by omega
    have hpx : px ≠ 0 := by
      intro e
      rw [e, zero_mul] at hdx'
      exact hdx hdx'
    have hpy : py ≠ 0 := by
      intro e
      rw [e, zero_mul] at hdy'
      exact hdy hdy'
    have hp1 : px ≠ py := by
      intro e
      apply hne1
      calc dx = px * (Int.gcd dx dy : Int) := hdx'
        _ = py * (Int.gcd dx dy : Int) := by rw [e]
        _ = dy := hdy'.symm
    have hp2 : px ≠ -py := by
      intro e
      apply hne2
      calc dx = px * (Int.gcd dx dy : Int) := hdx'
        _ = -(py * (Int.gcd dx dy : Int)) := by rw [e]; ring
        _ = -dy := by rw [← hdy']
    have heq : ∀ j ∈ (Finset.Ico (0 : Int) nq.n).filter
        (fun i => (i - x0) * dy = (nq.rowAt i - y0) * dx),
        (j - x) * py = (nq.rowAt j - nq.rowAt x) * px := by
      intro j hj
      simp only [Finset.mem_filter] at hj
      have hjl := hj.2
      apply mul_right_cancel₀ hg0
      have e1 : (j - x) * py * (Int.gcd dx dy : Int) = (j - x) * dy := by
        calc (j - x) * py * (Int.gcd dx dy : Int) = (j - x) * (py * (Int.gcd dx dy : Int)) := by
              ring
          _ = (j - x) * dy := by rw [← hdy']
      have e2 : (nq.rowAt j - nq.rowAt x) * px * (Int.gcd dx dy : Int) =
          (nq.rowAt j - nq.rowAt x) * dx := by
        calc (nq.rowAt j - nq.rowAt x) * px * (Int.gcd dx dy : Int) =
              (nq.rowAt j - nq.rowAt x) * (px * (Int.gcd dx dy : Int)) := by ring
          _ = (nq.rowAt j - nq.rowAt x) * dx := by rw [← hdx']
      rw [e1, e2]
      have e3 : (j - x) * dy = (j - x0) * dy - (x - x0) * dy := by ring
      have e4 : (nq.rowAt j - nq.rowAt x) * dx =
          (nq.rowAt j - y0) * dx - (nq.rowAt x - y0) * dx := by ring
      rw [e3, e4, hjl, hxl]
    have hxr := hS x hx
    have hzx := hz x hxr.1 hxr.2
    rw [conflicts_single nq _ hcons, colinear_eq_zero_iff] at hzx
    rcases lt_or_gt_of_ne hpy with hneg | hpos'
    · obtain ⟨s, hs', hbig⟩ := colinear_detects_pos nq ht maxPts hm slopes hmem _ hS x hx
        (-px) (-py) (by rw [Int.neg_gcd, Int.gcd_neg]; exact hg) (neg_ne_zero.mpr hpx)
        (by omega) (by omega) (by omega)
        (fun j hj => by
          have := heq j hj
          rw [mul_neg, mul_neg, this]) hcard
      have := hzx s hs'
      omega
    · obtain ⟨s, hs', hbig⟩ := colinear_detects_pos nq ht maxPts hm slopes hmem _ hS x hx
        px py hg hpx hpos' hp1 hp2 heq hcard
      have := hzx s hs'
      omega
  · intro hline v v0 v1
    rw [conflicts_single nq _ hcons, colinear_eq_zero_iff]
    have hr := ht v v0 v1
    have hb : nq.onBoard v (nq.rowAt v) := ⟨v0, v1, hr.1, hr.2⟩
    have key : ∀ (e sy : Int), e ≠ 0 → sy ≠ 0 → e ≠ sy → e ≠ -sy → Int.gcd e sy = 1 →
        nq.line v (nq.rowAt v) e sy ≤ maxPts - 1 := by
      intro e sy he hsy h1 h2 hg
      rw [line_primitive_card nq.toGrid v (nq.rowAt v) e sy hb he hg]
      have hT := hline v (nq.rowAt v) e sy he hsy h1 h2
      have hsub : insert v ((Finset.Ico (0 : Int) nq.n).filter (fun i =>
          i ≠ v ∧ (0 ≤ nq.rowAt i ∧ nq.rowAt i < nq.n) ∧
            (i - v) * sy = (nq.rowAt i - nq.rowAt v) * e)) ⊆
          (Finset.Ico (0 : Int) nq.n).filter
            (fun i => (i - v) * sy = (nq.rowAt i - nq.rowAt v) * e) := by
        intro j hj
        simp only [Finset.mem_insert, Finset.mem_filter, Finset.mem_Ico] at hj ⊢
        rcases hj with rfl | ⟨hj1, _, _, hj2⟩
        · exact ⟨⟨v0, v1⟩, by ring⟩
        · exact ⟨hj1, hj2⟩
      have hcard := Finset.card_le_card hsub
      rw [Finset.card_insert_of_not_mem (by
        intro hmv
        rw [Finset.mem_filter] at hmv
        exact hmv.2.1 rfl)] at hcard
      omega
    intro s hs'
    obtain ⟨⟨h1, _⟩, ⟨h3, _⟩, hg, hne⟩ := (hmem s).mp hs'
    have hxy := slope_x_ne_y s h1 hg hne
    exact ⟨key s.x s.y (by omega) (by omega) hxy (by omega) hg,
      key (-s.x) s.y (by omega) (by omega) (by omega) (by omega)
        (by rw [Int.neg_gcd]; exact hg)⟩

theorem boardOf_total (rows : List Int) (cs : List Constraint)
    (h : ∀ r ∈ rows, 0 ≤ r ∧ r < (rows.length : Int)) : (boardOf rows cs).total := by
  intro v h0 h1
  have hlt : v.toNat < rows.length := by
    have : v < (rows.length : Int) := h1
    omega
  have e : (boardOf rows cs).rowAt v = rows[v.toNat] := by
    show rows.getD v.toNat 0 = rows[v.toNat]
    rw [List.getD_eq_getElem?_getD, List.getElem?_eq_getElem hlt]
    rfl
  rw [e]
  exact h _ (List.getElem_mem hlt)

/-- Witness for C11: the boards of `TestAttackConflicts` on `N = 10`. -/
theorem attack_report_nonempty_iff_witness :
    (boardOf (List.replicate 10 0) [attack]).total ∧
    (boardOf (List.replicate 10 0) [attack]).constraints = [attack] ∧
    (List.range 10).Perm (List.range (boardOf (List.replicate 10 0) [attack]).n) ∧
    (∃ i j : Int, (0 ≤ i ∧ i < (boardOf (List.replicate 10 0) [attack]).n) ∧
      (0 ≤ j ∧ j < (boardOf (List.replicate 10 0) [attack]).n) ∧ i ≠ j ∧
      ((boardOf (List.replicate 10 0) [attack]).rowAt i =
          (boardOf (List.replicate 10 0) [attack]).rowAt j ∨
        (boardOf (List.replicate 10 0) [attack]).rowAt i -
          (boardOf (List.replicate 10 0) [attack]).rowAt j = i - j ∨
        (boardOf (List.replicate 10 0) [attack]).rowAt i -
          (boardOf (List.replicate 10 0) [attack]).rowAt j = -(i - j))) ∧
    (boardOf (List.replicate 10 0) [attack]).Conflicts (List.range 10) ≠ [] ∧
    (boardOf [0, 1, 2, 3, 4, 5, 6, 7, 8, 9] [attack]).Conflicts (List.range 10) ≠ [] ∧
    (boardOf [9, 8, 7, 6, 5, 4, 3, 2, 1, 0] [attack]).Conflicts (List.range 10) ≠ [] ∧
    (boardOf [0, 1, 0, 1, 0, 1, 0, 1, 0, 1] [attack]).Conflicts (List.range 10) ≠ [] ∧
    (boardOf [1, 3, 0, 2] [attack]).Conflicts (List.range 4) = [] :=
  ⟨boardOf_total _ _ (by decide), rfl, List.Perm.refl _,
    (attack_report_nonempty_iff (boardOf (List.replicate 10 0) [attack]) (List.range 10)
      (boardOf_total _ _ (by decide)) rfl (List.Perm.refl _)).mp (by decide),
    by decide, by decide, by decide, by decide, by decide⟩

/-- Witness for C14: `NewConstraintColinear(2, 10)` on the board with every queen on
row 0 (empty report) and on the board with `rows[i] = 2i` for `i < 5` (five pieces
on a line of slope 2, non-empty report). -/
theorem colinear_report_empty_iff_witness :
    NewConstraintColinear 2 10 = .ok (some (colinear testSlopes 1)) ∧
    (boardOf (List.replicate 10 0) [colinear testSlopes 1]).total ∧
    (boardOf (List.replicate 10 0) [colinear testSlopes 1]).Conflicts (List.range 10) = [] ∧
    (∀ x0 y0 dx dy : Int, dx ≠ 0 → dy ≠ 0 → dx ≠ dy → dx ≠ -dy →
      (((Finset.Ico (0 : Int) (boardOf (List.replicate 10 0) [colinear testSlopes 1]).n).filter
        (fun i => (i - x0) * dy =
          ((boardOf (List.replicate 10 0) [colinear testSlopes 1]).rowAt i - y0) * dx)).card : Int)
        ≤ 2) ∧
    (boardOf doubledRows [colinear testSlopes 1]).Conflicts (List.range 10) ≠ [] ∧
    ¬ (∀ x0 y0 dx dy : Int, dx ≠ 0 → dy ≠ 0 → dx ≠ dy → dx ≠ -dy →
      (((Finset.Ico (0 : Int) (boardOf doubledRows [colinear testSlopes 1]).n).filter
        (fun i => (i - x0) * dy =
          ((boardOf doubledRows [colinear testSlopes 1]).rowAt i - y0) * dx)).card : Int) ≤ 2) :=
  ⟨rfl, boardOf_total _ _ (by decide), by decide,
    (colinear_report_empty_iff 2 10 (boardOf (List.replicate 10 0) [colinear testSlopes 1])
      (List.range 10) (colinear testSlopes 1) (by decide) (by decide) rfl rfl
      (boardOf_total _ _ (by decide)) rfl (List.Perm.refl _)).mp (by decide),
    by decide,
    fun h => absurd (h 0 0 1 2 (by decide) (by decide) (by decide) (by decide)) (by decide)⟩

/-- Witness for C15: the boards of `TestAngleConflicts` on `n = 10`, `maxPts = 2`. -/
theorem angle_report_empty_iff_witness :
    NewConstraintAngle 2 10 = .ok (some (angle testSlopes 1)) ∧
    (boardOf (List.replicate 10 0) [angle testSlopes 1]).total ∧
    (boardOf (List.replicate 10 0) [angle testSlopes 1]).Conflicts (List.range 10) = [] ∧
    (∀ dx dy : Int, dx ≠ 0 → dy ≠ 0 →
      (((Finset.Ico (0 : Int) (boardOf (List.replicate 10 0) [angle testSlopes 1]).n).filter
        (fun i => i * dy =
          (boardOf (List.replicate 10 0) [angle testSlopes 1]).rowAt i * dx)).card : Int) ≤ 2) ∧
    (boardOf doubledRows [angle testSlopes 1]).Conflicts (List.range 10) ≠ [] ∧
    (boardOf halvedRows [angle testSlopes 1]).Conflicts (List.range 10) ≠ [] :=
  ⟨rfl, boardOf_total _ _ (by decide), by decide,
    (angle_report_empty_iff 2 10 (boardOf (List.replicate 10 0) [angle testSlopes 1])
      (List.range 10) (angle testSlopes 1) (by decide) (by decide) rfl rfl
      (boardOf_total _ _ (by decide)) rfl (List.Perm.refl _)).mp (by decide),
    by decide, by decide⟩

/-- An instance: `NewConstraintAngle(2, 10)` at the origin of the board with
`rows[i] = 2i` for `i < 5`, where the four pieces off the origin on the line of
direction `(1, 2)` give the excess 3. -/
theorem angle_origin_sum_witness :
    NewConstraintAngle 2 10 = .ok (some (angle testSlopes 1)) ∧
    (10 : Int) / 2 ≤ 5 ∧
    angle testSlopes 1 (boardOf doubledRows []).toGrid 0 0 =
      originExcessOffDiagonal 2 (boardOf doubledRows []).toGrid 5 ∧
    angle testSlopes 1 (boardOf doubledRows []).toGrid 0 0 = 3 :=
  ⟨rfl, by decide,
    angle_origin_sum 2 10 (boardOf doubledRows []).toGrid (angle testSlopes 1) 5 (by decide)
      (by decide) rfl rfl (by decide),
    by decide⟩

/-- Witness for C17: `NewConstraintAngle(2, 10)` at the cell `(2, 4)` of the board
with `rows[i] = 2i` for `i < 5`: the line holds the origin piece and the pieces of
columns 1, 3 and 4 besides the one on `(2, 4)`. -/
theorem angle_general_counts_witness :
    NewConstraintAngle 2 10 = .ok (some (angle testSlopes 1)) ∧
    ((1 : Int) ≤ 2 ∧ (2 : Int) < 10) ∧ ((1 : Int) ≤ 4 ∧ (4 : Int) < 10) ∧
    angle testSlopes 1 (boardOf doubledRows []).toGrid 2 4 = max 0
      ((((Finset.Ico (0 : Int) (boardOf doubledRows []).n).filter (fun i =>
        (0 ≤ (boardOf doubledRows []).rowAt i ∧
          (boardOf doubledRows []).rowAt i < (boardOf doubledRows []).n) ∧
        i * 4 = (boardOf doubledRows []).rowAt i * 2 ∧
          ¬ (i = 2 ∧ (boardOf doubledRows []).rowAt i = 4))).card : Int) - (2 - 1)) ∧
    angle testSlopes 1 (boardOf doubledRows []).toGrid 2 4 = 3 :=
  ⟨rfl, by decide, by decide,
    (angle_general_counts 2 10 (boardOf doubledRows []).toGrid (angle testSlopes 1) 2 4
      (by decide) rfl rfl (by decide) (by decide)).1,
    by decide⟩

theorem mixedBoard_repo : ∀ c ∈ mixedBoard.constraints, repoConstraint c := by
  intro c hc
  have hc' : c ∈ [attack, colinear ((newSlopes 3).drop 1) 1, angle ((newSlopes 3).drop 1) 1] := hc
  simp only [List.mem_cons, List.mem_singleton, List.not_mem_nil, or_false] at hc'
  rcases hc' with rfl | rfl | rfl
  · exact Or.inl rfl
  · exact Or.inr (Or.inl ⟨2, 4, rfl⟩)
  · exact Or.inr (Or.inr ⟨2, 4, rfl⟩)

/-- Witness for C19: the board of size 4 with every queen on row 0 under the three
constraints; the first step moves the queen of column 0. -/
theorem unassigned_cost_is_assigned_cost_witness :
    mixedBoard.wf ∧ (∀ c ∈ mixedBoard.constraints, repoConstraint c) ∧ mixedBoard.scanFits ∧
    (∀ x y : Int, (0 ≤ x ∧ x < mixedBoard.n) → (0 ≤ y ∧ y < mixedBoard.n) →
      (mixedBoard.setRow x (-1)).conflicts x y = (mixedBoard.setRow x y).conflicts x y) ∧
    (mixedBoard.setRow 1 (-1)).conflicts 1 0 = 3 ∧ (mixedBoard.setRow 1 0).conflicts 1 0 = 3 ∧
    ∃ (c : Conflict) (val : Int) (r' : Rand), c ∈ mixedBoard.Conflicts [0, 1, 2, 3] ∧
      Step (NQueens.subject [0, 1, 2, 3]) mixedBoard (0 :: [2]) =
        .ok (false, mixedBoard.setRow c.Var val, r') ∧
      (mixedBoard.setRow c.Var val).conflicts c.Var ((mixedBoard.setRow c.Var val).rowAt c.Var) <
        mixedBoard.conflicts c.Var (mixedBoard.rowAt c.Var) :=
  ⟨by decide, mixedBoard_repo, by decide,
    (unassigned_cost_is_assigned_cost mixedBoard (by decide) mixedBoard_repo).2.1,
    by decide, by decide,
    (unassigned_cost_is_assigned_cost mixedBoard (by decide) mixedBoard_repo).2.2
      [0, 1, 2, 3] 0 [2] 0 (by decide) (by decide) (by decide)
      (fun j hj => absurd hj (Nat.not_lt_zero j)) (by decide) (by decide)⟩

/-- C6, at the failing input. On the board of one column whose constraint returns
the largest `int`, row 0 is the minimizing row and the largest `int` the minimum,
but `conflicts[0]+1` wraps to the smallest `int`, the first loop of `Heuristic`
counts no row (`c = 0`), and `Heuristic` panics in `rand.Intn(0)` whatever the
outcomes, where the claim has it return row 0 with that cost. -/
theorem Heuristic_panics_at_largest_count :
    1 ≤ (boardOf [0] [maxCost]).n ∧
    (boardOf [0] [maxCost]).rowConflicts 0 = [9223372036854775807] ∧
    (boardOf [0] [maxCost]).minimizers 0 = [0] ∧
    (boardOf [0] [maxCost]).minCost 0 = 9223372036854775807 ∧
    wrap64 (9223372036854775807 + 1) = -9223372036854775808 ∧
    scanMin [9223372036854775807] 0 (0, -9223372036854775808, 0) =
      (0, -9223372036854775808, 0) ∧
    ∀ r : Rand, (boardOf [0] [maxCost]).Heuristic 0 r = .error .panic :=
  ⟨by decide, by decide, by decide, by decide, by decide, by decide, fun _ => rfl⟩

/-- C7, at the failing input. On the board of two columns whose constraint charges
the largest `int` on row 0 and 5 on row 1, column 0 has the single minimizing row
1, which the claim has returned without a draw; but the first loop of `Heuristic`
ends with the counter at 0, and the tie-break draw is `rand.Intn(0)`, which
panics whatever the outcomes. -/
theorem Heuristic_draws_from_none :
    (boardOf [0, 0] [steepCost]).rowConflicts 0 = [9223372036854775807, 5] ∧
    (boardOf [0, 0] [steepCost]).minimizers 0 = [1] ∧
    scanMin [9223372036854775807, 5] 0 (0, wrap64 (9223372036854775807 + 1), 0) =
      (0, -9223372036854775808, 0) ∧
    (∀ r : Rand, Intn 0 r = .error .panic) ∧
    ∀ r : Rand, (boardOf [0, 0] [steepCost]).Heuristic 0 r = .error .panic :=
  ⟨by decide, by decide, by decide, fun _ => rfl, fun _ => rfl⟩

/-- C2, at the failing input. The board of two columns on row 0 whose constraint
returns the largest `int` is total and in range; whatever the random outcomes,
once the offset is drawn a step unassigns the first scanned column, which leaves
it at the sentinel `-1`, and panics in the heuristic call that follows, where the
claim has every column hold a row of `[0, n)` after the call. -/
theorem Step_panics_with_column_unassigned :
    (boardOf [0, 0] [maxCost]).wf ∧ 2 ≤ (boardOf [0, 0] [maxCost]).n ∧
    (boardOf [0, 0] [maxCost]).total ∧
    (boardOf [0, 0] [maxCost]).Conflicts [0, 1] =
      [⟨0, 9223372036854775807⟩, ⟨1, 9223372036854775807⟩] ∧
    (NQueens.Unassign 0 (boardOf [0, 0] [maxCost])).toOption.map (fun x => x.2.rows) =
      some [-1, 0] ∧
    (NQueens.Unassign 1 (boardOf [0, 0] [maxCost])).toOption.map (fun x => x.2.rows) =
      some [0, -1] ∧
    (∀ (d : Nat) (ds : Rand),
      Step (NQueens.subject [0, 1]) (boardOf [0, 0] [maxCost]) (d :: ds) = .error .panic) := by
  refine ⟨by decide, by decide, boardOf_total _ _ (by decide), by decide, by decide, by decide,
    ?_⟩
  intro d ds
  have hC : (NQueens.subject [0, 1]).Conflicts (boardOf [0, 0] [maxCost]) =
      .ok ([⟨0, 9223372036854775807⟩, ⟨1, 9223372036854775807⟩], boardOf [0, 0] [maxCost]) := rfl
  have hd : Intn (([⟨0, 9223372036854775807⟩, ⟨1, 9223372036854775807⟩] : List Conflict).length)
      (d :: ds) = .ok ((d : Int) % 2, ds) := rfl
  refine Step_of_scan_error _ _ _ _ _ _ _ _ hC (by decide) hd ?_
  rcases Int.emod_two_eq_zero_or_one (d : Int) with h | h <;> rw [h] <;> rfl

/-- C3, at the failing input. On the board of three columns on row 2 whose
constraint charges the largest `int` on row 0, nothing on row 1 and 1 elsewhere,
every entry of the report has count 1 and heuristic cost 0, attained at row 1
only, so the claim has the step move the first scanned column to row 1 and return
false; but the first loop of `Heuristic` counts no row and, whatever the offset
and the other outcomes, the step panics in its first heuristic call. -/
theorem Step_panics_before_improving :
    (boardOf [2, 2, 2] [gradedCost]).wf ∧
    (boardOf [2, 2, 2] [gradedCost]).Conflicts [0, 1, 2] = [⟨0, 1⟩, ⟨1, 1⟩, ⟨2, 1⟩] ∧
    (∀ c ∈ (boardOf [2, 2, 2] [gradedCost]).Conflicts [0, 1, 2],
      (boardOf [2, 2, 2] [gradedCost]).improvable c ∧
      ((boardOf [2, 2, 2] [gradedCost]).setRow c.Var (-1)).minimizers c.Var = [1] ∧
      ((boardOf [2, 2, 2] [gradedCost]).setRow c.Var (-1)).minCost c.Var = 0 ∧
      ((boardOf [2, 2, 2] [gradedCost]).setRow c.Var (-1)).rowConflicts c.Var =
        [9223372036854775807, 0, 1]) ∧
    scanMin [9223372036854775807, 0, 1] 0 (0, wrap64 (9223372036854775807 + 1), 0) =
      (0, -9223372036854775808, 0) ∧
    (∀ (d : Nat) (ds : Rand),
      Step (NQueens.subject [0, 1, 2]) (boardOf [2, 2, 2] [gradedCost]) (d :: ds) =
        .error .panic) := by
  refine ⟨by decide, by decide, by decide, by decide, ?_⟩
  intro d ds
  have hC : (NQueens.subject [0, 1, 2]).Conflicts (boardOf [2, 2, 2] [gradedCost]) =
      .ok ([⟨0, 1⟩, ⟨1, 1⟩, ⟨2, 1⟩], boardOf [2, 2, 2] [gradedCost]) := rfl
  have hd : Intn (([⟨0, 1⟩, ⟨1, 1⟩, ⟨2, 1⟩] : List Conflict).length) (d :: ds) =
      .ok ((d : Int) % 3, ds) := rfl
  refine Step_of_scan_error _ _ _ _ _ _ _ _ hC (by decide) hd ?_
  have h3 : (d : Int) % 3 = 0 ∨ (d : Int) % 3 = 1 ∨ (d : Int) % 3 = 2 := by omega
  rcases h3 with h | h | h <;> rw [h] <;> rfl

/-- C5, at the failing input. On the board of two columns on row 0 whose constraint
returns the largest `int`, the report is non-empty and no entry can be strictly
improved, so the claim has the step exchange the rows of two columns and return
false; but the heuristic panics on either column, and whatever the random
outcomes the step panics in its scan and never reaches the swap. -/
theorem Step_panics_on_plateau :
    2 ≤ (boardOf [0, 0] [maxCost]).Size ∧
    (boardOf [0, 0] [maxCost]).Conflicts [0, 1] ≠ [] ∧
    (∀ c ∈ (boardOf [0, 0] [maxCost]).Conflicts [0, 1],
      ¬ (boardOf [0, 0] [maxCost]).improvable c) ∧
    (∀ v : Int, 0 ≤ v → v < 2 →
      ∀ r : Rand, ((boardOf [0, 0] [maxCost]).setRow v (-1)).Heuristic v r = .error .panic) ∧
    (∀ (d : Nat) (ds : Rand),
      Step (NQueens.subject [0, 1]) (boardOf [0, 0] [maxCost]) (d :: ds) = .error .panic) := by
  refine ⟨by decide, by decide, by decide, ?_, ?_⟩
  · intro v h0 h1 r
    interval_cases v <;> rfl
  · intro d ds
    have hC : (NQueens.subject [0, 1]).Conflicts (boardOf [0, 0] [maxCost]) =
        .ok ([⟨0, 9223372036854775807⟩, ⟨1, 9223372036854775807⟩], boardOf [0, 0] [maxCost]) :=
      rfl
    have hd : Intn (([⟨0, 9223372036854775807⟩, ⟨1, 9223372036854775807⟩] :
        List Conflict).length) (d :: ds) = .ok ((d : Int) % 2, ds) := rfl
    refine Step_of_scan_error _ _ _ _ _ _ _ _ hC (by decide) hd ?_
    rcases Int.emod_two_eq_zero_or_one (d : Int) with h | h <;> rw [h] <;> rfl

/-- The position the last iteration of the scan reads, `(len - 1 + off) % len`, is
the position `off` the first one reads only when `len` is 1. -/
theorem last_position_eq_iff (len off : Int) (h0 : 0 ≤ off) (h1 : off < len) :
    ((len - 1 + off) % len = off ↔ len = 1) := by
  by_cases hz : off = 0
  · subst hz
    rw [add_zero, Int.emod_eq_of_lt (by omega) (by omega)]
    omega
  · have e : len - 1 + off = off - 1 + len := by ring
    rw [e, Int.add_emod_self, Int.emod_eq_of_lt (by omega) (by omega)]
    omega

/-- C4, as amended. For every subject, every non-empty report `cs` and every
outcome `d` of the offset draw, with `off = d % len(cs)`: when the scan of `Step`
from `off` improves no variable and the coin flip that follows is not zero, so
that a conflicting variable is reused, the step is the escape move anchored on the
variable of `cs[off]`: it draws `var2` against that variable and exchanges the
values of the two.  `cs[off]` is the entry the scan examined first, in iteration
`i = 0` (`cs[(0+off)%len(cs)]`); the last iteration, `i = len(cs) - 1`, reads
position `off` as well only when the report has length 1. -/
theorem Step_escape_anchor {σ : Type} (mc : MinConflict σ) (s s0 s1 : σ) (cs : List Conflict)
    (d : Nat) (r1 r3 : Rand) (coin : Nat)
    (hc : mc.Conflicts s = .ok (cs, s0)) (hne : cs ≠ [])
    (hs : scanLoop mc cs ((d : Int) % cs.length) (List.range cs.length) s0 r1 =
      .ok (false, s1, coin :: r3))
    (hcoin : (coin : Int) % 2 ≠ 0) :
    ((((cs.length - 1 : Nat) : Int) + (d : Int) % cs.length) % cs.length = (d : Int) % cs.length ↔
      cs.length = 1) ∧
    ∃ c : Conflict,
      index cs ((((0 : Nat) : Int) + (d : Int) % cs.length) % cs.length) = .ok c ∧
      index cs ((d : Int) % cs.length) = .ok c ∧
      swapAnchor mc cs ((d : Int) % cs.length) s1 (coin :: r3) = .ok (c.Var, s1, r3) ∧
      Step mc s (d :: r1) = escape mc cs ((d : Int) % cs.length) s1 (coin :: r3) ∧
      Step mc s (d :: r1) =
        (pickVar2 mc c.Var (r3.length + 1) s1 r3).bind fun p =>
          (swapVals mc c.Var p.1 p.2.1).map fun s3 => (false, s3, p.2.2) := by
  have hpos : 0 < cs.length := List.length_pos.mpr hne
  have hoff : 0 ≤ (d : Int) % cs.length ∧ (d : Int) % cs.length < cs.length :=
    ⟨Int.emod_nonneg _ (by omega), Int.emod_lt_of_pos _ (by omega)⟩
  have hd : Intn cs.length (d :: r1) = .ok ((d : Int) % cs.length, r1) := by
    unfold Intn
    rw [if_neg (by omega)]
  obtain ⟨c, hc0, hanchor⟩ :=
    swapAnchor_reuses_first mc cs ((d : Int) % cs.length) s1 coin r3 hoff hcoin
  have hmod : (((0 : Nat) : Int) + (d : Int) % cs.length) % cs.length = (d : Int) % cs.length := by
    rw [Nat.cast_zero, zero_add]
    exact Int.emod_eq_of_lt hoff.1 hoff.2
  have hstep := Step_of_scan_false mc s s0 s1 (d :: r1) r1 (coin :: r3) cs _ hc hne hd hs
  have hlast : ((cs.length - 1 : Nat) : Int) = (cs.length : Int) - 1 := by omega
  refine ⟨?_, c, hc0, by rw [← hmod]; exact hc0, hanchor, hstep, ?_⟩
  · rw [hlast, last_position_eq_iff _ _ hoff.1 hoff.2]
    omega
  rw [hstep]
  unfold escape
  rw [hanchor]
  simp only
  cases h : pickVar2 mc c.Var (r3.length + 1) s1 r3 with
  | error e => rfl
  | ok p =>
    obtain ⟨var2, s2, r4⟩ := p
    simp only [Except.bind]
    cases h2 : swapVals mc c.Var var2 s2 with
    | error e => rfl
    | ok s3 => rfl

/-- The scan of the plateau board from offset 0 with the outcomes 0, 1, 0: it reads
one outcome, improves nothing and puts both candidates back. -/
theorem plateau_scan :
    scanLoop (NQueens.subject [0, 1, 2, 3]) (plateauBoard.Conflicts [0, 1, 2, 3])
      (((0 : Nat) : Int) % (plateauBoard.Conflicts [0, 1, 2, 3]).length)
      (List.range (plateauBoard.Conflicts [0, 1, 2, 3]).length) plateauBoard [0, 1, 0] =
      .ok (false, plateauBoard, 1 :: [0]) := rfl

/-- Witness for C4: the plateau board, whose report is `[(1,1), (2,1)]`, with the
outcomes 0, 0, 1, 0: offset 0, a scan that improves nothing, the coin at 1.  The
anchor is column 1, the entry scanned first, and the step ends with columns 1 and
0 exchanged; column 2, scanned last, is not moved. -/
theorem Step_escape_anchor_witness :
    (NQueens.subject [0, 1, 2, 3]).Conflicts plateauBoard =
      .ok (plateauBoard.Conflicts [0, 1, 2, 3], plateauBoard) ∧
    plateauBoard.Conflicts [0, 1, 2, 3] = [⟨1, 1⟩, ⟨2, 1⟩] ∧
    ((1 : Nat) : Int) % 2 ≠ 0 ∧
    ((plateauBoard.Conflicts [0, 1, 2, 3]).length - 1 : Nat) = 1 ∧
    (∃ c : Conflict,
      index (plateauBoard.Conflicts [0, 1, 2, 3])
        ((((0 : Nat) : Int) + ((0 : Nat) : Int) % (plateauBoard.Conflicts [0, 1, 2, 3]).length) %
          (plateauBoard.Conflicts [0, 1, 2, 3]).length) = .ok c ∧
      index (plateauBoard.Conflicts [0, 1, 2, 3])
        (((0 : Nat) : Int) % (plateauBoard.Conflicts [0, 1, 2, 3]).length) = .ok c ∧
      swapAnchor (NQueens.subject [0, 1, 2, 3]) (plateauBoard.Conflicts [0, 1, 2, 3])
        (((0 : Nat) : Int) % (plateauBoard.Conflicts [0, 1, 2, 3]).length) plateauBoard
        (1 :: [0]) = .ok (c.Var, plateauBoard, [0]) ∧
      Step (NQueens.subject [0, 1, 2, 3]) plateauBoard (0 :: [0, 1, 0]) =
        escape (NQueens.subject [0, 1, 2, 3]) (plateauBoard.Conflicts [0, 1, 2, 3])
          (((0 : Nat) : Int) % (plateauBoard.Conflicts [0, 1, 2, 3]).length) plateauBoard
          (1 :: [0]) ∧
      Step (NQueens.subject [0, 1, 2, 3]) plateauBoard (0 :: [0, 1, 0]) =
        (pickVar2 (NQueens.subject [0, 1, 2, 3]) c.Var (([0] : Rand).length + 1)
          plateauBoard [0]).bind fun p =>
            (swapVals (NQueens.subject [0, 1, 2, 3]) c.Var p.1 p.2.1).map fun s3 =>
              (false, s3, p.2.2)) ∧
    (index (plateauBoard.Conflicts [0, 1, 2, 3])
      (((0 : Nat) : Int) % (plateauBoard.Conflicts [0, 1, 2, 3]).length)).toOption.map
        (fun c => c.Var) = some 1 ∧
    (Step (NQueens.subject [0, 1, 2, 3]) plateauBoard (0 :: [0, 1, 0])).toOption.map
      (fun x => (x.1, x.2.1.rows, x.2.2)) = some (false, [2, 0, 3, 1], []) :=
  ⟨rfl, by decide, by decide, by decide,
    (Step_escape_anchor (NQueens.subject [0, 1, 2, 3]) plateauBoard plateauBoard plateauBoard
      (plateauBoard.Conflicts [0, 1, 2, 3]) 0 [0, 1, 0] [0] 1 rfl (by decide) plateau_scan
      (by decide)).2,
    by decide, by decide⟩

end nqueens
